import Mathlib

/-! # Lotus: message codec and actor-method registry

A shallow embedding of `chain/types/message.go` and of the method registry and
parameter encoder of `cli/state.go`, with the properties of the design document
stated and proved over it.

Conventions of the embedding:

* Go machine integers are `Int`/`Nat` with explicit ranges (`isInt64`, `isUint64`)
  and explicit conversions (`uint64OfInt64`).
* A Go call that can return an error or panic is a `Result`: `ret` is a normal
  return, `err` an ordinary returned error, `crash` a runtime panic.
* Code of other modules (hashing, reflection data of the built-in actors, string
  parsers) enters as parameters.
-/

namespace Lotus

/-! ## Basic types -/

/-- A byte. -/
abbrev Byte := Fin 256

/-- A Go `[]byte`. -/
abbrev Bytes := List Byte

/-- Outcome of a Go call: normal return, ordinary returned error, or runtime panic. -/
inductive Result (α : Type) where
  | ret (a : α)
  | err (msg : String)
  | crash (msg : String)
  deriving DecidableEq, Repr

/-- Range of a Go `int64`. -/
def isInt64 (x : Int) : Prop := -(2 : Int) ^ 63 ≤ x ∧ x < (2 : Int) ^ 63

instance (x : Int) : Decidable (isInt64 x) := by unfold isInt64; infer_instance

/-- Range of a Go `uint64`. -/
def isUint64 (n : Nat) : Prop := n < 2 ^ 64

instance (n : Nat) : Decidable (isUint64 n) := by unfold isUint64; infer_instance

/-- The Go conversion `uint64(x)` of an `int64` value: reduction modulo `2^64`. -/
def uint64OfInt64 (x : Int) : Nat := (x % (2 : Int) ^ 64).toNat

/-- An `address.Address`: its raw payload; the undefined address `Undef` is the empty one. -/
abbrev Address := Bytes

/-- The constant `address.Undef`. -/
def Undef : Address := []

/-! ## `chain/types/message.go` -/

/-- The constant `MessageVersion`. -/
def MessageVersion : Int := 0

/-- Modelled from the spec: the type `BigInt` (declared in `chain/types/bigint.go`), an
arbitrary-precision integer amount. -/
abbrev BigInt := Int

/-- Modelled from the spec: `NewInt` (`chain/types/bigint.go`), the arbitrary-precision
amount holding an unsigned 64-bit value. -/
def NewInt (i : Nat) : BigInt := (i : Int)

/-- Modelled from the spec: `BigAdd` (`chain/types/bigint.go`), arbitrary-precision sum. -/
def BigAdd (a b : BigInt) : BigInt := a + b

/-- Modelled from the spec: `BigMul` (`chain/types/bigint.go`), arbitrary-precision product. -/
def BigMul (a b : BigInt) : BigInt := a * b

/-- The struct `Message`. `Version` and `GasLimit` are `int64`, `Nonce` is `uint64`,
`Method` is an `abi.MethodNum`. -/
structure Message where
  Version : Int
  To : Address
  From : Address
  Nonce : Nat
  Value : BigInt
  GasPrice : BigInt
  GasLimit : Int
  Method : Nat
  Params : Bytes
  deriving DecidableEq, Repr

/-- The zero value of `Message` (`var msg Message`). -/
def Message.zero : Message := ⟨0, [], [], 0, 0, 0, 0, 0, []⟩

/-- The fields of a `Message` are within the ranges of their Go types. -/
def Message.inRange (m : Message) : Prop :=
  isInt64 m.Version ∧ isUint64 m.Nonce ∧ isInt64 m.GasLimit ∧ isUint64 m.Method ∧
    isUint64 m.To.length ∧ isUint64 m.From.length ∧ isUint64 m.Params.length

instance (m : Message) : Decidable m.inRange := by unfold Message.inRange; infer_instance

/-- The method `(*Message).RequiredFunds`. -/
def Message.RequiredFunds (m : Message) : BigInt :=
  BigAdd m.Value (BigMul m.GasPrice (NewInt (uint64OfInt64 m.GasLimit)))

/-! ### The generated CBOR codec of `Message`

`MarshalCBOR` and `UnmarshalCBOR` of `Message` are generated code kept beside
`message.go`. They are modelled from the design document: a length-prefixed array of
the nine fields in declaration order, every integer in its shortest form. -/

/-- The byte with value `n mod 256`. -/
def byteOf (n : Nat) : Byte := ⟨n % 256, Nat.mod_lt _ (by decide)⟩

/-- Modelled from the spec: the `k` low-order bytes of `n`, most significant first
(fixed-width big-endian integer of the canonical byte format). -/
def toBE : Nat → Nat → Bytes
  | 0, _ => []
  | k + 1, n => byteOf (n / 256 ^ k) :: toBE k n

/-- Modelled from the spec: the number denoted by a big-endian byte string. -/
def ofBE (bs : Bytes) : Nat := bs.foldl (fun acc b => acc * 256 + b.val) 0

/-- Modelled from the spec: the number of bytes of the shortest big-endian form of `n`,
found in at most `fuel` divisions by 256. -/
def byteLenAux : Nat → Nat → Nat
  | 0, _ => 0
  | fuel + 1, n => if n = 0 then 0 else byteLenAux fuel (n / 256) + 1

/-- Modelled from the spec: the number of bytes of the shortest big-endian form of `n`
(minimal-width representation); `0` for `n = 0`. -/
def byteLen (n : Nat) : Nat := byteLenAux n n

/-- Modelled from the spec: the length-prefix header of the canonical byte format, a
major type `maj` (below 8) and an unsigned 64-bit argument `v` in the shortest of the five
widths. -/
def writeHeader (maj v : Nat) : Bytes :=
  if v < 24 then [byteOf (maj * 32 + v)]
  else if v < 2 ^ 8 then byteOf (maj * 32 + 24) :: toBE 1 v
  else if v < 2 ^ 16 then byteOf (maj * 32 + 25) :: toBE 2 v
  else if v < 2 ^ 32 then byteOf (maj * 32 + 26) :: toBE 4 v
  else byteOf (maj * 32 + 27) :: toBE 8 v

/-- Modelled from the spec: read `k` bytes as a big-endian number; `none` when fewer than
`k` bytes are left (truncated input). -/
def readBE (k : Nat) (bs : Bytes) : Option (Nat × Bytes) :=
  if bs.length < k then none else some (ofBE (bs.take k), bs.drop k)

/-- Modelled from the spec: read the argument of a header from `k` bytes; `none` when
fewer than `k` bytes are left and when the argument is below `lo`, that is, when a shorter
width holds it (minimal-width representation: no other encoding of the number is legal). -/
def readArg (k lo : Nat) (bs : Bytes) : Option (Nat × Bytes) :=
  match readBE k bs with
  | some (v, rest) => if v < lo then none else some (v, rest)
  | none => none

/-- Modelled from the spec: read a header, giving the major type, the argument and the
remaining input; `none` on truncated or malformed input, and on an argument that is not in
its shortest width. -/
def readHeader : Bytes → Option (Nat × Nat × Bytes)
  | [] => none
  | b :: rest =>
    let maj := b.val / 32
    let low := b.val % 32
    if low < 24 then some (maj, low, rest)
    else if low = 24 then (readArg 1 24 rest).map (fun r => (maj, r.1, r.2))
    else if low = 25 then (readArg 2 (2 ^ 8) rest).map (fun r => (maj, r.1, r.2))
    else if low = 26 then (readArg 4 (2 ^ 16) rest).map (fun r => (maj, r.1, r.2))
    else if low = 27 then (readArg 8 (2 ^ 32) rest).map (fun r => (maj, r.1, r.2))
    else none

/-- Modelled from the spec: encoding of a `uint64` field (major type 0). -/
def writeUint64 (v : Nat) : Bytes := writeHeader 0 v

/-- Modelled from the spec: decoding of a `uint64` field. -/
def readUint64 (bs : Bytes) : Option (Nat × Bytes) :=
  match readHeader bs with
  | some (maj, v, rest) => if maj = 0 then some (v, rest) else none
  | none => none

/-- Modelled from the spec: encoding of an `int64` field, major type 0 for `v ≥ 0` and
major type 1 holding `-1 - v` for `v < 0`. -/
def writeInt64 (v : Int) : Bytes :=
  if 0 ≤ v then writeHeader 0 v.toNat else writeHeader 1 (-v - 1).toNat

/-- Modelled from the spec: decoding of an `int64` field; an argument of `2^63` or more
does not fit and is malformed. -/
def readInt64 (bs : Bytes) : Option (Int × Bytes) :=
  match readHeader bs with
  | some (maj, v, rest) =>
    if 2 ^ 63 ≤ v then none
    else if maj = 0 then some ((v : Int), rest)
    else if maj = 1 then some (-1 - (v : Int), rest)
    else none
  | none => none

/-- Modelled from the spec: encoding of a byte string, its length as a major type 2 header
and then the bytes. -/
def writeBytes (bs : Bytes) : Bytes := writeHeader 2 bs.length ++ bs

/-- Modelled from the spec: decoding of a byte string; `none` when the input ends before
the announced length. -/
def readBytes (bs : Bytes) : Option (Bytes × Bytes) :=
  match readHeader bs with
  | some (maj, n, rest) =>
    if maj = 2 then (if rest.length < n then none else some (rest.take n, rest.drop n))
    else none
  | none => none

/-- Modelled from the spec: the bytes of an arbitrary-precision amount, empty for zero and
otherwise a sign byte (`0` for positive, `1` for negative) before the shortest big-endian
magnitude. -/
def bigBytes (v : BigInt) : Bytes :=
  if v = 0 then []
  else (if 0 < v then byteOf 0 else byteOf 1) :: toBE (byteLen v.natAbs) v.natAbs

/-- Modelled from the spec: the amount denoted by sign-and-magnitude bytes; `none` for an
unknown sign byte, and for a magnitude that is empty or begins with a zero byte (zero has
the empty encoding only, and a magnitude has its shortest form only). -/
def bigOfBytes : Bytes → Option BigInt
  | [] => some 0
  | _ :: [] => none
  | s :: b :: mag =>
    if b.val = 0 then none
    else if s.val = 0 then some (ofBE (b :: mag) : Int)
    else if s.val = 1 then some (-(ofBE (b :: mag) : Int))
    else none

/-- Modelled from the spec: encoding of a `BigInt` field as a byte string. -/
def writeBigInt (v : BigInt) : Bytes := writeBytes (bigBytes v)

/-- Modelled from the spec: decoding of a `BigInt` field. -/
def readBigInt (bs : Bytes) : Option (BigInt × Bytes) :=
  match readBytes bs with
  | some (raw, rest) =>
    (match bigOfBytes raw with
     | some v => some (v, rest)
     | none => none)
  | none => none

/-- A `Message` is valid for the codec: its fields are in the ranges of their Go types and
the byte strings it holds have lengths that a 64-bit length prefix can express. -/
def Message.valid (m : Message) : Prop :=
  m.inRange ∧ isUint64 (byteLen m.Value.natAbs + 1) ∧ isUint64 (byteLen m.GasPrice.natAbs + 1)

instance (m : Message) : Decidable m.valid := by unfold Message.valid; infer_instance

/-- Modelled from the spec: `(*Message).MarshalCBOR` (generated, `chain/types/cbor_gen.go`):
an array header for nine fields, then the fields in declaration order. An undefined
address cannot be encoded and gives an error. -/
def Message.MarshalCBOR (t : Message) : Result Bytes :=
  if t.To = Undef then .err "cannot marshal undefined address"
  else if t.From = Undef then .err "cannot marshal undefined address"
  else .ret (writeHeader 4 9 ++ (writeInt64 t.Version ++ (writeBytes t.To ++
    (writeBytes t.From ++ (writeUint64 t.Nonce ++ (writeBigInt t.Value ++
    (writeBigInt t.GasPrice ++ (writeInt64 t.GasLimit ++ (writeUint64 t.Method ++
    writeBytes t.Params)))))))))

/-- Modelled from the spec: `(*Message).UnmarshalCBOR` (generated,
`chain/types/cbor_gen.go`). The receiver starts as the zero message and is filled field by
field; the result is the receiver after the call and the error, if any. At an error the
receiver keeps the fields read so far. Input after the ninth field is not read. A field
that is not in its canonical form (an integer in a wider width than it needs, an amount
with a signed zero or a leading zero byte) is malformed. -/
def Message.UnmarshalCBOR (b : Bytes) : Message × Option String :=
  let t := Message.zero
  match readHeader b with
  | none => (t, some "unexpected EOF")
  | some (maj, n, r) =>
  if maj ≠ 4 then (t, some "cbor input should be of type array") else
  if n ≠ 9 then (t, some "cbor input had wrong number of fields") else
  match readInt64 r with
  | none => (t, some "malformed Version")
  | some (v, r) =>
  let t := { t with Version := v }
  match readBytes r with
  | none => (t, some "malformed To")
  | some (v, r) =>
  let t := { t with To := v }
  match readBytes r with
  | none => (t, some "malformed From")
  | some (v, r) =>
  let t := { t with From := v }
  match readUint64 r with
  | none => (t, some "malformed Nonce")
  | some (v, r) =>
  let t := { t with Nonce := v }
  match readBigInt r with
  | none => (t, some "malformed Value")
  | some (v, r) =>
  let t := { t with Value := v }
  match readBigInt r with
  | none => (t, some "malformed GasPrice")
  | some (v, r) =>
  let t := { t with GasPrice := v }
  match readInt64 r with
  | none => (t, some "malformed GasLimit")
  | some (v, r) =>
  let t := { t with GasLimit := v }
  match readUint64 r with
  | none => (t, some "malformed Method")
  | some (v, r) =>
  let t := { t with Method := v }
  match readBytes r with
  | none => (t, some "malformed Params")
  | some (v, _) => ({ t with Params := v }, none)

/-- The generated codec of `Message` as the rest of `message.go` sees it: `MarshalCBOR`
and `UnmarshalCBOR` (receiver after the call, and the error). -/
structure Codec where
  MarshalCBOR : Message → Result Bytes
  UnmarshalCBOR : Bytes → Message × Option String

/-- The codec modelled from the design document. -/
def cborGen : Codec := ⟨Message.MarshalCBOR, Message.UnmarshalCBOR⟩

/-- The function `DecodeMessage`: the Go pair (message or `nil`, error or `nil`). -/
def DecodeMessage (cdc : Codec) (b : Bytes) : Option Message × Option String :=
  match cdc.UnmarshalCBOR b with
  | (_, some e) => (none, some e)
  | (msg, none) =>
    if msg.Version ≠ MessageVersion then
      (none, some ("decoded message had incorrect version (" ++ toString msg.Version ++ ")"))
    else (some msg, none)

/-- The method `(*Message).Serialize`. -/
def Message.Serialize (cdc : Codec) (m : Message) : Result Bytes :=
  match cdc.MarshalCBOR m with
  | .ret buf => .ret buf
  | .err e => .err e
  | .crash e => .crash e

/-! ### Content identifiers -/

/-- A `cid.Prefix`: version, codec, multihash type and multihash length. -/
structure cid.Prefix where
  Version : Nat
  Codec : Nat
  MhType : Nat
  MhLength : Int
  deriving DecidableEq, Repr

/-- A `cid.Cid`: version, codec, and the multihash as its type and its digest. -/
structure cid.Cid where
  Version : Nat
  Codec : Nat
  MhType : Nat
  Digest : Bytes
  deriving DecidableEq, Repr

/-- The constant `cid.DagCBOR`. -/
def cid.DagCBOR : Nat := 0x71

/-- The constant `multihash.BLAKE2B_MIN`. -/
def multihash.BLAKE2B_MIN : Nat := 0xb201

/-- The function `cid.NewPrefixV1`. -/
def cid.NewPrefixV1 (codecType mhType : Nat) : cid.Prefix := ⟨1, codecType, mhType, -1⟩

/-- The method `cid.Prefix.Sum` of go-cid, a parameter of the embedding: the identifier of
some data under a prefix, or an error. -/
abbrev SumFn := cid.Prefix → Bytes → Result cid.Cid

/-- A `block.Block`: raw data and its identifier. -/
structure block.Block where
  data : Bytes
  cid : cid.Cid
  deriving DecidableEq, Repr

/-- The function `block.NewBlockWithCid` of go-block-format (outside debug mode): the block
holding the given data and identifier. -/
def block.NewBlockWithCid (data : Bytes) (c : cid.Cid) : Result block.Block := .ret ⟨data, c⟩

/-- The prefix built in `ToStorageBlock`: CID version 1, DagCBOR, BLAKE2b-256. -/
def messagePrefix : cid.Prefix := cid.NewPrefixV1 cid.DagCBOR (multihash.BLAKE2B_MIN + 31)

/-- The method `(*Message).ToStorageBlock`. -/
def Message.ToStorageBlock (cdc : Codec) (sum : SumFn) (m : Message) : Result block.Block :=
  match m.Serialize cdc with
  | .ret data =>
    let pref := cid.NewPrefixV1 cid.DagCBOR (multihash.BLAKE2B_MIN + 31)
    (match sum pref data with
     | .ret c => block.NewBlockWithCid data c
     | .err e => .err e
     | .crash e => .crash e)
  | .err e => .err e
  | .crash e => .crash e

/-- The method `(*Message).Cid`: an error of `ToStorageBlock` becomes a panic. -/
def Message.Cid (cdc : Codec) (sum : SumFn) (m : Message) : Result cid.Cid :=
  match m.ToStorageBlock cdc sum with
  | .ret b => .ret b.cid
  | .err e => .crash ("failed to marshal message: " ++ e)
  | .crash e => .crash e

/-- The method `(*Message).Equals`: `m.Cid() == o.Cid()`, the left call first. -/
def Message.Equals (cdc : Codec) (sum : SumFn) (m o : Message) : Result Bool :=
  match m.Cid cdc sum with
  | .ret c =>
    (match o.Cid cdc sum with
     | .ret d => .ret (decide (c = d))
     | .err e => .err e
     | .crash e => .crash e)
  | .err e => .err e
  | .crash e => .crash e

/-! ## `cli/state.go`: the method registry -/

/-- The code identifiers of the built-in actors (`builtin.*ActorCodeID`), pairwise distinct,
and every other `cid.Cid` that can name an actor's code. -/
inductive CodeID where
  | SystemActorCodeID
  | InitActorCodeID
  | CronActorCodeID
  | AccountActorCodeID
  | StoragePowerActorCodeID
  | StorageMinerActorCodeID
  | StorageMarketActorCodeID
  | PaymentChannelActorCodeID
  | MultisigActorCodeID
  | RewardActorCodeID
  | VerifiedRegistryActorCodeID
  | other (c : cid.Cid)
  deriving DecidableEq, Repr

/-- The type of a struct field, as far as `parseParamsForMethod` tells field types apart:
`address.Address`, `uint64`, `peer.ID`, or any other type (by name). -/
inductive FieldType where
  | address
  | uint64
  | peerID
  | other (name : String)
  deriving DecidableEq, Repr

/-- A struct type: its name and its fields (name and type) in declaration order. -/
structure StructType where
  name : String
  fields : List (String × FieldType)
  deriving DecidableEq, Repr

/-- A `reflect.Type`, as far as the registry and the encoder inspect it: a struct, a pointer,
another kind with an element type (slice, array, channel, map), or any other type. -/
inductive RType where
  | struct (s : StructType)
  | ptr (elem : RType)
  | container (kind : String) (elem : RType)
  | basic (name : String)
  deriving DecidableEq, Repr

/-- The method `reflect.Type.Elem`: it panics on a type without an element type. -/
def RType.Elem : RType → Result RType
  | .ptr e => .ret e
  | .container _ e => .ret e
  | .struct _ => .crash "reflect: Elem of invalid type"
  | .basic _ => .crash "reflect: Elem of invalid type"

/-- What `reflect.TypeOf` gives for one entry of an actor's `Exports()`: nothing for a nil
entry, a function type with its inputs and outputs, or a type that is not a function. -/
inductive Export where
  | nilValue
  | func (ins outs : List RType)
  | nonFunc (t : RType)
  deriving DecidableEq, Repr

/-- The method `reflect.Type.NumIn`: it panics on a nil type and on a non-function. -/
def Export.NumIn : Export → Result Nat
  | .func ins _ => .ret ins.length
  | .nilValue => .crash "invalid memory address or nil pointer dereference"
  | .nonFunc _ => .crash "reflect: NumIn of non-func type"

/-- The method `reflect.Type.In`: it panics on a nil type, a non-function, or an index out
of range. -/
def Export.In (e : Export) (i : Nat) : Result RType :=
  match e with
  | .func ins _ =>
    (match ins[i]? with
     | some t => .ret t
     | none => .crash "index out of range")
  | .nilValue => .crash "invalid memory address or nil pointer dereference"
  | .nonFunc _ => .crash "reflect: In of non-func type"

/-- The method `reflect.Type.Out`: it panics on a nil type, a non-function, or an index out
of range. -/
def Export.Out (e : Export) (i : Nat) : Result RType :=
  match e with
  | .func _ outs =>
    (match outs[i]? with
     | some t => .ret t
     | none => .crash "index out of range")
  | .nilValue => .crash "invalid memory address or nil pointer dereference"
  | .nonFunc _ => .crash "reflect: Out of non-func type"

/-- The struct `methodMeta`. -/
structure methodMeta where
  name : String
  params : RType
  ret : RType
  deriving DecidableEq, Repr

/-- The struct type `adt.EmptyValue`, without fields. -/
def adt.EmptyValue : StructType := ⟨"adt.EmptyValue", []⟩

/-- The type `reflect.TypeOf(new(adt.EmptyValue))`. -/
def emptyValuePtr : RType := .ptr (.struct adt.EmptyValue)

/-- The descriptor that `init` puts at method number 0 of every class. -/
def sendMeta : methodMeta := ⟨"Send", emptyValuePtr, emptyValuePtr⟩

/-- What `init` and `parseParamsForMethod` see of a built-in actor of specs-actors: the field
names of its method-number struct (`builtin.Methods...`), in declaration order, and the
types of the entries of `Actor{}.Exports()`. -/
structure ActorDef where
  methodNums : List String
  exports : List Export
  deriving DecidableEq, Repr

/-- The built-in actors of specs-actors, a parameter of the embedding. -/
abbrev Builtin := CodeID → ActorDef

/-- The Go map `methods`: a list of keys with their values, every key at most once. -/
abbrev MethodsMap := List (CodeID × List methodMeta)

/-- The Go expression `methods[c]`: the nil slice for a key that is absent. -/
def methodsGet (methods : MethodsMap) (c : CodeID) : List methodMeta :=
  (methods.lookup c).getD []

/-- The Go assignment `methods[c] = v`. -/
def methodsSet (methods : MethodsMap) (c : CodeID) (v : List methodMeta) : MethodsMap :=
  (c, v) :: methods.filter (fun e => !decide (e.1 = c))

/-- The map literal `cidToMethods` of `init`, key by key in the order of the source. -/
def cidToMethods (builtin : Builtin) : List (CodeID × ActorDef) :=
  [ (.InitActorCodeID, builtin .InitActorCodeID),
    (.CronActorCodeID, builtin .CronActorCodeID),
    (.AccountActorCodeID, builtin .AccountActorCodeID),
    (.StoragePowerActorCodeID, builtin .StoragePowerActorCodeID),
    (.StorageMinerActorCodeID, builtin .StorageMinerActorCodeID),
    (.StorageMarketActorCodeID, builtin .StorageMarketActorCodeID),
    (.PaymentChannelActorCodeID, builtin .PaymentChannelActorCodeID),
    (.MultisigActorCodeID, builtin .MultisigActorCodeID),
    (.RewardActorCodeID, builtin .RewardActorCodeID),
    (.VerifiedRegistryActorCodeID, builtin .VerifiedRegistryActorCodeID) ]

/-- The inner loop of `init`, `for i := 0; i < nf; i++`, entered at index `i` with the field
names from index `i` on: each round appends to `methods[c]` the descriptor of export
`i + 1`. Indexing past the exports, a nil or non-function export, or a function without a
second input or a first output is a panic. -/
def initExports (c : CodeID) (exports : List Export) :
    List String → Nat → MethodsMap → Result MethodsMap
  | [], _, methods => .ret methods
  | name :: rest, i, methods =>
    match exports[i + 1]? with
    | none => .crash "index out of range"
    | some ex =>
      (match ex.In 1 with
       | .ret p =>
         (match ex.Out 0 with
          | .ret r =>
            initExports c exports rest (i + 1)
              (methodsSet methods c (methodsGet methods c ++ [⟨name, p, r⟩]))
          | .err e => .err e
          | .crash e => .crash e)
       | .err e => .err e
       | .crash e => .crash e)

/-- The body of the outer loop of `init` for one entry `c, m` of `cidToMethods`. -/
def initEntry (methods : MethodsMap) (e : CodeID × ActorDef) : Result MethodsMap :=
  initExports e.1 e.2.exports e.2.methodNums 0
    (methodsSet methods e.1 (methodsGet methods e.1 ++ [sendMeta]))

/-- The outer loop of `init` over the entries of `cidToMethods` in a given order; a panic
ends it. -/
def initLoop : List (CodeID × ActorDef) → MethodsMap → Result MethodsMap
  | [], methods => .ret methods
  | e :: rest, methods =>
    match initEntry methods e with
    | .ret methods1 => initLoop rest methods1
    | .err msg => .err msg
    | .crash msg => .crash msg

/-- The function `init`, from the empty `methods`, visiting the map literal in the order
`order` (Go leaves the order of a `range` over a map open). -/
def init (order : List (CodeID × ActorDef)) : Result MethodsMap := initLoop order []

/-- The descriptors `entries` are the ones that the inner loop of `init` derives for the
field names `names`, the first of which has index `i`: one descriptor per name, the `j`-th
with the `j`-th name and with the second input and the first output of export `i + 1 + j`. -/
def Describes (exports : List Export) (names : List String) (i : Nat)
    (entries : List methodMeta) : Prop :=
  entries.length = names.length ∧
    ∀ j name, names[j]? = some name →
      ∃ ex p r, exports[i + 1 + j]? = some ex ∧ ex.In 1 = .ret p ∧ ex.Out 0 = .ret r ∧
        entries[j]? = some ⟨name, p, r⟩

/-- The table of a finished `init`, or the empty table when `init` panicked. -/
def tableOf (r : Result MethodsMap) : MethodsMap :=
  match r with
  | .ret methods => methods
  | _ => []

/-- The Go expression `methods[code][method]`: a panic when the index is out of range, which
includes every `code` that is not a key of `methods`. -/
def methodsAt (methods : MethodsMap) (code : CodeID) (method : Nat) : Result methodMeta :=
  match (methodsGet methods code)[method]? with
  | some d => .ret d
  | none => .crash "index out of range"

/-- The codecs and the JSON printer that `jsonParams` and `jsonReturn` call, parameters of
the embedding. `unmarshalCBOR t b` is `reflect.New(t).Interface().(cbg.CBORUnmarshaler)`
followed by `UnmarshalCBOR` on `b`: the decoded value, the decoder's error, or a panic of the
type assertion. `marshalIndent` is `json.MarshalIndent`. -/
structure Decoders (V : Type) where
  unmarshalCBOR : RType → Bytes → Result V
  marshalIndent : V → Result String

/-- The function `jsonParams`. -/
def jsonParams {V : Type} (dec : Decoders V) (methods : MethodsMap) (code : CodeID)
    (method : Nat) (params : Bytes) : Result String :=
  match methodsAt methods code method with
  | .ret d =>
    (match d.params.Elem with
     | .ret t =>
       (match dec.unmarshalCBOR t params with
        | .ret p => dec.marshalIndent p
        | .err e => .err e
        | .crash e => .crash e)
     | .err e => .err e
     | .crash e => .crash e)
  | .err e => .err e
  | .crash e => .crash e

/-- The function `jsonReturn`. -/
def jsonReturn {V : Type} (dec : Decoders V) (methods : MethodsMap) (code : CodeID)
    (method : Nat) (ret : Bytes) : Result String :=
  match methodsAt methods code method with
  | .ret d =>
    (match d.ret.Elem with
     | .ret t =>
       (match dec.unmarshalCBOR t ret with
        | .ret p => dec.marshalIndent p
        | .err e => .err e
        | .crash e => .crash e)
     | .err e => .err e
     | .crash e => .crash e)
  | .err e => .err e
  | .crash e => .crash e

/-! ## `cli/state.go`: parameters from strings -/

/-- The value that `parseParamsForMethod` stores in one field of the parameter object. -/
inductive FieldValue where
  | address (a : Address)
  | uint64 (n : Nat)
  | peerID (p : String)
  deriving DecidableEq, Repr

/-- The string parsers and the encoder that `parseParamsForMethod` calls, parameters of the
embedding: `address.NewFromString`, `strconv.ParseUint(s, 10, 64)`, `peer.IDB58Decode`, and
`p.Interface().(cbg.CBORMarshaler)` followed by `MarshalCBOR` on the populated object (the
bytes, the encoder's error, or a panic of the type assertion). -/
structure Parsers where
  NewFromString : String → Result Address
  ParseUint : String → Result Nat
  IDB58Decode : String → Result String
  MarshalCBOR : StructType → List FieldValue → Result Bytes

/-- The loop of `parseParamsForMethod` over the arguments, entered with the fields and the
arguments from the current index on: the field values in order, or the first error. -/
def parseFields (ps : Parsers) : List (String × FieldType) → List String →
    Result (List FieldValue)
  | (_, ty) :: fields, arg :: args =>
    (match ty with
     | .address =>
       (match ps.NewFromString arg with
        | .ret a =>
          (match parseFields ps fields args with
           | .ret vs => .ret (.address a :: vs)
           | .err e => .err e
           | .crash e => .crash e)
        | .err e => .err ("failed to parse address: " ++ e)
        | .crash e => .crash e)
     | .uint64 =>
       (match ps.ParseUint arg with
        | .ret val =>
          (match parseFields ps fields args with
           | .ret vs => .ret (.uint64 val :: vs)
           | .err e => .err e
           | .crash e => .crash e)
        | .err e => .err e
        | .crash e => .crash e)
     | .peerID =>
       (match ps.IDB58Decode arg with
        | .ret pid =>
          (match parseFields ps fields args with
           | .ret vs => .ret (.peerID pid :: vs)
           | .err e => .err e
           | .crash e => .crash e)
        | .err e => .err ("failed to parse peer ID: " ++ e)
        | .crash e => .crash e)
     | .other name => .err ("unsupported type for call (TODO): " ++ name))
  | _, _ => .ret []

/-- The `switch act` of `parseParamsForMethod`: the exports of the five supported actors. -/
def supportedExports (builtin : Builtin) : CodeID → Option (List Export)
  | .StorageMarketActorCodeID => some (builtin .StorageMarketActorCodeID).exports
  | .StorageMinerActorCodeID => some (builtin .StorageMinerActorCodeID).exports
  | .StoragePowerActorCodeID => some (builtin .StoragePowerActorCodeID).exports
  | .MultisigActorCodeID => some (builtin .MultisigActorCodeID).exports
  | .PaymentChannelActorCodeID => some (builtin .PaymentChannelActorCodeID).exports
  | _ => none

/-- The function `parseParamsForMethod`. The Go result `(nil, nil)` is `ret none`, bytes
without an error are `ret (some b)`, and `(nil, err)` is `err`. -/
def parseParamsForMethod (builtin : Builtin) (ps : Parsers) (act : CodeID) (method : Nat)
    (args : List String) : Result (Option Bytes) :=
  if args.length = 0 then .ret none
  else
    match supportedExports builtin act with
    | none => .err "the lazy devs didnt add support for that actor to this call yet"
    | some exports =>
      (match exports[method]? with
       | none => .crash "index out of range"
       | some f =>
         (match f.NumIn with
          | .ret n =>
            if n ≠ 3 then .err "expected referenced method to have three arguments"
            else
              (match f.In 2 with
               | .ret t =>
                 (match t.Elem with
                  | .ret paramObj =>
                    (match paramObj with
                     | .struct s =>
                       if s.fields.length ≠ args.length then
                         .err ("not enough arguments given to call that method (expecting "
                           ++ toString s.fields.length ++ ")")
                       else
                         (match parseFields ps s.fields args with
                          | .ret vs =>
                            (match ps.MarshalCBOR s vs with
                             | .ret b => .ret (some b)
                             | .err e => .err ("failed to marshal param object: " ++ e)
                             | .crash e => .crash e)
                          | .err e => .err e
                          | .crash e => .crash e)
                     | _ => .crash "reflect: NumField of non-struct type")
                  | .err e => .err e
                  | .crash e => .crash e)
               | .err e => .err e
               | .crash e => .crash e)
          | .err e => .err e
          | .crash e => .crash e))

/-- The parameter struct of an export of function type with the inputs `ins`: the struct
that its last input points to, when there is one. For a method value, a function of the
runtime and of a pointer to the parameters, the last input is the one at index 1, which
`init` records as the parameter type of the method; for a function of three inputs it is
the one at index 2, which `parseParamsForMethod` reads. -/
def paramStruct (ins : List RType) : Option StructType :=
  match ins.getLast? with
  | some t =>
    (match t.Elem with
     | .ret (.struct s) => some s
     | _ => none)
  | none => none

/-! ## `cli/state.go`: execution traces

The types of a trace (`types.MessageReceipt`, `types.ExecutionResult`,
`api.InvocResult`, `api.ComputeStateOutput`) are declared outside `state.go`; they are
modelled from the data model of the design document, with the field names that `state.go`
uses. What a renderer prints is a list, one entry per call of `fmt.Printf` or
`fmt.Println`, in the order of the calls. -/

/-- Modelled from the spec: a receipt (`types.MessageReceipt`), with exit code, return bytes
and gas used. -/
structure MessageReceipt where
  ExitCode : Int
  Return : Bytes
  GasUsed : Int
  deriving DecidableEq, Repr

/-- Modelled from the spec: a trace node (`types.ExecutionResult`), with message, receipt,
error string, wall-clock duration in nanoseconds and the ordered subcalls. -/
inductive ExecutionResult where
  | mk (Msg : Message) (MsgRct : MessageReceipt) (Error : String) (Duration : Int)
      (Subcalls : List ExecutionResult)

/-- The field `Msg` of a trace node. -/
def ExecutionResult.Msg : ExecutionResult → Message
  | .mk msg _ _ _ _ => msg

/-- The field `MsgRct` of a trace node. -/
def ExecutionResult.MsgRct : ExecutionResult → MessageReceipt
  | .mk _ rct _ _ _ => rct

/-- The field `Error` of a trace node. -/
def ExecutionResult.Error : ExecutionResult → String
  | .mk _ _ e _ _ => e

/-- The field `Subcalls` of a trace node. -/
def ExecutionResult.Subcalls : ExecutionResult → List ExecutionResult
  | .mk _ _ _ _ subcalls => subcalls

/-- Modelled from the spec: the result of one top-level message (`api.InvocResult`), with
message, receipt, the internal executions it triggered, error string and duration. -/
structure InvocResult where
  Msg : Message
  MsgRct : MessageReceipt
  InternalExecutions : List ExecutionResult
  Error : String
  Duration : Int

/-- Modelled from the spec: the result of a state computation (`api.ComputeStateOutput`),
the root state identifier and the trace. -/
structure ComputeStateOutput where
  Root : cid.Cid
  Trace : List InvocResult

/-- The conversions to text that the format verbs of the renderers apply to values of other
packages, parameters of the embedding: `%s` of an address, of a `cid.Cid`, of a `types.FIL`,
of a `BigInt` and of a `time.Duration`, and `%x` of a byte string. -/
structure Fmt where
  address : Address → String
  cid : cid.Cid → String
  fil : BigInt → String
  bigint : BigInt → String
  duration : Int → String
  hex : Bytes → String

/-- The line that `printInternalExecutions` prints for one node, after the text `pre`:
the format `"%s%s\t%s\t%s\t%d\t%x\t%d\t%x\n"`. -/
def traceLine (f : Fmt) (pre : String) (msg : Message) (rct : MessageReceipt) : String :=
  pre ++ (f.address msg.From ++ "\t" ++ f.address msg.To ++ "\t" ++ f.bigint msg.Value ++ "\t"
    ++ toString msg.Method ++ "\t" ++ f.hex msg.Params ++ "\t" ++ toString rct.ExitCode
    ++ "\t" ++ f.hex rct.Return ++ "\n")

mutual
/-- The body of the loop of `printInternalExecutions` for one node: its line, then the lines
of its subcalls with one more tab in front. -/
def printExecution (f : Fmt) (pre : String) : ExecutionResult → List String
  | .mk msg rct _ _ subcalls =>
    traceLine f pre msg rct :: printInternalExecutions f (pre ++ "\t") subcalls
/-- The function `printInternalExecutions`: the lines it prints, in order. -/
def printInternalExecutions (f : Fmt) (pre : String) : List ExecutionResult → List String
  | [] => []
  | im :: rest => printExecution f pre im ++ printInternalExecutions f pre rest
end

/-- One call of `fmt.Printf` or `fmt.Println` of the HTML renderer, with its arguments: the
document header, the block of a root call, the block of a subcall, the error section, a
line of fixed text, and the document footer. -/
inductive Event where
  | header (root : cid.Cid)
  | rootExec (msgCid : cid.Cid) (code name : String) (src dst : Address) (value : BigInt)
      (method : Nat) (params : String) (slow veryslow : Bool) (duration : Int)
      (exitCode : Int) (ret : String)
  | subExec (code name : String) (src dst : Address) (value : BigInt) (method : Nat)
      (params : String) (exitCode : Int) (ret : String)
  | error (text : String)
  | line (s : String)
  | footer
  deriving DecidableEq, Repr

/-- The text that a call prints: the format strings of `computeStateHtml` and
`printInternalExecutionsHtml` with the arguments filled in. -/
def Event.text (f : Fmt) : Event → String
  | .header root =>
    "<html>\n" ++ " <head>\n" ++ "  <style>\n"
      ++ "   html, body \x7b font-family: monospace; \x7d\n"
      ++ "   a:link, a:visited \x7b color: #004; \x7d\n"
      ++ "   pre \x7b background: #ccc; \x7d\n" ++ "   small \x7b color: #444; \x7d\n"
      ++ "   .call \x7b color: #00a; \x7d\n" ++ "   .params \x7b background: #dfd; \x7d\n"
      ++ "   .ret \x7b background: #ddf; \x7d\n" ++ "   .error \x7b color: red; \x7d\n"
      ++ "   .exit0 \x7b color: green; \x7d\n" ++ "   .exec \x7b\n"
      ++ "    padding-left: 15px;\n" ++ "    border-left: 2.5px solid;\n"
      ++ "    margin-bottom: 45px;\n" ++ "   \x7d\n" ++ "   .exec:hover \x7b\n"
      ++ "    background: #eee;\n" ++ "   \x7d\n"
      ++ "   .slow-true-false \x7b color: #660; \x7d\n"
      ++ "   .slow-true-true \x7b color: #f80; \x7d\n" ++ "  </style>\n" ++ " </head>\n"
      ++ " <body>\n" ++ "  <div>State CID: <b>" ++ f.cid root ++ "</b></div>\n"
      ++ "  <div>Calls</div>"
  | .rootExec msgCid code name src dst value method params slow veryslow duration exitCode ret =>
    "<div class=\"exec\" id=\"" ++ f.cid msgCid ++ "\">\n" ++ "<div><a href=\"#" ++ f.cid msgCid
      ++ "\"><h2 class=\"call\">" ++ code ++ ":" ++ name ++ "</h2></a></div>\n" ++ "<div><b>"
      ++ f.address src ++ "</b> -&gt; <b>" ++ f.address dst ++ "</b> (" ++ f.fil value
      ++ " FIL), M" ++ toString method ++ "</div>\n" ++ "<div><small>Msg CID: " ++ f.cid msgCid
      ++ "</small></div>\n" ++ params ++ "\n" ++ "<div><span class=\"slow-" ++ toString slow
      ++ "-" ++ toString veryslow ++ "\">Took " ++ f.duration duration
      ++ "</span>, <span class=\"exit" ++ toString exitCode ++ "\">Exit: <b>"
      ++ toString exitCode ++ "</b></span>" ++ ret ++ "\n"
  | .subExec code name src dst value method params exitCode ret =>
    "<div class=\"exec\">\n" ++ "<div><h4 class=\"call\">" ++ code ++ ":" ++ name
      ++ "</h4></div>\n" ++ "<div><b>" ++ f.address src ++ "</b> -&gt; <b>" ++ f.address dst
      ++ "</b> (" ++ f.fil value ++ " FIL), M" ++ toString method ++ "</div>\n" ++ params ++ "\n"
      ++ "<div><span class=\"exit" ++ toString exitCode ++ "\">Exit: <b>" ++ toString exitCode
      ++ "</b></span>" ++ ret ++ "\n"
  | .error text =>
    "<div class=\"error\">Error: <pre>" ++ text ++ "</pre></div>"
  | .line s => s ++ "\n"
  | .footer =>
    "</body>\n" ++ "</html>"

/-- The string `params` that the renderer puts into a block: the decoded parameters in a
`params` section when the parameter bytes are not empty, and nothing otherwise. -/
def paramsSlot (raw : Bytes) (params : String) : String :=
  if raw.length ≠ 0 then "<div><pre class=\"params\">" ++ params ++ "</pre></div>" else ""

/-- The string `ret` that the renderer puts into a block: the closing tag alone when the
return bytes are empty, and otherwise the `, Return` marker and the decoded return value in
a `ret` section. -/
def retSlot (raw : Bytes) (ret : String) : String :=
  if raw.length = 0 then "</div>"
  else ", Return</div><div><pre class=\"ret\">" ++ ret ++ "</pre></div>"

/-- The function `codeStr`: the digest of the multihash of a code identifier, and a panic
when `multihash.Decode` (the parameter `mhDecode`) returns an error. -/
def codeStr (mhDecode : CodeID → Result String) (c : CodeID) : Result String :=
  match mhDecode c with
  | .ret digest => .ret digest
  | .err e => .crash e
  | .crash e => .crash e

/-- The argument `getCode` of the HTML renderer: a closure that may keep state of type `σ`
between calls. A call gives the class of an address or an error, and the state after it. -/
abbrev GetCode (σ : Type) := σ → Address → Result CodeID × σ

/-- What the HTML renderer calls besides `getCode`: the table `methods`; the decoders behind
`jsonParams` and `jsonReturn`; the codec and the hash behind `Msg.Cid()`; `multihash.Decode`
behind `codeStr`; and the text `undef` of the identifier that `getCode` returns beside an
error. -/
structure RenderEnv (V : Type) where
  methods : MethodsMap
  dec : Decoders V
  cdc : Codec
  sum : SumFn
  mhDecode : CodeID → Result String
  undef : String

/-- What a renderer has done when it stops: the calls printed so far, the state of
`getCode`, and how it stopped (returned `nil`, returned an error, or panicked). -/
abbrev Run (σ : Type) := List Event × σ × Result Unit

/-- The first part of the loop body of `printInternalExecutionsHtml` for one node, up to the
arguments of its `fmt.Printf`: resolve the class of the receiver, decode the parameters,
build the parameter section, decode the return value, build the return section, and
evaluate `codeStr` and the method name. The result is the block to print, or the error to
return, with the state of `getCode` after the call. -/
def subHead {σ V : Type} (gc : GetCode σ) (env : RenderEnv V) (msg : Message)
    (rct : MessageReceipt)
    (st : σ) : Result Event × σ :=
  match gc st msg.To with
  | (.ret toCode, st1) =>
    (match jsonParams env.dec env.methods toCode msg.Method msg.Params with
     | .ret params =>
       (match jsonReturn env.dec env.methods toCode msg.Method rct.Return with
        | .ret ret =>
          (match codeStr env.mhDecode toCode with
           | .ret code =>
             (match methodsAt env.methods toCode msg.Method with
              | .ret d =>
                (.ret (.subExec code d.name msg.From msg.To msg.Value msg.Method
                  (paramsSlot msg.Params params) rct.ExitCode (retSlot rct.Return ret)), st1)
              | .err e => (.err e, st1)
              | .crash e => (.crash e, st1))
           | .err e => (.err e, st1)
           | .crash e => (.crash e, st1))
        | .err e => (.err ("decoding return value: " ++ e), st1)
        | .crash e => (.crash e, st1))
     | .err e => (.err ("decoding params: " ++ e), st1)
     | .crash e => (.crash e, st1))
  | (.err e, st1) => (.err ("getting code for " ++ env.undef ++ ": " ++ e), st1)
  | (.crash e, st1) => (.crash e, st1)

/-- The first part of the loop body of `computeStateHtml` for one root call, up to the
arguments of its `fmt.Printf`: as for a subcall, and between the return section and the
arguments the two duration flags (more than 10 and more than 50 milliseconds) and
`ir.Msg.Cid()`, which may panic. -/
def rootHead {σ V : Type} (gc : GetCode σ) (env : RenderEnv V) (msg : Message)
    (rct : MessageReceipt)
    (duration : Int) (st : σ) : Result Event × σ :=
  match gc st msg.To with
  | (.ret toCode, st1) =>
    (match jsonParams env.dec env.methods toCode msg.Method msg.Params with
     | .ret params =>
       (match jsonReturn env.dec env.methods toCode msg.Method rct.Return with
        | .ret ret =>
          (match msg.Cid env.cdc env.sum with
           | .ret c =>
             (match codeStr env.mhDecode toCode with
              | .ret code =>
                (match methodsAt env.methods toCode msg.Method with
                 | .ret d =>
                   (.ret (.rootExec c code d.name msg.From msg.To msg.Value msg.Method
                     (paramsSlot msg.Params params) (decide (duration > 10 * 1000000))
                     (decide (duration > 50 * 1000000)) duration rct.ExitCode
                     (retSlot rct.Return ret)), st1)
                 | .err e => (.err e, st1)
                 | .crash e => (.crash e, st1))
              | .err e => (.err e, st1)
              | .crash e => (.crash e, st1))
           | .err e => (.err e, st1)
           | .crash e => (.crash e, st1))
        | .err e => (.err ("decoding return value: " ++ e), st1)
        | .crash e => (.crash e, st1))
     | .err e => (.err ("decoding params: " ++ e), st1)
     | .crash e => (.crash e, st1))
  | (.err e, st1) => (.err ("getting code for " ++ env.undef ++ ": " ++ e), st1)
  | (.crash e, st1) => (.crash e, st1)

/-- The error section that follows a block: printed when the exit code is not zero. -/
def errorSection (exitCode : Int) (error : String) : List Event :=
  if exitCode ≠ 0 then [.error error] else []

mutual
/-- The loop body of `printInternalExecutionsHtml` for one node: the block, the error section
when the exit code is not zero, the subcalls under their heading when there are any, and the
closing tag. An error or a panic ends it at once, with what was printed so far. -/
def subcallHtml {σ V : Type} (gc : GetCode σ) (env : RenderEnv V) :
    ExecutionResult → σ → Run σ
  | .mk msg rct error _ subcalls, st =>
    match subHead gc env msg rct st with
    | (.ret block, st1) =>
      if subcalls.length > 0 then
        (match printInternalExecutionsHtml gc env subcalls st1 with
         | (out, st2, .ret _) =>
           (block :: errorSection rct.ExitCode error ++ .line "<div>Subcalls:</div>" :: out
             ++ [.line "</div>"], st2, .ret ())
         | (out, st2, .err e) =>
           (block :: errorSection rct.ExitCode error ++ .line "<div>Subcalls:</div>" :: out,
             st2, .err e)
         | (out, st2, .crash e) =>
           (block :: errorSection rct.ExitCode error ++ .line "<div>Subcalls:</div>" :: out,
             st2, .crash e))
      else (block :: errorSection rct.ExitCode error ++ [.line "</div>"], st1, .ret ())
    | (.err e, st1) => ([], st1, .err e)
    | (.crash e, st1) => ([], st1, .crash e)
/-- The function `printInternalExecutionsHtml`: the loop over the nodes of `trace`. -/
def printInternalExecutionsHtml {σ V : Type} (gc : GetCode σ) (env : RenderEnv V) :
    List ExecutionResult → σ → Run σ
  | [], st => ([], st, .ret ())
  | im :: rest, st =>
    match subcallHtml gc env im st with
    | (out, st1, .ret _) =>
      (match printInternalExecutionsHtml gc env rest st1 with
       | (out2, st2, r) => (out ++ out2, st2, r))
    | (out, st1, .err e) => (out, st1, .err e)
    | (out, st1, .crash e) => (out, st1, .crash e)
end

/-- The loop body of `computeStateHtml` for one root call: the block, the error section when
the exit code is not zero, the internal executions under their heading when there are any,
and the closing tag. -/
def rootCallHtml {σ V : Type} (gc : GetCode σ) (env : RenderEnv V) (ir : InvocResult)
    (st : σ) : Run σ :=
  match rootHead gc env ir.Msg ir.MsgRct ir.Duration st with
  | (.ret block, st1) =>
    if ir.InternalExecutions.length > 0 then
      (match printInternalExecutionsHtml gc env ir.InternalExecutions st1 with
       | (out, st2, .ret _) =>
         (block :: errorSection ir.MsgRct.ExitCode ir.Error
           ++ .line "<div>Internal executions:</div>" :: out ++ [.line "</div>"], st2, .ret ())
       | (out, st2, .err e) =>
         (block :: errorSection ir.MsgRct.ExitCode ir.Error
           ++ .line "<div>Internal executions:</div>" :: out, st2, .err e)
       | (out, st2, .crash e) =>
         (block :: errorSection ir.MsgRct.ExitCode ir.Error
           ++ .line "<div>Internal executions:</div>" :: out, st2, .crash e))
    else (block :: errorSection ir.MsgRct.ExitCode ir.Error ++ [.line "</div>"], st1, .ret ())
  | (.err e, st1) => ([], st1, .err e)
  | (.crash e, st1) => ([], st1, .crash e)

/-- The loop of `computeStateHtml` over `o.Trace`. -/
def rootCallsHtml {σ V : Type} (gc : GetCode σ) (env : RenderEnv V) :
    List InvocResult → σ → Run σ
  | [], st => ([], st, .ret ())
  | ir :: rest, st =>
    match rootCallHtml gc env ir st with
    | (out, st1, .ret _) =>
      (match rootCallsHtml gc env rest st1 with
       | (out2, st2, r) => (out ++ out2, st2, r))
    | (out, st1, .err e) => (out, st1, .err e)
    | (out, st1, .crash e) => (out, st1, .crash e)

/-- The function `computeStateHtml`: the header, the root calls, and the footer when no
root call ended with an error or a panic. -/
def computeStateHtml {σ V : Type} (gc : GetCode σ) (env : RenderEnv V)
    (o : ComputeStateOutput) (st : σ) :
    Run σ :=
  match rootCallsHtml gc env o.Trace st with
  | (out, st1, .ret _) => (.header o.Root :: out ++ [.footer], st1, .ret ())
  | (out, st1, .err e) => (.header o.Root :: out, st1, .err e)
  | (out, st1, .crash e) => (.header o.Root :: out, st1, .crash e)

/-! ### The closure `getCode` of `stateComputeStateCmd` -/

/-- Modelled from the spec: an actor as the chain API gives it (`types.Actor`), with class
identifier, balance and nonce. -/
structure Actor where
  Code : CodeID
  Balance : BigInt
  Nonce : Nat
  deriving DecidableEq, Repr

/-- The collaborator `api.StateGetActor` at the tipset of the command, a parameter of the
embedding: the full node behind the API, in a state of type `ω`. A call for an address gives
the actor or an error, and the state of the node after the call; the node may answer the
same question differently later. -/
abbrev StateGetActor (ω : Type) := ω → Address → Result Actor × ω

/-- The state behind the closure `getCode`: the map `codeCache`, and the state of the
collaborator, which changes only by a call of the collaborator. -/
structure CodeCache (ω : Type) where
  codeCache : List (Address × CodeID)
  node : ω

/-- The closure `getCode`: the cached class when the address is a key of `codeCache`;
otherwise one call of the collaborator, whose class is stored under the address (which is
not yet a key) and returned, or whose error is returned. -/
def getCode {ω : Type} (api : StateGetActor ω) : GetCode (CodeCache ω) := fun st addr =>
  match st.codeCache.lookup addr with
  | some c => (.ret c, st)
  | none =>
    match api st.node addr with
    | (.ret c, w) => (.ret c.Code, ⟨(addr, c.Code) :: st.codeCache, w⟩)
    | (.err e, w) => (.err e, ⟨st.codeCache, w⟩)
    | (.crash e, w) => (.crash e, ⟨st.codeCache, w⟩)

/-- The branch `if cctx.Bool("html")` of `stateComputeStateCmd`: `computeStateHtml` with a
fresh `codeCache` behind `getCode`, the collaborator being in the state `w`. -/
def stateComputeHtml {ω V : Type} (api : StateGetActor ω) (w : ω) (env : RenderEnv V)
    (stout : ComputeStateOutput) : Run (CodeCache ω) :=
  computeStateHtml (getCode api) env stout ⟨[], w⟩

/-- The state of `getCode` after calls for the addresses `addrs`, one after the other. -/
def getCodeAll {ω : Type} (api : StateGetActor ω) :
    List Address → CodeCache ω → CodeCache ω
  | [], st => st
  | a :: rest, st => getCodeAll api rest (getCode api st a).2

/-- A collaborator that keeps the record of the calls made to it: its state is the list of
the calls so far, each with the address asked and the answer given, and `answer` is its
answer to a call, from the record so far and the address. The record is written by the
collaborator, at every call and nowhere else. -/
def recording (answer : List (Address × Result Actor) → Address → Result Actor) :
    StateGetActor (List (Address × Result Actor)) :=
  fun calls addr => (answer calls addr, calls ++ [(addr, answer calls addr)])

/-- A call of the collaborator for `addr` that gave an actor. -/
def resolved (addr : Address) (call : Address × Result Actor) : Bool :=
  match call with
  | (a, .ret _) => decide (a = addr)
  | _ => false

/-! ### The traversal of the design document -/

mutual
/-- The nodes of a tree depth first and in pre-order, children in their original order, each
with its nesting depth, `d` for the root of the tree. -/
def walk (d : Nat) : ExecutionResult → List (Nat × ExecutionResult)
  | .mk msg rct error duration subcalls =>
    (d, .mk msg rct error duration subcalls) :: walkAll (d + 1) subcalls
/-- The nodes of a forest depth first and in pre-order: all of a tree before its next
sibling. -/
def walkAll (d : Nat) : List ExecutionResult → List (Nat × ExecutionResult)
  | [] => []
  | im :: rest => walk d im ++ walkAll d rest
end

/-- A node of the trace of a state computation: a root call or a subcall at some depth. -/
inductive Node where
  | root (ir : InvocResult)
  | sub (im : ExecutionResult)

/-- The message of a node. -/
def Node.Msg : Node → Message
  | .root ir => ir.Msg
  | .sub im => im.Msg

/-- The receipt of a node. -/
def Node.MsgRct : Node → MessageReceipt
  | .root ir => ir.MsgRct
  | .sub im => im.MsgRct

/-- The nodes of the trace of a state computation in pre-order: every root call, followed by
its internal executions in pre-order, before the next root call. -/
def traceNodes : List InvocResult → List Node
  | [] => []
  | ir :: rest =>
    .root ir :: (walkAll 1 ir.InternalExecutions).map (fun p => Node.sub p.2)
      ++ traceNodes rest

/-- The error string of a node. -/
def Node.Error : Node → String
  | .root ir => ir.Error
  | .sub im => im.Error

/-- The calls that a node triggered: the internal executions of a root call, the subcalls of
a subcall. -/
def Node.children : Node → List ExecutionResult
  | .root ir => ir.InternalExecutions
  | .sub im => im.Subcalls

/-- The line that the renderer prints above the children of a node. -/
def Node.heading : Node → String
  | .root _ => "<div>Internal executions:</div>"
  | .sub _ => "<div>Subcalls:</div>"

/-- The loop body of the HTML renderer for a node: that of `computeStateHtml` for a root call,
that of `printInternalExecutionsHtml` for a subcall. -/
def Node.html {σ V : Type} (gc : GetCode σ) (env : RenderEnv V) : Node → σ → Run σ
  | .root ir, st => rootCallHtml gc env ir st
  | .sub im, st => subcallHtml gc env im st

/-- The exit code tag of a block: the class `exit<code>` around the printed code. -/
def exitTag (exitCode : Int) : String :=
  "<span class=\"exit" ++ toString exitCode ++ "\">Exit: <b>" ++ toString exitCode
    ++ "</b></span>"

/-- The first part of the loop body for a node: `rootHead` or `subHead`. -/
def Node.head {σ V : Type} (gc : GetCode σ) (env : RenderEnv V) :
    Node → σ → Result Event × σ
  | .root ir, st => rootHead gc env ir.Msg ir.MsgRct ir.Duration st
  | .sub im, st => subHead gc env im.Msg im.MsgRct st

/-- The traversal as the design document states it: visit the nodes one after the other,
resolving and decoding each; collect the blocks of the nodes visited, and stop at the first
node whose visit does not succeed, with its error or panic. -/
def scan {σ V : Type} (gc : GetCode σ) (env : RenderEnv V) : List Node → σ → Run σ
  | [], st => ([], st, .ret ())
  | n :: rest, st =>
    match n.head gc env st with
    | (.ret block, st1) =>
      (match scan gc env rest st1 with
       | (blocks, st2, r) => (block :: blocks, st2, r))
    | (.err e, st1) => ([], st1, .err e)
    | (.crash e, st1) => ([], st1, .crash e)

/-- The visit of node `n` in state `st` fails with the error `e`, leaving state `st1`: class
resolution fails, or the parameters do not decode, or the return value does not decode. -/
def Fails {σ V : Type} (gc : GetCode σ) (env : RenderEnv V) (n : Node) (st : σ) (e : String)
    (st1 : σ) : Prop :=
  (∃ e0, gc st n.Msg.To = (.err e0, st1) ∧
      e = "getting code for " ++ env.undef ++ ": " ++ e0) ∨
    (∃ toCode e0, gc st n.Msg.To = (.ret toCode, st1) ∧
      jsonParams env.dec env.methods toCode n.Msg.Method n.Msg.Params = .err e0 ∧
      e = "decoding params: " ++ e0) ∨
    (∃ toCode p e0, gc st n.Msg.To = (.ret toCode, st1) ∧
      jsonParams env.dec env.methods toCode n.Msg.Method n.Msg.Params = .ret p ∧
      jsonReturn env.dec env.methods toCode n.Msg.Method n.MsgRct.Return = .err e0 ∧
      e = "decoding return value: " ++ e0)

/-- The blocks among the calls printed: one per node whose visit succeeded. -/
def Event.isBlock : Event → Bool
  | .rootExec _ _ _ _ _ _ _ _ _ _ _ _ _ => true
  | .subExec _ _ _ _ _ _ _ _ _ => true
  | _ => false

/-- What identifies the call of a block: sender, receiver, value, method number and exit
code. -/
def Event.call : Event → Option (Address × Address × BigInt × Nat × Int)
  | .rootExec _ _ _ src dst value method _ _ _ _ exitCode _ =>
    some (src, dst, value, method, exitCode)
  | .subExec _ _ src dst value method _ exitCode _ => some (src, dst, value, method, exitCode)
  | _ => none

/-- What identifies the call of a node: sender, receiver, value, method number and exit
code. -/
def Node.call (n : Node) : Address × Address × BigInt × Nat × Int :=
  (n.Msg.From, n.Msg.To, n.Msg.Value, n.Msg.Method, n.MsgRct.ExitCode)

/-- The parameter section of a block. -/
def Event.params : Event → String
  | .rootExec _ _ _ _ _ _ _ params _ _ _ _ _ => params
  | .subExec _ _ _ _ _ _ params _ _ => params
  | _ => ""

/-- The return section of a block. -/
def Event.ret : Event → String
  | .rootExec _ _ _ _ _ _ _ _ _ _ _ _ ret => ret
  | .subExec _ _ _ _ _ _ _ _ ret => ret
  | _ => ""

/-- The exit code of a block. -/
def Event.exitCode : Event → Int
  | .rootExec _ _ _ _ _ _ _ _ _ _ _ exitCode _ => exitCode
  | .subExec _ _ _ _ _ _ _ exitCode _ => exitCode
  | _ => 0

/-- The text `s` is a parameter section: the decoded parameters in a `params` block. -/
def IsParamsSection (s : String) : Prop :=
  ∃ body, s = "<div><pre class=\"params\">" ++ body ++ "</pre></div>"

/-- The text `s` is a return section: the `, Return` marker and then the decoded return
value in a `ret` block. -/
def IsReturnSection (s : String) : Prop :=
  ∃ body, s = ", Return</div><div><pre class=\"ret\">" ++ body ++ "</pre></div>"

/-- The text of `d` tab characters. -/
def tabs : Nat → String
  | 0 => ""
  | d + 1 => tabs d ++ "\t"

/-- The field type `ty` is one of the three supported kinds and the argument `arg` parses for
it. -/
def Parses (ps : Parsers) (ty : FieldType) (arg : String) : Prop :=
  match ty with
  | .address => ∃ a, ps.NewFromString arg = .ret a
  | .uint64 => ∃ n, ps.ParseUint arg = .ret n
  | .peerID => ∃ p, ps.IDB58Decode arg = .ret p
  | .other _ => False

/-- The parsers return a value or an error and do not panic. -/
def Parsers.NoPanic (ps : Parsers) : Prop :=
  ∀ arg, (∀ e, ps.NewFromString arg ≠ .crash e) ∧ (∀ e, ps.ParseUint arg ≠ .crash e) ∧
    (∀ e, ps.IDB58Decode arg ≠ .crash e)

/-! ## Sample inputs -/

/-- A message of version 0 between two defined addresses that carries nothing but the
parameter bytes `p`. -/
def paramsOnly (p : Bytes) : Message := ⟨0, [byteOf 1], [byteOf 1], 0, 0, 0, 0, 0, p⟩

/-- A message with the largest nonce, the value `2^80`, a negative gas price and a negative
gas limit. -/
def largeMessage : Message :=
  ⟨0, [1, 2], [3], 18446744073709551615, 1208925819614629174706176, -70000, -1, 300, [9, 9]⟩

/-- The value of a finished call, or `d` when the call returned an error or panicked. -/
def Result.getD {α : Type} (r : Result α) (d : α) : α :=
  match r with
  | .ret a => a
  | _ => d

/-- A sample of `cid.Prefix.Sum` for evaluating identifiers: the digest is the first 32 bytes
of the data. -/
def sampleSum : SumFn := fun p data => .ret ⟨p.Version, p.Codec, p.MhType, data.take 32⟩

/-- A sample of built-in actors for evaluating the registry: every actor has the single
method `Constructor`, whose export is a function of a runtime and a pointer to a struct with
one `uint64` field, returning a pointer to `adt.EmptyValue`. -/
def sampleBuiltin : Builtin := fun _ =>
  ⟨["Constructor"],
   [.nilValue,
    .func [.basic "Runtime", .ptr (.struct ⟨"ConstructorParams", [("N", .uint64)]⟩)]
      [emptyValuePtr]]⟩

/-- A sample of built-in actors in the shape of the storage market actor: the methods
`Constructor`, `AddBalance` and `WithdrawBalance`, each export a method value, that is, a
function of a runtime and of a pointer to the parameters (`adt.EmptyValue`, an address, and
a struct with an address and a token amount), returning a pointer to `adt.EmptyValue`. -/
def sampleMarket : Builtin := fun _ =>
  ⟨["Constructor", "AddBalance", "WithdrawBalance"],
   [.nilValue,
    .func [.basic "Runtime", emptyValuePtr] [emptyValuePtr],
    .func [.basic "Runtime", .ptr (.struct ⟨"address.Address", [("str", .other "string")]⟩)]
      [emptyValuePtr],
    .func [.basic "Runtime",
        .ptr (.struct ⟨"market.WithdrawBalanceParams",
          [("ProviderOrClientAddress", .address), ("Amount", .other "abi.TokenAmount")]⟩)]
      [emptyValuePtr]]⟩

/-- Sample decoders: every byte string decodes to the one value of `Unit`, printed `{}`. -/
def sampleDecoders : Decoders Unit := ⟨fun _ _ => .ret (), fun _ => .ret "{}"⟩

/-- Sample parsers: an address is the length of its string, a number is read in base 10, a
peer identifier is its string, and a parameter object encodes as its number of fields. -/
def sampleParsers : Parsers :=
  ⟨fun s => if s.length = 0 then .err "empty address" else .ret [byteOf s.length],
   fun s =>
     match s.toNat? with
     | some n => if n < 2 ^ 64 then .ret n else .err "value out of range"
     | none => .err "invalid syntax",
   fun s => .ret s,
   fun _ vs => .ret [byteOf vs.length]⟩

/-- Sample conversions to text: lengths and decimal numbers. -/
def sampleFmt : Fmt :=
  ⟨fun a => toString a.length, fun c => toString c.Digest.length, fun v => toString v,
   fun v => toString v, fun d => toString d, fun b => toString b.length⟩

/-- A sample of what the HTML renderer calls: the table built from the sample actors, the
sample decoders, the modelled codec and the sample hash. -/
def sampleEnv : RenderEnv Unit :=
  ⟨tableOf (init (cidToMethods sampleBuiltin)), sampleDecoders, cborGen, sampleSum,
   fun _ => .ret "fil/1/actor", "b"⟩

/-- Sample decoders that, like a decoder reading a header first, fail on an empty byte
string. -/
def strictDecoders : Decoders Unit :=
  ⟨fun _ b => if b.length = 0 then .err "EOF" else .ret (), fun _ => .ret "{}"⟩

/-- The sample environment with the decoders that fail on an empty byte string. -/
def strictEnv : RenderEnv Unit :=
  ⟨tableOf (init (cidToMethods sampleBuiltin)), strictDecoders, cborGen, sampleSum,
   fun _ => .ret "fil/1/actor", "b"⟩

/-- A sample `getCode` without state: every address is an init actor. -/
def sampleGetCode : GetCode Unit := fun st _ => (.ret .InitActorCodeID, st)

/-- A sample trace node: a call of method `method` with the given parameter bytes, return
bytes, exit code and subcalls. -/
def callNode (method : Nat) (params ret : Bytes) (exitCode : Int)
    (subcalls : List ExecutionResult) : ExecutionResult :=
  .mk ⟨0, [byteOf 1], [byteOf 2], 0, 0, 0, 0, method, params⟩ ⟨exitCode, ret, 0⟩ "failed" 0
    subcalls

/-- A sample collaborator that changes its mind: it knows the addresses `[1]` and `[3]`
only, and gives an init actor at the first call made to it and a cron actor at every later
call. -/
def sampleAnswer : List (Address × Result Actor) → Address → Result Actor := fun calls a =>
  if a = [byteOf 1] ∨ a = [byteOf 3] then
    (if calls.length = 0 then .ret ⟨.InitActorCodeID, 0, 0⟩ else .ret ⟨.CronActorCodeID, 0, 0⟩)
  else .err "actor not found"

/-! ## Fee arithmetic -/

theorem uint64OfInt64_of_nonneg (x : Int) (h0 : 0 ≤ x) (h : isInt64 x) :
    (uint64OfInt64 x : Int) = x := by
  unfold uint64OfInt64 isInt64 at *
  have h1 : x % (2 : Int) ^ 64 = x := Int.emod_eq_of_lt h0 (by omega)
  rw [h1]; exact Int.toNat_of_nonneg h0

theorem uint64OfInt64_of_neg (x : Int) (h0 : x < 0) (h : isInt64 x) :
    (uint64OfInt64 x : Int) = x + (2 : Int) ^ 64 := by
  unfold uint64OfInt64 isInt64 at *
  have h1 : x % (2 : Int) ^ 64 = x + (2 : Int) ^ 64 := by
    have h2 : (x + (2 : Int) ^ 64) % (2 : Int) ^ 64 = x + (2 : Int) ^ 64 :=
      Int.emod_eq_of_lt (by omega) (by omega)
    rw [← h2]; simp
  rw [h1]; exact Int.toNat_of_nonneg (by omega)

/-- C1 (counterexample): with value 0, gas price 1 and gas limit -1, `RequiredFunds` is
`2^64 - 1`, not `0 + 1 * (-1)`: the gas limit is reinterpreted as an unsigned 64-bit
number before the multiplication. -/
theorem requiredFunds_negative_gasLimit :
    (⟨0, [1], [2], 0, 0, 1, -1, 0, []⟩ : Message).inRange ∧
      (⟨0, [1], [2], 0, 0, 1, -1, 0, []⟩ : Message).RequiredFunds = 2 ^ 64 - 1 ∧
      (⟨0, [1], [2], 0, 0, 1, -1, 0, []⟩ : Message).RequiredFunds ≠
        (⟨0, [1], [2], 0, 0, 1, -1, 0, []⟩ : Message).Value +
          (⟨0, [1], [2], 0, 0, 1, -1, 0, []⟩ : Message).GasPrice *
            (⟨0, [1], [2], 0, 0, 1, -1, 0, []⟩ : Message).GasLimit := by
  decide

/-- C1 (amended): for every message whose gas limit is a signed 64-bit value,
`RequiredFunds` is `Value + GasPrice * u` over the unbounded integers, where `u` is the gas
limit converted to unsigned 64 bits: the gas limit itself when it is not negative, and the
gas limit plus `2^64` when it is negative. Value and gas price are not wrapped. -/
theorem requiredFunds_converts_gasLimit (m : Message) (h : isInt64 m.GasLimit) :
    m.RequiredFunds =
      m.Value + m.GasPrice * (if 0 ≤ m.GasLimit then m.GasLimit else m.GasLimit + 2 ^ 64) := by
  unfold Message.RequiredFunds BigAdd BigMul NewInt
  split
  · next h0 => rw [uint64OfInt64_of_nonneg _ h0 h]
  · next h0 => rw [uint64OfInt64_of_neg _ (by omega) h]

/-- C1 (witness): the amended statement at gas limit -1, gas price 3 and value 5. -/
theorem requiredFunds_converts_gasLimit_witness :
    isInt64 (-1) ∧
      (⟨0, [1], [2], 0, 5, 3, -1, 0, []⟩ : Message).RequiredFunds = 5 + 3 * (-1 + 2 ^ 64) :=
  ⟨by decide, requiredFunds_converts_gasLimit ⟨0, [1], [2], 0, 5, 3, -1, 0, []⟩ (by decide)⟩

/-- C2: for every message with a gas limit that is not negative, `RequiredFunds` is exactly
`Value + GasPrice * GasLimit` over the unbounded integers, whatever the size of the
product; for value 0, gas price `2^40` and gas limit `2^40` it is exactly `2^80`. -/
theorem requiredFunds_exact (m : Message) (h : isInt64 m.GasLimit) (h0 : 0 ≤ m.GasLimit) :
    m.RequiredFunds = m.Value + m.GasPrice * m.GasLimit ∧
      (m.Value = 0 → m.GasPrice = 2 ^ 40 → m.GasLimit = 2 ^ 40 → m.RequiredFunds = 2 ^ 80) := by
  have key : m.RequiredFunds = m.Value + m.GasPrice * m.GasLimit := by
    unfold Message.RequiredFunds BigAdd BigMul NewInt
    rw [uint64OfInt64_of_nonneg _ h0 h]
  refine ⟨key, fun hv hp hl => ?_⟩
  rw [key, hv, hp, hl]; norm_num

/-- C2 (witness): value 0, gas price `2^40`, gas limit `2^40` give `2^80`. -/
theorem requiredFunds_exact_witness :
    isInt64 (2 ^ 40) ∧ (0 : Int) ≤ 2 ^ 40 ∧
      (⟨0, [1], [2], 0, 0, 2 ^ 40, 2 ^ 40, 0, []⟩ : Message).RequiredFunds = 2 ^ 80 :=
  ⟨by decide, by decide,
    (requiredFunds_exact ⟨0, [1], [2], 0, 0, 2 ^ 40, 2 ^ 40, 0, []⟩ (by decide) (by decide)).2
      rfl rfl rfl⟩

/-! ## Decoding -/

/-- C3: `DecodeMessage` returns a message without an error exactly when unmarshalling
succeeds with a message of version `MessageVersion`, and the message returned is the
unmarshalled one; every other outcome is an error with a nil message, so a message is never
returned together with an error. -/
theorem decodeMessage_spec (cdc : Codec) (b : Bytes) :
    (∀ msg, DecodeMessage cdc b = (some msg, none) ↔
        (cdc.UnmarshalCBOR b = (msg, none) ∧ msg.Version = MessageVersion)) ∧
      ((∃ msg, DecodeMessage cdc b = (some msg, none)) ∨
        (∃ e, DecodeMessage cdc b = (none, some e))) := by
  unfold DecodeMessage
  rcases hu : cdc.UnmarshalCBOR b with ⟨t, _ | e⟩
  · by_cases hv : t.Version = MessageVersion
    · simp [hv]
    · simp [hv]
  · simp

/-! ## The codec: big-endian numbers -/

theorem byteOf_val (n : Nat) : (byteOf n).val = n % 256 := rfl

theorem toBE_length (k n : Nat) : (toBE k n).length = k := by
  induction k with
  | zero => rfl
  | succ k ih => simp [toBE, ih]

theorem foldl_toBE (k n acc : Nat) :
    (toBE k n).foldl (fun a (b : Byte) => a * 256 + b.val) acc =
      acc * 256 ^ k + n % 256 ^ k := by
  induction k generalizing acc with
  | zero => simp [toBE, Nat.mod_one]
  | succ k ih =>
    simp only [toBE, List.foldl_cons, ih, byteOf_val]
    rw [Nat.mod_pow_succ (x := n) (b := 256) (k := k)]
    ring

theorem ofBE_toBE (k n : Nat) : ofBE (toBE k n) = n % 256 ^ k := by
  simp [ofBE, foldl_toBE]

theorem readBE_toBE (k n : Nat) (rest : Bytes) (h : n < 256 ^ k) :
    readBE k (toBE k n ++ rest) = some (n, rest) := by
  have hl := toBE_length k n
  simp [readBE, hl, List.take_append_eq_append_take, List.drop_append_eq_append_drop,
    ofBE_toBE, Nat.mod_eq_of_lt h, List.take_of_length_le (Nat.le_of_eq hl),
    List.drop_of_length_le (Nat.le_of_eq hl)]

theorem lt_pow_byteLenAux : ∀ (fuel n : Nat), n ≤ fuel → n < 256 ^ byteLenAux fuel n := by
  intro fuel
  induction fuel with
  | zero => intro n h; simp [byteLenAux]; omega
  | succ fuel ih =>
    intro n h
    rw [byteLenAux]
    split
    · next h0 => subst h0; simp
    · next h0 =>
      have h1 : n / 256 ≤ fuel := by omega
      have h2 := ih (n / 256) h1
      rw [pow_succ]
      omega

theorem lt_pow_byteLen (n : Nat) : n < 256 ^ byteLen n := lt_pow_byteLenAux n n (Nat.le_refl n)

/-! ## The codec: headers and fields -/

theorem readArg_toBE (k lo n : Nat) (rest : Bytes) (h : n < 256 ^ k) (hlo : lo ≤ n) :
    readArg k lo (toBE k n ++ rest) = some (n, rest) := by
  simp [readArg, readBE_toBE k n rest h, Nat.not_lt.2 hlo]

theorem readHeader_writeHeader (maj v : Nat) (rest : Bytes) (hm : maj < 8) (hv : v < 2 ^ 64) :
    readHeader (writeHeader maj v ++ rest) = some (maj, v, rest) := by
  unfold writeHeader
  split
  · next h =>
    have h1 : (maj * 32 + v) % 256 = maj * 32 + v := Nat.mod_eq_of_lt (by omega)
    have h2 : (maj * 32 + v) / 32 = maj := by omega
    have h3 : (maj * 32 + v) % 32 = v := by omega
    simp [readHeader, byteOf_val, h1, h2, h3, h]
  · next g0 =>
    split
    · next h =>
      have h1 : (maj * 32 + 24) % 256 = maj * 32 + 24 := Nat.mod_eq_of_lt (by omega)
      have h2 : (maj * 32 + 24) / 32 = maj := by omega
      have h3 : (maj * 32 + 24) % 32 = 24 := by omega
      simp [readHeader, byteOf_val, h1, h2, h3,
        readArg_toBE 1 24 v rest (by simpa using h) (by omega)]
    · next g1 =>
      split
      · next h =>
        have h1 : (maj * 32 + 25) % 256 = maj * 32 + 25 := Nat.mod_eq_of_lt (by omega)
        have h2 : (maj * 32 + 25) / 32 = maj := by omega
        have h3 : (maj * 32 + 25) % 32 = 25 := by omega
        simp [readHeader, byteOf_val, h1, h2, h3,
          readArg_toBE 2 256 v rest (by norm_num at h ⊢; omega) (by omega)]
      · next g2 =>
        split
        · next h =>
          have h1 : (maj * 32 + 26) % 256 = maj * 32 + 26 := Nat.mod_eq_of_lt (by omega)
          have h2 : (maj * 32 + 26) / 32 = maj := by omega
          have h3 : (maj * 32 + 26) % 32 = 26 := by omega
          simp [readHeader, byteOf_val, h1, h2, h3,
            readArg_toBE 4 65536 v rest (by norm_num at h ⊢; omega) (by omega)]
        · next g3 =>
          have h1 : (maj * 32 + 27) % 256 = maj * 32 + 27 := Nat.mod_eq_of_lt (by omega)
          have h2 : (maj * 32 + 27) / 32 = maj := by omega
          have h3 : (maj * 32 + 27) % 32 = 27 := by omega
          simp [readHeader, byteOf_val, h1, h2, h3,
            readArg_toBE 8 4294967296 v rest (by norm_num at hv ⊢; omega) (by omega)]

theorem readUint64_writeUint64 (v : Nat) (rest : Bytes) (hv : isUint64 v) :
    readUint64 (writeUint64 v ++ rest) = some (v, rest) := by
  simp [readUint64, writeUint64, readHeader_writeHeader 0 v rest (by decide) hv]

theorem readInt64_writeInt64 (v : Int) (rest : Bytes) (hv : isInt64 v) :
    readInt64 (writeInt64 v ++ rest) = some (v, rest) := by
  unfold isInt64 at hv
  unfold writeInt64
  split
  · next h0 =>
    obtain ⟨n, rfl⟩ := Int.eq_ofNat_of_zero_le h0
    have hlt : n < 2 ^ 63 := by omega
    have hnot : ¬ 2 ^ 63 ≤ n := Nat.not_le.2 hlt
    rw [Int.toNat_ofNat, readInt64, readHeader_writeHeader 0 n rest (by decide) (by omega)]
    simp only [hnot, if_false, if_true]
  · next h0 =>
    obtain ⟨n, rfl⟩ := Int.eq_negSucc_of_lt_zero (Int.not_le.1 h0)
    have hlt : n < 2 ^ 63 := by
      have := hv.1
      rw [Int.negSucc_eq] at this
      omega
    have hnot : ¬ 2 ^ 63 ≤ n := Nat.not_le.2 hlt
    have hn : (-Int.negSucc n - 1).toNat = n := by
      rw [Int.negSucc_eq]; omega
    rw [hn, readInt64, readHeader_writeHeader 1 n rest (by decide) (by omega)]
    simp only [hnot, if_false, if_true, Nat.one_ne_zero, Int.negSucc_eq]
    congr 2
    omega

theorem readBytes_writeBytes (bs rest : Bytes) (h : isUint64 bs.length) :
    readBytes (writeBytes bs ++ rest) = some (bs, rest) := by
  simp [readBytes, writeBytes, List.append_assoc,
    readHeader_writeHeader 2 bs.length (bs ++ rest) (by decide) h]

theorem bigBytes_length (v : BigInt) : (bigBytes v).length ≤ byteLen v.natAbs + 1 := by
  unfold bigBytes
  split
  · simp
  · simp [toBE_length]

theorem byteLenAux_zero (fuel : Nat) : byteLenAux fuel 0 = 0 := by
  cases fuel <;> simp [byteLenAux]

theorem pow_le_byteLenAux : ∀ (fuel n : Nat), n ≤ fuel → n ≠ 0 →
    ∃ k, byteLenAux fuel n = k + 1 ∧ 256 ^ k ≤ n := by
  intro fuel
  induction fuel with
  | zero => intro n h h0; omega
  | succ fuel ih =>
    intro n h h0
    rw [byteLenAux, if_neg h0]
    refine ⟨byteLenAux fuel (n / 256), rfl, ?_⟩
    by_cases hq : n / 256 = 0
    · rw [hq, byteLenAux_zero]
      simp
      omega
    · obtain ⟨k, hk, hle⟩ := ih (n / 256) (by omega) hq
      rw [hk, pow_succ]
      omega

theorem toBE_byteLen_head (n : Nat) (h0 : n ≠ 0) :
    ∃ (b : Byte) (mag : Bytes), toBE (byteLen n) n = b :: mag ∧ b.val ≠ 0 := by
  obtain ⟨k, hk, hle⟩ := pow_le_byteLenAux n n (Nat.le_refl n) h0
  have hlt : n < 256 ^ (k + 1) := by
    have := lt_pow_byteLen n
    unfold byteLen at this
    rwa [hk] at this
  refine ⟨byteOf (n / 256 ^ k), toBE k n, ?_, ?_⟩
  · unfold byteLen
    rw [hk, toBE]
  · have hpos : 0 < 256 ^ k := Nat.pow_pos (by decide)
    have h1 : 1 ≤ n / 256 ^ k := (Nat.one_le_div_iff hpos).2 hle
    have h2 : n / 256 ^ k < 256 := by
      rw [Nat.div_lt_iff_lt_mul hpos, Nat.mul_comm, ← pow_succ]
      exact hlt
    rw [byteOf_val, Nat.mod_eq_of_lt h2]
    omega

theorem bigOfBytes_bigBytes (v : BigInt) : bigOfBytes (bigBytes v) = some v := by
  unfold bigBytes
  split
  · next h => subst h; rfl
  · next h =>
    have hm : v.natAbs % 256 ^ byteLen v.natAbs = v.natAbs :=
      Nat.mod_eq_of_lt (lt_pow_byteLen _)
    have hof := ofBE_toBE (byteLen v.natAbs) v.natAbs
    rw [hm] at hof
    obtain ⟨b, mag, hbe, hb⟩ := toBE_byteLen_head v.natAbs (Int.natAbs_ne_zero.2 h)
    rw [hbe] at hof ⊢
    split
    · next hpos =>
      have h1 : ((v.natAbs : Nat) : Int) = v := Int.natAbs_of_nonneg (Int.le_of_lt hpos)
      simp only [bigOfBytes, byteOf_val, hb, if_false, hof, h1]
      rfl
    · next hneg =>
      have h1 : -((v.natAbs : Nat) : Int) = v := by
        rw [Int.ofNat_natAbs_of_nonpos (Int.not_lt.1 hneg), neg_neg]
      simp only [bigOfBytes, byteOf_val, hb, if_false, hof, h1]
      rfl

theorem readBigInt_writeBigInt (v : BigInt) (rest : Bytes)
    (h : isUint64 (byteLen v.natAbs + 1)) :
    readBigInt (writeBigInt v ++ rest) = some (v, rest) := by
  have hl : isUint64 (bigBytes v).length := by
    unfold isUint64 at *
    exact Nat.lt_of_le_of_lt (bigBytes_length v) h
  simp [readBigInt, writeBigInt, readBytes_writeBytes _ rest hl, bigOfBytes_bigBytes]

/-! ## The codec: messages -/

theorem marshalCBOR_ok (m : Message) (hto : m.To ≠ Undef) (hfrom : m.From ≠ Undef) :
    m.MarshalCBOR = .ret (writeHeader 4 9 ++ (writeInt64 m.Version ++ (writeBytes m.To ++
      (writeBytes m.From ++ (writeUint64 m.Nonce ++ (writeBigInt m.Value ++
      (writeBigInt m.GasPrice ++ (writeInt64 m.GasLimit ++ (writeUint64 m.Method ++
      writeBytes m.Params))))))))) := by
  simp [Message.MarshalCBOR, hto, hfrom]

theorem unmarshalCBOR_marshalCBOR (m : Message) (b rest : Bytes) (hv : m.valid)
    (hb : m.MarshalCBOR = .ret b) : Message.UnmarshalCBOR (b ++ rest) = (m, none) := by
  obtain ⟨⟨h1, h2, h3, h4, h5, h6, h7⟩, h8, h9⟩ := hv
  unfold Message.MarshalCBOR at hb
  split at hb
  · cases hb
  · split at hb
    · cases hb
    · cases hb
      unfold Message.UnmarshalCBOR
      simp only [List.append_assoc]
      rw [readHeader_writeHeader 4 9 _ (by decide) (by decide)]
      simp only [ne_eq, not_true_eq_false, if_false]
      rw [readInt64_writeInt64 _ _ h1]
      simp only
      rw [readBytes_writeBytes _ _ h5]
      simp only
      rw [readBytes_writeBytes _ _ h6]
      simp only
      rw [readUint64_writeUint64 _ _ h2]
      simp only
      rw [readBigInt_writeBigInt _ _ h8]
      simp only
      rw [readBigInt_writeBigInt _ _ h9]
      simp only
      rw [readInt64_writeInt64 _ _ h3]
      simp only
      rw [readUint64_writeUint64 _ _ h4]
      simp only
      rw [readBytes_writeBytes _ _ h7]

theorem decodeMessage_serialize (m : Message) (b : Bytes) (hv : m.valid)
    (hver : m.Version = MessageVersion) (hb : m.Serialize cborGen = .ret b) :
    DecodeMessage cborGen b = (some m, none) := by
  have hm : m.MarshalCBOR = .ret b := by
    unfold Message.Serialize cborGen at hb
    simp only at hb
    split at hb <;> simp_all
  have hu := unmarshalCBOR_marshalCBOR m b [] hv hm
  rw [List.append_nil] at hu
  simp [DecodeMessage, cborGen, hu, hver]

theorem serialize_ok (m : Message) (hto : m.To ≠ Undef) (hfrom : m.From ≠ Undef) :
    ∃ b, m.Serialize cborGen = .ret b := by
  simp only [Message.Serialize, cborGen, marshalCBOR_ok m hto hfrom]
  exact ⟨_, rfl⟩

/-- C4: for every valid message of version `MessageVersion` with defined addresses,
`Serialize` succeeds, and `DecodeMessage` of its bytes succeeds and returns the message
itself, every field equal. -/
theorem decode_serialize_roundtrip (m : Message) (hv : m.valid)
    (hver : m.Version = MessageVersion) (hto : m.To ≠ Undef) (hfrom : m.From ≠ Undef) :
    ∃ b, m.Serialize cborGen = .ret b ∧ DecodeMessage cborGen b = (some m, none) := by
  obtain ⟨b, hb⟩ := serialize_ok m hto hfrom
  exact ⟨b, hb, decodeMessage_serialize m b hv hver hb⟩

/-- C4 (witness): a message with the largest nonce, the amount `2^80` and a negative
amount. -/
theorem decode_serialize_roundtrip_witness :
    (largeMessage).valid ∧
      ∃ b, largeMessage.Serialize cborGen = .ret b ∧
        DecodeMessage cborGen b = (some largeMessage, none) :=
  ⟨by decide, decode_serialize_roundtrip largeMessage
    (by decide) (by decide) (by decide) (by decide)⟩

/-! ## The codec: canonical input only -/

theorem byteOf_self (b : Byte) : byteOf b.val = b := by
  apply Fin.ext
  rw [byteOf_val]
  exact Nat.mod_eq_of_lt b.isLt

theorem foldl_ofBE (l : Bytes) (acc : Nat) :
    l.foldl (fun a (b : Byte) => a * 256 + b.val) acc =
      acc * 256 ^ l.length + l.foldl (fun a (b : Byte) => a * 256 + b.val) 0 := by
  induction l generalizing acc with
  | nil => simp
  | cons b l ih =>
    simp only [List.foldl_cons, List.length_cons]
    rw [ih (acc * 256 + b.val), ih (0 * 256 + b.val)]
    ring

theorem ofBE_cons (b : Byte) (l : Bytes) : ofBE (b :: l) = b.val * 256 ^ l.length + ofBE l := by
  unfold ofBE
  rw [List.foldl_cons, foldl_ofBE]
  simp

theorem ofBE_lt (l : Bytes) : ofBE l < 256 ^ l.length := by
  induction l with
  | nil => simp [ofBE]
  | cons b l ih =>
    rw [ofBE_cons, List.length_cons, pow_succ]
    have hb := b.isLt
    have : b.val * 256 ^ l.length ≤ 255 * 256 ^ l.length :=
      Nat.mul_le_mul_right _ (by omega)
    omega

theorem toBE_add_mul (k : Nat) : ∀ (c r : Nat), toBE k (c * 256 ^ k + r) = toBE k r := by
  induction k with
  | zero => intro c r; rfl
  | succ k ih =>
    intro c r
    rw [toBE, toBE]
    have hpos : 0 < 256 ^ k := Nat.pow_pos (by decide)
    have h1 : c * 256 ^ (k + 1) + r = (c * 256) * 256 ^ k + r := by rw [pow_succ]; ring
    have h2 : (c * 256 ^ (k + 1) + r) / 256 ^ k = c * 256 + r / 256 ^ k := by
      rw [h1, Nat.add_comm, Nat.add_mul_div_right _ _ hpos, Nat.add_comm]
    congr 1
    · apply Fin.ext
      rw [byteOf_val, byteOf_val, h2, Nat.add_comm, Nat.add_mul_mod_self_right]
    · rw [h1]
      exact ih (c * 256) r

theorem toBE_ofBE (l : Bytes) : toBE l.length (ofBE l) = l := by
  induction l with
  | nil => rfl
  | cons b l ih =>
    rw [List.length_cons, toBE, ofBE_cons, toBE_add_mul, ih]
    have hpos : 0 < 256 ^ l.length := Nat.pow_pos (by decide)
    have hq : (b.val * 256 ^ l.length + ofBE l) / 256 ^ l.length = b.val := by
      rw [Nat.add_comm, Nat.add_mul_div_right _ _ hpos, Nat.div_eq_of_lt (ofBE_lt l)]
      simp
    rw [hq, byteOf_self]

theorem readBE_inv (k : Nat) (bs r : Bytes) (v : Nat) (h : readBE k bs = some (v, r)) :
    bs = toBE k v ++ r ∧ v < 256 ^ k := by
  unfold readBE at h
  split at h
  · cases h
  · next hlen =>
    simp only [Option.some.injEq, Prod.mk.injEq] at h
    obtain ⟨hv, hr⟩ := h
    have hl : (bs.take k).length = k := by simp; omega
    have h1 := toBE_ofBE (bs.take k)
    have h2 := ofBE_lt (bs.take k)
    rw [hl, hv] at h1 h2
    refine ⟨?_, h2⟩
    rw [h1, ← hr, List.take_append_drop]

theorem readArg_inv (k lo : Nat) (bs r : Bytes) (v : Nat)
    (h : readArg k lo bs = some (v, r)) :
    bs = toBE k v ++ r ∧ v < 256 ^ k ∧ lo ≤ v := by
  unfold readArg at h
  rcases hb : readBE k bs with _ | ⟨v1, r1⟩
  · rw [hb] at h; cases h
  · rw [hb] at h
    simp only at h
    split at h
    · cases h
    · next hlo =>
      simp only [Option.some.injEq, Prod.mk.injEq] at h
      obtain ⟨hv, hr⟩ := h
      subst hv; subst hr
      obtain ⟨g1, g2⟩ := readBE_inv k bs r1 v1 hb
      exact ⟨g1, g2, Nat.le_of_not_lt hlo⟩

/-- A header that the decoder reads is the header that the encoder writes for the same
major type and argument: the decoder accepts no other form. -/
theorem readHeader_inv (bs rest : Bytes) (maj v : Nat)
    (h : readHeader bs = some (maj, v, rest)) :
    bs = writeHeader maj v ++ rest ∧ maj < 8 ∧ v < 2 ^ 64 := by
  cases bs with
  | nil => simp [readHeader] at h
  | cons b rest0 =>
    have hb := b.isLt
    have hself : ∀ low, low = b.val % 32 → byteOf (b.val / 32 * 32 + low) = b := by
      intro low hlow
      have : b.val / 32 * 32 + low = b.val := by omega
      rw [this, byteOf_self]
    simp only [readHeader] at h
    split at h
    · next hlow =>
      simp only [Option.some.injEq, Prod.mk.injEq] at h
      obtain ⟨h1, h2, h3⟩ := h
      subst h1; subst h2; subst h3
      refine ⟨?_, by omega, by omega⟩
      simp [writeHeader, hlow, hself _ rfl]
    · split at h
      · next hlow =>
        rcases ha : readArg 1 24 rest0 with _ | ⟨v1, r1⟩
        · rw [ha] at h; simp at h
        · rw [ha] at h
          simp only [Option.map_some', Option.some.injEq, Prod.mk.injEq] at h
          obtain ⟨h1, h2, h3⟩ := h
          subst h1; subst h2; subst h3
          obtain ⟨g1, g2, g3⟩ := readArg_inv 1 24 rest0 r1 v1 ha
          have e1 : ¬ v1 < 24 := by omega
          have e2 : v1 < 2 ^ 8 := by norm_num at g2 ⊢; omega
          refine ⟨?_, by omega, by norm_num at g2 ⊢; omega⟩
          simp only [writeHeader, e1, e2, if_false, if_true, List.cons_append]
          rw [← g1, ← hlow, hself _ rfl]
      · split at h
        · next hlow =>
          rcases ha : readArg 2 (2 ^ 8) rest0 with _ | ⟨v1, r1⟩
          · rw [ha] at h; simp at h
          · rw [ha] at h
            simp only [Option.map_some', Option.some.injEq, Prod.mk.injEq] at h
            obtain ⟨h1, h2, h3⟩ := h
            subst h1; subst h2; subst h3
            obtain ⟨g1, g2, g3⟩ := readArg_inv 2 (2 ^ 8) rest0 r1 v1 ha
            have e1 : ¬ v1 < 24 := by norm_num at g3; omega
            have e2 : ¬ v1 < 2 ^ 8 := by omega
            have e3 : v1 < 2 ^ 16 := by norm_num at g2 ⊢; omega
            refine ⟨?_, by omega, by norm_num at g2 ⊢; omega⟩
            simp only [writeHeader, e1, e2, e3, if_false, if_true, List.cons_append]
            rw [← g1, ← hlow, hself _ rfl]
        · split at h
          · next hlow =>
            rcases ha : readArg 4 (2 ^ 16) rest0 with _ | ⟨v1, r1⟩
            · rw [ha] at h; simp at h
            · rw [ha] at h
              simp only [Option.map_some', Option.some.injEq, Prod.mk.injEq] at h
              obtain ⟨h1, h2, h3⟩ := h
              subst h1; subst h2; subst h3
              obtain ⟨g1, g2, g3⟩ := readArg_inv 4 (2 ^ 16) rest0 r1 v1 ha
              have e1 : ¬ v1 < 24 := by norm_num at g3; omega
              have e2 : ¬ v1 < 2 ^ 8 := by norm_num at g3 ⊢; omega
              have e3 : ¬ v1 < 2 ^ 16 := by omega
              have e4 : v1 < 2 ^ 32 := by norm_num at g2 ⊢; omega
              refine ⟨?_, by omega, by norm_num at g2 ⊢; omega⟩
              simp only [writeHeader, e1, e2, e3, e4, if_false, if_true, List.cons_append]
              rw [← g1, ← hlow, hself _ rfl]
          · split at h
            · next hlow =>
              rcases ha : readArg 8 (2 ^ 32) rest0 with _ | ⟨v1, r1⟩
              · rw [ha] at h; simp at h
              · rw [ha] at h
                simp only [Option.map_some', Option.some.injEq, Prod.mk.injEq] at h
                obtain ⟨h1, h2, h3⟩ := h
                subst h1; subst h2; subst h3
                obtain ⟨g1, g2, g3⟩ := readArg_inv 8 (2 ^ 32) rest0 r1 v1 ha
                have e1 : ¬ v1 < 24 := by norm_num at g3; omega
                have e2 : ¬ v1 < 2 ^ 8 := by norm_num at g3 ⊢; omega
                have e3 : ¬ v1 < 2 ^ 16 := by norm_num at g3 ⊢; omega
                have e4 : ¬ v1 < 2 ^ 32 := by omega
                refine ⟨?_, by omega, by norm_num at g2 ⊢; omega⟩
                simp only [writeHeader, e1, e2, e3, e4, if_false, List.cons_append]
                rw [← g1, ← hlow, hself _ rfl]
            · cases h


theorem readUint64_inv (bs r : Bytes) (v : Nat) (h : readUint64 bs = some (v, r)) :
    bs = writeUint64 v ++ r := by
  unfold readUint64 at h
  rcases hh : readHeader bs with _ | ⟨maj, v1, r1⟩
  · rw [hh] at h; cases h
  · rw [hh] at h
    simp only at h
    split at h
    · next hm =>
      simp only [Option.some.injEq, Prod.mk.injEq] at h
      obtain ⟨h1, h2⟩ := h
      subst h1; subst h2; subst hm
      exact (readHeader_inv bs r1 0 v1 hh).1
    · cases h

theorem readInt64_inv (bs r : Bytes) (v : Int) (h : readInt64 bs = some (v, r)) :
    bs = writeInt64 v ++ r := by
  unfold readInt64 at h
  rcases hh : readHeader bs with _ | ⟨maj, v1, r1⟩
  · rw [hh] at h; cases h
  · rw [hh] at h
    simp only at h
    split at h
    · cases h
    · split at h
      · next hm =>
        simp only [Option.some.injEq, Prod.mk.injEq] at h
        obtain ⟨h1, h2⟩ := h
        subst h1; subst h2; subst hm
        have := (readHeader_inv bs r1 0 v1 hh).1
        simpa [writeInt64] using this
      · split at h
        · next hm =>
          simp only [Option.some.injEq, Prod.mk.injEq] at h
          obtain ⟨h1, h2⟩ := h
          subst h1; subst h2; subst hm
          have := (readHeader_inv bs r1 1 v1 hh).1
          have hneg : ¬ (0 : Int) ≤ -1 - (v1 : Int) := by omega
          have hn : (-(-1 - (v1 : Int)) - 1).toNat = v1 := by omega
          rw [writeInt64, if_neg hneg, hn]
          exact this
        · cases h

theorem readBytes_inv (bs r x : Bytes) (h : readBytes bs = some (x, r)) :
    bs = writeBytes x ++ r := by
  unfold readBytes at h
  rcases hh : readHeader bs with _ | ⟨maj, n, r1⟩
  · rw [hh] at h; cases h
  · rw [hh] at h
    simp only at h
    split at h
    · next hm =>
      split at h
      · cases h
      · next hlen =>
        simp only [Option.some.injEq, Prod.mk.injEq] at h
        obtain ⟨h1, h2⟩ := h
        subst h1; subst h2; subst hm
        have hx : (r1.take n).length = n := by simp; omega
        have := (readHeader_inv bs r1 2 n hh).1
        rw [writeBytes, hx, List.append_assoc, List.take_append_drop]
        exact this
    · cases h

theorem byteLen_eq (n k : Nat) (h1 : 256 ^ k ≤ n) (h2 : n < 256 ^ (k + 1)) :
    byteLen n = k + 1 := by
  have hpos : 0 < 256 ^ k := Nat.pow_pos (by decide)
  have h0 : n ≠ 0 := by omega
  obtain ⟨j, hj, hle⟩ := pow_le_byteLenAux n n (Nat.le_refl n) h0
  have hlt := lt_pow_byteLen n
  unfold byteLen at hlt ⊢
  rw [hj] at hlt ⊢
  have a1 : j < k + 1 :=
    (Nat.pow_lt_pow_iff_right (by decide : 1 < 256)).1 (Nat.lt_of_le_of_lt hle h2)
  have a2 : k < j + 1 :=
    (Nat.pow_lt_pow_iff_right (by decide : 1 < 256)).1 (Nat.lt_of_le_of_lt h1 hlt)
  omega

/-- Sign-and-magnitude bytes that the decoder reads as an amount are the bytes that the
encoder writes for that amount. -/
theorem bigOfBytes_inv (raw : Bytes) (v : BigInt) (h : bigOfBytes raw = some v) :
    bigBytes v = raw := by
  match raw, h with
  | [], h =>
    simp only [bigOfBytes, Option.some.injEq] at h
    subst h
    rfl
  | [_], h => simp [bigOfBytes] at h
  | s :: b :: mag, h =>
    simp only [bigOfBytes] at h
    split at h
    · cases h
    · next hb =>
      have hpos : 0 < 256 ^ mag.length := Nat.pow_pos (by decide)
      have hb1 : 1 ≤ b.val := by omega
      have hge : 256 ^ mag.length ≤ ofBE (b :: mag) := by
        rw [ofBE_cons]
        have : 1 * 256 ^ mag.length ≤ b.val * 256 ^ mag.length :=
          Nat.mul_le_mul_right _ hb1
        omega
      have hlt : ofBE (b :: mag) < 256 ^ (mag.length + 1) := by
        have := ofBE_lt (b :: mag)
        simpa using this
      have hlen : byteLen (ofBE (b :: mag)) = mag.length + 1 := byteLen_eq _ _ hge hlt
      have hbe : toBE (mag.length + 1) (ofBE (b :: mag)) = b :: mag := by
        have := toBE_ofBE (b :: mag)
        simpa using this
      have hn0 : (ofBE (b :: mag) : Int) ≠ 0 := by
        have : 0 < ofBE (b :: mag) := by omega
        omega
      split at h
      · next hs =>
        simp only [Option.some.injEq] at h
        subst h
        have hposv : (0 : Int) < (ofBE (b :: mag) : Int) := by omega
        have hs0 : byteOf 0 = s := by
          apply Fin.ext
          rw [byteOf_val, hs]
        simp only [bigBytes, hn0, if_false, hposv, if_true, Int.natAbs_ofNat, hlen, hbe, hs0]
      · split at h
        · next hs0 hs =>
          simp only [Option.some.injEq] at h
          subst h
          have hnegv : ¬ (0 : Int) < -(ofBE (b :: mag) : Int) := by omega
          have hnn : -(ofBE (b :: mag) : Int) ≠ 0 := by omega
          have hs1 : byteOf 1 = s := by
            apply Fin.ext
            rw [byteOf_val, hs]
          simp only [bigBytes, hnn, if_false, hnegv, Int.natAbs_neg, Int.natAbs_ofNat, hlen,
            hbe, hs1]
        · cases h

theorem readBigInt_inv (bs r : Bytes) (v : BigInt) (h : readBigInt bs = some (v, r)) :
    bs = writeBigInt v ++ r := by
  unfold readBigInt at h
  rcases hb : readBytes bs with _ | ⟨raw, r1⟩
  · rw [hb] at h; cases h
  · rw [hb] at h
    simp only at h
    rcases hv : bigOfBytes raw with _ | v1
    · rw [hv] at h; cases h
    · rw [hv] at h
      simp only [Option.some.injEq, Prod.mk.injEq] at h
      obtain ⟨h1, h2⟩ := h
      subst h1; subst h2
      rw [writeBigInt, bigOfBytes_inv raw v1 hv]
      exact readBytes_inv bs r1 raw hb

/-- The decoder accepts canonical input only: bytes that decode to a message begin with the
one encoding that the encoder writes for that message, so that no other encoding of a field
is legal. -/
theorem unmarshalCBOR_canonical (b : Bytes) (m : Message)
    (h : Message.UnmarshalCBOR b = (m, none)) :
    ∃ rest, b = writeHeader 4 9 ++ (writeInt64 m.Version ++ (writeBytes m.To ++
      (writeBytes m.From ++ (writeUint64 m.Nonce ++ (writeBigInt m.Value ++
      (writeBigInt m.GasPrice ++ (writeInt64 m.GasLimit ++ (writeUint64 m.Method ++
      (writeBytes m.Params ++ rest))))))))) := by
  unfold Message.UnmarshalCBOR at h
  rcases h0 : readHeader b with _ | ⟨maj, n, r0⟩
  · rw [h0] at h; simp at h
  rw [h0] at h
  simp only at h
  split at h
  · simp at h
  next hmaj =>
  split at h
  · simp at h
  next hn =>
  rcases h1 : readInt64 r0 with _ | ⟨v1, r1⟩
  · rw [h1] at h; simp at h
  rw [h1] at h
  simp only at h
  rcases h2 : readBytes r1 with _ | ⟨v2, r2⟩
  · rw [h2] at h; simp at h
  rw [h2] at h
  simp only at h
  rcases h3 : readBytes r2 with _ | ⟨v3, r3⟩
  · rw [h3] at h; simp at h
  rw [h3] at h
  simp only at h
  rcases h4 : readUint64 r3 with _ | ⟨v4, r4⟩
  · rw [h4] at h; simp at h
  rw [h4] at h
  simp only at h
  rcases h5 : readBigInt r4 with _ | ⟨v5, r5⟩
  · rw [h5] at h; simp at h
  rw [h5] at h
  simp only at h
  rcases h6 : readBigInt r5 with _ | ⟨v6, r6⟩
  · rw [h6] at h; simp at h
  rw [h6] at h
  simp only at h
  rcases h7 : readInt64 r6 with _ | ⟨v7, r7⟩
  · rw [h7] at h; simp at h
  rw [h7] at h
  simp only at h
  rcases h8 : readUint64 r7 with _ | ⟨v8, r8⟩
  · rw [h8] at h; simp at h
  rw [h8] at h
  simp only at h
  rcases h9 : readBytes r8 with _ | ⟨v9, r9⟩
  · rw [h9] at h; simp at h
  rw [h9] at h
  simp only [Prod.mk.injEq, and_true] at h
  subst h
  have hmaj4 : maj = 4 := by simpa using hmaj
  have hn9 : n = 9 := by simpa using hn
  subst hmaj4; subst hn9
  refine ⟨r9, ?_⟩
  rw [(readHeader_inv b r0 4 9 h0).1, readInt64_inv r0 r1 v1 h1, readBytes_inv r1 r2 v2 h2,
    readBytes_inv r2 r3 v3 h3, readUint64_inv r3 r4 v4 h4, readBigInt_inv r4 r5 v5 h5,
    readBigInt_inv r5 r6 v6 h6, readInt64_inv r6 r7 v7 h7, readUint64_inv r7 r8 v8 h8,
    readBytes_inv r8 r9 v9 h9]


/-- The decoder refuses encodings that are not canonical: an integer in a wider width than
it needs (`0x18 0x00` for zero), an amount with leading zero bytes, a signed zero; a
message with its nonce written as `0x18 0x00` is malformed, and with the nonce written as
`0x00` it decodes. -/
theorem decode_refuses_noncanonical :
    readHeader [0x18, 0x00] = none ∧ readHeader [0x19, 0x00, 0xff] = none ∧
      bigOfBytes [0, 0, 0, 5] = none ∧ bigOfBytes [0] = none ∧ bigOfBytes [1] = none ∧
      bigOfBytes [0, 5] = some 5 ∧
      DecodeMessage cborGen
        [0x89, 0x00, 0x41, 0x01, 0x41, 0x01, 0x18, 0x00, 0x40, 0x40, 0x00, 0x00, 0x40] =
        (none, some "malformed Nonce") ∧
      DecodeMessage cborGen
        [0x89, 0x00, 0x41, 0x01, 0x41, 0x01, 0x00, 0x40, 0x40, 0x00, 0x00, 0x40] =
        (some (paramsOnly []), none) := by
  decide

/-! ## Content identifiers -/

theorem toStorageBlock_of_sum (cdc : Codec) (sum : SumFn) (m : Message) (data : Bytes)
    (c : cid.Cid) (h : m.Serialize cdc = .ret data) (hs : sum messagePrefix data = .ret c) :
    m.ToStorageBlock cdc sum = .ret ⟨data, c⟩ := by
  unfold messagePrefix at hs
  simp [Message.ToStorageBlock, h, hs, block.NewBlockWithCid]

theorem cid_of_sum (cdc : Codec) (sum : SumFn) (m : Message) (data : Bytes)
    (c : cid.Cid) (h : m.Serialize cdc = .ret data) (hs : sum messagePrefix data = .ret c) :
    m.Cid cdc sum = .ret c := by
  simp [Message.Cid, toStorageBlock_of_sum cdc sum m data c h hs]

/-- C6: when `Serialize(m)` gives the bytes `data`, `m.Cid()` is the identifier that the
fixed prefix (CID version 1, DagCBOR, BLAKE2b-256) gives for exactly those bytes, the block
of `ToStorageBlock(m)` holds exactly `data` and carries that same identifier, and every
message with the same bytes has the same identifier. -/
theorem cid_is_sum_of_serialize (cdc : Codec) (sum : SumFn) (m : Message) (data : Bytes)
    (c : cid.Cid) (h : m.Serialize cdc = .ret data) (hs : sum messagePrefix data = .ret c) :
    messagePrefix = ⟨1, 0x71, 0xb220, -1⟩ ∧
      m.ToStorageBlock cdc sum = .ret ⟨data, c⟩ ∧
      m.Cid cdc sum = .ret c ∧
      (∀ o : Message, o.Serialize cdc = .ret data → o.Cid cdc sum = m.Cid cdc sum) := by
  refine ⟨by decide, toStorageBlock_of_sum cdc sum m data c h hs,
    cid_of_sum cdc sum m data c h hs, fun o ho => ?_⟩
  rw [cid_of_sum cdc sum m data c h hs, cid_of_sum cdc sum o data c ho hs]

/-- C6 (witness): a message carrying one parameter byte, under the sample hash. -/
theorem cid_is_sum_of_serialize_witness :
    (paramsOnly [byteOf 7]).Serialize cborGen =
        .ret (((paramsOnly [byteOf 7]).Serialize cborGen).getD []) ∧
      (paramsOnly [byteOf 7]).Cid cborGen sampleSum =
        .ret ⟨1, 0x71, 0xb220, (((paramsOnly [byteOf 7]).Serialize cborGen).getD []).take 32⟩ :=
  ⟨by decide,
    (cid_is_sum_of_serialize cborGen sampleSum (paramsOnly [byteOf 7])
      (((paramsOnly [byteOf 7]).Serialize cborGen).getD [])
      ⟨1, 0x71, 0xb220, (((paramsOnly [byteOf 7]).Serialize cborGen).getD []).take 32⟩
      (by decide) (by decide)).2.2.1⟩

theorem equals_eq_decide (cdc : Codec) (sum : SumFn) (a b : Message) (c d : cid.Cid)
    (ha : a.Cid cdc sum = .ret c) (hb : b.Cid cdc sum = .ret d) :
    a.Equals cdc sum b = .ret (decide (c = d)) := by
  simp [Message.Equals, ha, hb]

theorem serialize_injective (a b : Message) (x : Bytes) (hva : a.valid) (hvb : b.valid)
    (ha0 : a.Version = MessageVersion) (hb0 : b.Version = MessageVersion)
    (ha : a.Serialize cborGen = .ret x) (hb : b.Serialize cborGen = .ret x) : a = b := by
  have h1 := decodeMessage_serialize a x hva ha0 ha
  have h2 := decodeMessage_serialize b x hvb hb0 hb
  rw [h1] at h2
  simpa using h2

/-! ## Equality is identity of identifiers -/

/-- C5: `Equals` compares the identifiers of the two messages, the hashes of their
serialisations: for messages whose serialisation and hashing succeed it returns whether the
two identifiers are the same, and messages with the same serialisation are `Equals`.
Whenever the two serialisations do not collide under the hash, `Equals` is true exactly
when the two messages serialise to the same bytes, and two messages whose serialisations
differ are not `Equals`. -/
theorem equals_iff_serialize_eq (cdc : Codec) (sum : SumFn) (a b : Message) (x y : Bytes)
    (c d : cid.Cid) (ha : a.Serialize cdc = .ret x) (hb : b.Serialize cdc = .ret y)
    (hc : sum messagePrefix x = .ret c) (hd : sum messagePrefix y = .ret d) :
    a.Equals cdc sum b = .ret (decide (c = d)) ∧
      (x = y → a.Equals cdc sum b = .ret true) ∧
      ((x ≠ y → c ≠ d) →
        (a.Equals cdc sum b = .ret true ↔ x = y) ∧
          (x ≠ y → a.Equals cdc sum b = .ret false)) := by
  have h1 := cid_of_sum cdc sum a x c ha hc
  have h2 := cid_of_sum cdc sum b y d hb hd
  have he : a.Equals cdc sum b = .ret (decide (c = d)) :=
    equals_eq_decide cdc sum a b c d h1 h2
  have hxy : x = y → c = d := by
    intro hxy
    subst hxy
    rw [hc] at hd
    cases hd
    rfl
  refine ⟨he, ?_, ?_⟩
  · intro h
    rw [he]
    simp [hxy h]
  · intro hcoll
    constructor
    · rw [he]
      constructor
      · intro h
        have hcd : c = d := by simpa using h
        exact Classical.byContradiction (fun hne => hcoll hne hcd)
      · intro h
        simp [hxy h]
    · intro hne
      rw [he]
      simp [hcoll hne]

/-- C5 (witness): two messages that differ only in their parameter bytes serialise to
different bytes, which the sample hash keeps apart, and are not `Equals`; each of them is
`Equals` to itself. -/
theorem equals_iff_serialize_eq_witness :
    (paramsOnly [byteOf 7]).Equals cborGen sampleSum (paramsOnly [byteOf 8]) = .ret false ∧
      (paramsOnly [byteOf 7]).Equals cborGen sampleSum (paramsOnly [byteOf 7]) = .ret true :=
  ⟨((equals_iff_serialize_eq cborGen sampleSum (paramsOnly [byteOf 7]) (paramsOnly [byteOf 8])
      (((paramsOnly [byteOf 7]).Serialize cborGen).getD [])
      (((paramsOnly [byteOf 8]).Serialize cborGen).getD [])
      ⟨1, 0x71, 0xb220, (((paramsOnly [byteOf 7]).Serialize cborGen).getD []).take 32⟩
      ⟨1, 0x71, 0xb220, (((paramsOnly [byteOf 8]).Serialize cborGen).getD []).take 32⟩
      (by decide) (by decide) (by decide) (by decide)).2.2 (fun _ => by decide)).2
      (by decide),
    (equals_iff_serialize_eq cborGen sampleSum (paramsOnly [byteOf 7]) (paramsOnly [byteOf 7])
      (((paramsOnly [byteOf 7]).Serialize cborGen).getD [])
      (((paramsOnly [byteOf 7]).Serialize cborGen).getD [])
      ⟨1, 0x71, 0xb220, (((paramsOnly [byteOf 7]).Serialize cborGen).getD []).take 32⟩
      ⟨1, 0x71, 0xb220, (((paramsOnly [byteOf 7]).Serialize cborGen).getD []).take 32⟩
      (by decide) (by decide) (by decide) (by decide)).2.1 rfl⟩

/-! ## The map `methods` -/

theorem lookup_filter_ne (methods : MethodsMap) (c k : CodeID) :
    (methods.filter (fun e => !decide (e.1 = c))).lookup k =
      if k = c then none else methods.lookup k := by
  induction methods with
  | nil => simp [List.lookup]
  | cons e rest ih =>
    obtain ⟨a, v⟩ := e
    by_cases hac : a = c
    · subst hac
      by_cases hk : k = a
      · subst hk; simp [List.filter, ih]
      · have : (k == a) = false := by simpa using hk
        simp [List.filter, ih, List.lookup, this, hk]
    · by_cases hk : k = a
      · subst hk
        simp [List.filter, hac, List.lookup]
      · have : (k == a) = false := by simpa using hk
        simp [List.filter, hac, List.lookup, this, ih]

theorem lookup_methodsSet (methods : MethodsMap) (c k : CodeID) (v : List methodMeta) :
    (methodsSet methods c v).lookup k = if k = c then some v else methods.lookup k := by
  unfold methodsSet
  by_cases hk : k = c
  · subst hk; simp [List.lookup]
  · have : (k == c) = false := by simpa using hk
    simp [List.lookup, this, lookup_filter_ne, hk]

theorem methodsGet_methodsSet_self (methods : MethodsMap) (c : CodeID)
    (v : List methodMeta) : methodsGet (methodsSet methods c v) c = v := by
  simp [methodsGet, lookup_methodsSet]

theorem methodsGet_methodsSet_ne (methods : MethodsMap) (c k : CodeID)
    (v : List methodMeta) (h : k ≠ c) :
    methodsGet (methodsSet methods c v) k = methodsGet methods k := by
  simp [methodsGet, lookup_methodsSet, h]

/-! ## `init` -/

theorem initExports_spec (c : CodeID) (exports : List Export) :
    ∀ (names : List String) (i : Nat) (methods methods1 : MethodsMap) (v0 : List methodMeta),
      methods.lookup c = some v0 →
      initExports c exports names i methods = .ret methods1 →
      (∀ k, k ≠ c → methods1.lookup k = methods.lookup k) ∧
        ∃ entries, methods1.lookup c = some (v0 ++ entries) ∧
          Describes exports names i entries := by
  intro names
  induction names with
  | nil =>
    intro i methods methods1 v0 hv h
    simp only [initExports, Result.ret.injEq] at h
    subst h
    exact ⟨fun _ _ => rfl, [], by simpa using hv, by simp [Describes]⟩
  | cons name rest ih =>
    intro i methods methods1 v0 hv h
    rw [initExports] at h
    rcases hex : exports[i + 1]? with _ | ex
    · simp [hex] at h
    · rcases hp : ex.In 1 with p | e | e
      · rcases hr : ex.Out 0 with r | e | e
        · simp only [hex, hp, hr] at h
          have hget : methodsGet methods c = v0 := by simp [methodsGet, hv]
          rw [hget] at h
          have hv1 : (methodsSet methods c (v0 ++ [⟨name, p, r⟩])).lookup c
              = some (v0 ++ [⟨name, p, r⟩]) := by
            simp [lookup_methodsSet]
          obtain ⟨hne, entries, hl, hlen, hd⟩ := ih (i + 1) _ methods1 _ hv1 h
          refine ⟨fun k hk => ?_, ⟨name, p, r⟩ :: entries, ?_, ?_, ?_⟩
          · rw [hne k hk, lookup_methodsSet]; simp [hk]
          · rw [hl]; simp
          · simp [hlen]
          · intro j nm hj
            cases j with
            | zero =>
              simp only [List.getElem?_cons_zero, Option.some.injEq] at hj
              subst hj
              exact ⟨ex, p, r, by simpa using hex, hp, hr, by simp⟩
            | succ j =>
              simp only [List.getElem?_cons_succ] at hj
              obtain ⟨ex1, p1, r1, h1, h2, h3, h4⟩ := hd j nm hj
              refine ⟨ex1, p1, r1, ?_, h2, h3, by simpa using h4⟩
              have : i + 1 + (j + 1) = i + 1 + 1 + j := by omega
              rw [this]; exact h1
        · simp [hex, hp, hr] at h
        · simp [hex, hp, hr] at h
      · simp [hex, hp] at h
      · simp [hex, hp] at h

theorem initEntry_spec (methods methods1 : MethodsMap) (c : CodeID) (d : ActorDef)
    (h : initEntry methods (c, d) = .ret methods1) :
    (∀ k, k ≠ c → methods1.lookup k = methods.lookup k) ∧
      ∃ entries, methods1.lookup c = some (methodsGet methods c ++ sendMeta :: entries) ∧
        Describes d.exports d.methodNums 0 entries := by
  unfold initEntry at h
  have hv1 : (methodsSet methods c (methodsGet methods c ++ [sendMeta])).lookup c
      = some (methodsGet methods c ++ [sendMeta]) := by
    simp [lookup_methodsSet]
  obtain ⟨hne, entries, hl, hd⟩ := initExports_spec c d.exports d.methodNums 0 _ methods1 _ hv1 h
  refine ⟨fun k hk => ?_, entries, ?_, hd⟩
  · rw [hne k hk, lookup_methodsSet]; simp [hk]
  · rw [hl]; simp

theorem initLoop_spec :
    ∀ (order : List (CodeID × ActorDef)) (methods methods1 : MethodsMap),
      (order.map Prod.fst).Nodup →
      initLoop order methods = .ret methods1 →
      (∀ k, k ∉ order.map Prod.fst → methods1.lookup k = methods.lookup k) ∧
        ∀ c d, (c, d) ∈ order →
          ∃ entries, methods1.lookup c = some (methodsGet methods c ++ sendMeta :: entries) ∧
            Describes d.exports d.methodNums 0 entries := by
  intro order
  induction order with
  | nil =>
    intro methods methods1 _ h
    simp only [initLoop, Result.ret.injEq] at h
    subst h
    exact ⟨fun _ _ => rfl, fun c d hcd => by simp at hcd⟩
  | cons e rest ih =>
    intro methods methods1 hnd h
    obtain ⟨c0, d0⟩ := e
    rw [initLoop] at h
    rcases he : initEntry methods (c0, d0) with m2 | msg | msg
    · simp only [he] at h
      simp only [List.map_cons, List.nodup_cons] at hnd
      obtain ⟨hne, entries0, hl0, hd0⟩ := initEntry_spec methods m2 c0 d0 he
      obtain ⟨hout, hin⟩ := ih m2 methods1 hnd.2 h
      refine ⟨fun k hk => ?_, fun c d hcd => ?_⟩
      · simp only [List.map_cons, List.mem_cons, not_or] at hk
        rw [hout k hk.2, hne k hk.1]
      · rcases List.mem_cons.1 hcd with heq | hmem
        · cases heq
          exact ⟨entries0, by rw [hout c0 hnd.1, hl0], hd0⟩
        · obtain ⟨entries, hl, hd⟩ := hin c d hmem
          have hc : c ≠ c0 := by
            intro hcc
            subst hcc
            exact hnd.1 (List.mem_map.2 ⟨(c, d), hmem, rfl⟩)
          refine ⟨entries, ?_, hd⟩
          rw [hl]
          simp [methodsGet, hne c hc]
    · simp [he] at h
    · simp [he] at h

/-- Every key of the map holds a list that starts with the `Send` descriptor. -/
theorem initLoop_head :
    ∀ (order : List (CodeID × ActorDef)) (methods methods1 : MethodsMap),
      (∀ k v, methods.lookup k = some v → v.head? = some sendMeta) →
      initLoop order methods = .ret methods1 →
      (∀ k v, methods1.lookup k = some v → v.head? = some sendMeta) ∧
        (∀ k, (methods.lookup k).isSome → (methods1.lookup k).isSome) ∧
        (∀ e, e ∈ order → (methods1.lookup e.1).isSome) := by
  intro order
  induction order with
  | nil =>
    intro methods methods1 hinv h
    simp only [initLoop, Result.ret.injEq] at h
    subst h
    exact ⟨hinv, fun _ hk => hk, fun e he => by simp at he⟩
  | cons e rest ih =>
    intro methods methods1 hinv h
    obtain ⟨c0, d0⟩ := e
    rw [initLoop] at h
    rcases he : initEntry methods (c0, d0) with m2 | msg | msg
    · simp only [he] at h
      obtain ⟨hne, entries0, hl0, -⟩ := initEntry_spec methods m2 c0 d0 he
      have hinv2 : ∀ k v, m2.lookup k = some v → v.head? = some sendMeta := by
        intro k v hkv
        by_cases hk : k = c0
        · subst hk
          rw [hl0] at hkv
          cases hkv
          rcases hlk : methods.lookup k with _ | v0
          · simp [methodsGet, hlk]
          · have := hinv k v0 hlk
            cases v0 with
            | nil => simp at this
            | cons a l => simpa [methodsGet, hlk] using this
        · rw [hne k hk] at hkv
          exact hinv k v hkv
      obtain ⟨h1, h2, h3⟩ := ih m2 methods1 hinv2 h
      have hc0 : (m2.lookup c0).isSome := by rw [hl0]; rfl
      refine ⟨h1, fun k hk => ?_, fun e hmem => ?_⟩
      · apply h2
        by_cases hkc : k = c0
        · subst hkc; exact hc0
        · rw [hne k hkc]; exact hk
      · rcases List.mem_cons.1 hmem with heq | hmem
        · subst heq; exact h2 c0 hc0
        · exact h3 e hmem
    · simp [he] at h
    · simp [he] at h

/-! ## The registry after `init` -/

theorem cidToMethods_keys_nodup (builtin : Builtin) :
    ((cidToMethods builtin).map Prod.fst).Nodup := by
  simp [cidToMethods]

/-- C7: after `init`, every class of the table is a key of `methods`, and for every key `c`
the list `methods[c]` is not empty and its entry at method number 0 has the name "Send" and
the pointer to `adt.EmptyValue` as parameter type and as return type. -/
theorem init_send_at_zero (order : List (CodeID × ActorDef)) (methods : MethodsMap)
    (h : init order = .ret methods) :
    (∀ e, e ∈ order → ∃ ms, methods.lookup e.1 = some ms) ∧
      ∀ c ms, methods.lookup c = some ms →
        methodsGet methods c = ms ∧ ms ≠ [] ∧
          methodsAt methods c 0 =
            .ret ⟨"Send", .ptr (.struct adt.EmptyValue), .ptr (.struct adt.EmptyValue)⟩ := by
  unfold init at h
  obtain ⟨h1, -, h3⟩ := initLoop_head order [] methods (by simp) h
  refine ⟨fun e he => ?_, fun c ms hc => ?_⟩
  · have := h3 e he
    exact Option.isSome_iff_exists.1 this
  · have hh := h1 c ms hc
    have hg : methodsGet methods c = ms := by simp [methodsGet, hc]
    refine ⟨hg, ?_, ?_⟩
    · intro hnil; subst hnil; simp at hh
    · cases ms with
      | nil => simp at hh
      | cons a l =>
        simp only [List.head?_cons, Option.some.injEq] at hh
        subst hh
        simp [methodsAt, hg, sendMeta, emptyValuePtr]

/-- C7 (witness): the table that `init` builds from the sample actors has "Send" at method
number 0 of the init actor. -/
theorem init_send_at_zero_witness :
    init (cidToMethods sampleBuiltin) = .ret (tableOf (init (cidToMethods sampleBuiltin))) ∧
      methodsAt (tableOf (init (cidToMethods sampleBuiltin))) .InitActorCodeID 0 =
        .ret ⟨"Send", .ptr (.struct adt.EmptyValue), .ptr (.struct adt.EmptyValue)⟩ :=
  ⟨by decide,
    ((init_send_at_zero (cidToMethods sampleBuiltin)
      (tableOf (init (cidToMethods sampleBuiltin))) (by decide)).2 .InitActorCodeID
      (methodsGet (tableOf (init (cidToMethods sampleBuiltin))) .InitActorCodeID)
      (by decide)).2.2⟩

/-- C8: after `init` (in whatever order the table was visited), for every class `c` of the
table whose method-number struct has `N` fields, `methods[c]` has exactly `N + 1` entries,
and for every `i` from 1 to `N` the entry at index `i` has the name of field `i - 1` of that
struct, the second input of export `i` as parameter type and the first output of export `i`
as return type. -/
theorem init_follows_declaration_order (builtin : Builtin)
    (order : List (CodeID × ActorDef)) (methods : MethodsMap)
    (hperm : order.Perm (cidToMethods builtin)) (h : init order = .ret methods) :
    ∀ c d, (c, d) ∈ cidToMethods builtin →
      (methodsGet methods c).length = d.methodNums.length + 1 ∧
        ∀ i, 1 ≤ i → i ≤ d.methodNums.length →
          ∃ name ex p r, d.methodNums[i - 1]? = some name ∧ d.exports[i]? = some ex ∧
            ex.In 1 = .ret p ∧ ex.Out 0 = .ret r ∧
            methodsAt methods c i = .ret ⟨name, p, r⟩ := by
  intro c d hcd
  unfold init at h
  have hnd : (order.map Prod.fst).Nodup :=
    (hperm.map Prod.fst).nodup_iff.2 (cidToMethods_keys_nodup builtin)
  obtain ⟨-, hin⟩ := initLoop_spec order [] methods hnd h
  obtain ⟨entries, hl, hlen, hd⟩ := hin c d (hperm.mem_iff.2 hcd)
  have hg : methodsGet methods c = sendMeta :: entries := by
    simp [methodsGet, hl, List.lookup]
  refine ⟨by simp [hg, hlen], fun i h1 hi => ?_⟩
  obtain ⟨j, rfl⟩ : ∃ j, i = j + 1 := ⟨i - 1, by omega⟩
  have hj : j < d.methodNums.length := by omega
  obtain ⟨ex, p, r, he, hp, hr, hent⟩ := hd j d.methodNums[j] (List.getElem?_eq_getElem hj)
  refine ⟨d.methodNums[j], ex, p, r, by simp [List.getElem?_eq_getElem hj], ?_, hp, hr, ?_⟩
  · simpa [Nat.add_comm] using he
  · simp [methodsAt, hg, hent]

/-- C8 (witness): with the sample actors, the init actor has two entries and entry 1 is
`Constructor` with the types of export 1. -/
theorem init_follows_declaration_order_witness :
    (cidToMethods sampleBuiltin).Perm (cidToMethods sampleBuiltin) ∧
      init (cidToMethods sampleBuiltin) = .ret (tableOf (init (cidToMethods sampleBuiltin))) ∧
      (methodsGet (tableOf (init (cidToMethods sampleBuiltin))) .InitActorCodeID).length
        = (sampleBuiltin .InitActorCodeID).methodNums.length + 1 :=
  ⟨List.Perm.refl _, by decide,
    ((init_follows_declaration_order sampleBuiltin (cidToMethods sampleBuiltin)
      (tableOf (init (cidToMethods sampleBuiltin))) (List.Perm.refl _) (by decide))
      .InitActorCodeID (sampleBuiltin .InitActorCodeID) (by simp [cidToMethods])).1⟩

/-! ## Lookups -/

/-- C9 (counterexample): in the table built from the sample actors the system actor is not
a key, and `jsonParams` for it panics with an index out of range instead of returning an
error; so does `jsonReturn`, and so does a method number past the last one of a registered
class. -/
theorem jsonParams_unregistered_panics :
    init (cidToMethods sampleBuiltin) = .ret (tableOf (init (cidToMethods sampleBuiltin))) ∧
      (tableOf (init (cidToMethods sampleBuiltin))).lookup .SystemActorCodeID = none ∧
      jsonParams sampleDecoders (tableOf (init (cidToMethods sampleBuiltin)))
        .SystemActorCodeID 0 [] = .crash "index out of range" ∧
      jsonReturn sampleDecoders (tableOf (init (cidToMethods sampleBuiltin)))
        .SystemActorCodeID 0 [] = .crash "index out of range" ∧
      jsonParams sampleDecoders (tableOf (init (cidToMethods sampleBuiltin)))
        .InitActorCodeID 2 [] = .crash "index out of range" ∧
      ¬ ∃ e, jsonParams sampleDecoders (tableOf (init (cidToMethods sampleBuiltin)))
        .SystemActorCodeID 0 [] = .err e := by
  refine ⟨by decide, by decide, by decide, by decide, by decide, ?_⟩
  rintro ⟨e, he⟩
  have h : jsonParams sampleDecoders (tableOf (init (cidToMethods sampleBuiltin)))
      .SystemActorCodeID 0 [] = .crash "index out of range" := by decide
  rw [h] at he
  cases he

/-- C9 (amended): whenever `c` is not a key of `methods` or `n` is not below the length of
`methods[c]`, the lookup `methods[c][n]` panics with an index out of range, and with it
`jsonParams` and `jsonReturn`: no descriptor is yielded and no error is returned. -/
theorem lookup_out_of_range_panics {V : Type} (dec : Decoders V) (methods : MethodsMap)
    (c : CodeID) (n : Nat) (b : Bytes)
    (h : methods.lookup c = none ∨ (methodsGet methods c).length ≤ n) :
    methodsAt methods c n = .crash "index out of range" ∧
      jsonParams dec methods c n b = .crash "index out of range" ∧
      jsonReturn dec methods c n b = .crash "index out of range" := by
  have hlen : (methodsGet methods c).length ≤ n := by
    rcases h with h | h
    · simp [methodsGet, h]
    · exact h
  have hat : methodsAt methods c n = .crash "index out of range" := by
    simp [methodsAt, List.getElem?_eq_none hlen]
  exact ⟨hat, by simp [jsonParams, hat], by simp [jsonReturn, hat]⟩

/-- C9 (witness): the system actor in the table built from the sample actors. -/
theorem lookup_out_of_range_panics_witness :
    (tableOf (init (cidToMethods sampleBuiltin))).lookup .SystemActorCodeID = none ∧
      jsonParams sampleDecoders (tableOf (init (cidToMethods sampleBuiltin)))
        .SystemActorCodeID 0 [1] = .crash "index out of range" :=
  ⟨by decide,
    (lookup_out_of_range_panics sampleDecoders (tableOf (init (cidToMethods sampleBuiltin)))
      .SystemActorCodeID 0 [1] (Or.inl (by decide))).2.1⟩

/-! ## Parameters from strings -/

theorem parseParams_nil (builtin : Builtin) (ps : Parsers) (act : CodeID) (method : Nat) :
    parseParamsForMethod builtin ps act method [] = .ret none := by
  simp [parseParamsForMethod]

/-- An export with other than three inputs: every non-empty argument list is refused. -/
theorem parseParams_not_three (builtin : Builtin) (ps : Parsers) (act : CodeID)
    (method : Nat) (args : List String) (exports : List Export) (ins outs : List RType)
    (hargs : args ≠ [])
    (hact : supportedExports builtin act = some exports)
    (hf : exports[method]? = some (.func ins outs))
    (h3 : ins.length ≠ 3) :
    parseParamsForMethod builtin ps act method args =
      .err "expected referenced method to have three arguments" := by
  have hne : args.length ≠ 0 := by
    intro h0; exact hargs (List.length_eq_zero.1 h0)
  unfold parseParamsForMethod
  simp only [hne, if_false, hact, hf, Export.NumIn, h3, ne_eq, not_false_eq_true, if_true]

/-- An export with three inputs: the count check is against the struct of the third. -/
theorem parseParams_count (builtin : Builtin) (ps : Parsers) (act : CodeID)
    (method : Nat) (args : List String) (exports : List Export) (ins outs : List RType)
    (t : RType) (s : StructType)
    (hargs : args ≠ [])
    (hact : supportedExports builtin act = some exports)
    (hf : exports[method]? = some (.func ins outs))
    (h3 : ins.length = 3) (ht : ins[2]? = some t) (hs : t.Elem = .ret (.struct s))
    (hlen : s.fields.length ≠ args.length) :
    parseParamsForMethod builtin ps act method args =
      .err ("not enough arguments given to call that method (expecting "
        ++ toString s.fields.length ++ ")") := by
  have hne : args.length ≠ 0 := by
    intro h0; exact hargs (List.length_eq_zero.1 h0)
  unfold parseParamsForMethod
  simp only [hne, if_false, hact, hf, Export.NumIn, h3, ne_eq, not_true_eq_false,
    Export.In, ht, hs, hlen, if_true, not_false_eq_true]

theorem getLast_of_three (ins : List RType) (h3 : ins.length = 3) :
    ins.getLast? = ins[2]? := by
  match ins, h3 with
  | [_, _, _], _ => rfl

theorem paramStruct_of_three (ins : List RType) (s : StructType) (h3 : ins.length = 3)
    (hs : paramStruct ins = some s) :
    ∃ t, ins[2]? = some t ∧ t.Elem = .ret (.struct s) := by
  unfold paramStruct at hs
  rw [getLast_of_three ins h3] at hs
  rcases ht : ins[2]? with _ | t
  · rw [ht] at hs; cases hs
  · rw [ht] at hs
    simp only at hs
    refine ⟨t, rfl, ?_⟩
    rcases he : t.Elem with r | e | e
    · rw [he] at hs
      cases r with
      | struct s1 =>
        simp only [Option.some.injEq] at hs
        rw [hs]
      | ptr _ => simp at hs
      | container _ _ => simp at hs
      | basic _ => simp at hs
    · rw [he] at hs; simp at hs
    · rw [he] at hs; simp at hs

/-- A method number without a function among the exports: a nil export (method number 0)
and a number past the last export make `parseParamsForMethod` panic on a non-empty argument
list. -/
theorem parseParams_no_function (builtin : Builtin) (ps : Parsers) (act : CodeID)
    (method : Nat) (args : List String) (exports : List Export)
    (hargs : args ≠ [])
    (hact : supportedExports builtin act = some exports) :
    (exports[method]? = some .nilValue →
        parseParamsForMethod builtin ps act method args =
          .crash "invalid memory address or nil pointer dereference") ∧
      (exports[method]? = none →
        parseParamsForMethod builtin ps act method args = .crash "index out of range") := by
  have hne : args.length ≠ 0 := by
    intro h0; exact hargs (List.length_eq_zero.1 h0)
  constructor
  · intro hf
    unfold parseParamsForMethod
    simp only [hne, if_false, hact, hf, Export.NumIn]
  · intro hf
    unfold parseParamsForMethod
    simp only [hne, if_false, hact, hf]

/-- C10 (counterexample): the storage market actor of the sample. Method 3 is a method value
whose parameter struct has two fields, yet with no arguments `parseParamsForMethod` returns
neither bytes nor an error. Method 0 is `Send`, registered by `init` with the parameter
struct `adt.EmptyValue` without fields, and has the nil export: with one argument
`parseParamsForMethod` panics and returns no error. -/
theorem parseParams_no_args_no_error :
    supportedExports sampleMarket .StorageMarketActorCodeID =
        some (sampleMarket .StorageMarketActorCodeID).exports ∧
      (sampleMarket .StorageMarketActorCodeID).exports[3]? =
        some (.func [.basic "Runtime",
          .ptr (.struct ⟨"market.WithdrawBalanceParams",
            [("ProviderOrClientAddress", .address), ("Amount", .other "abi.TokenAmount")]⟩)]
          [emptyValuePtr]) ∧
      methodsAt (tableOf (init (cidToMethods sampleMarket))) .StorageMarketActorCodeID 3 =
        .ret ⟨"WithdrawBalance",
          .ptr (.struct ⟨"market.WithdrawBalanceParams",
            [("ProviderOrClientAddress", .address), ("Amount", .other "abi.TokenAmount")]⟩),
          emptyValuePtr⟩ ∧
      paramStruct [.basic "Runtime",
          .ptr (.struct ⟨"market.WithdrawBalanceParams",
            [("ProviderOrClientAddress", .address), ("Amount", .other "abi.TokenAmount")]⟩)] =
        some ⟨"market.WithdrawBalanceParams",
          [("ProviderOrClientAddress", .address), ("Amount", .other "abi.TokenAmount")]⟩ ∧
      ([] : List String).length ≠
        (⟨"market.WithdrawBalanceParams",
          [("ProviderOrClientAddress", .address), ("Amount", .other "abi.TokenAmount")]⟩ :
            StructType).fields.length ∧
      parseParamsForMethod sampleMarket sampleParsers .StorageMarketActorCodeID 3 []
        = .ret none ∧
      (sampleMarket .StorageMarketActorCodeID).exports[0]? = some .nilValue ∧
      methodsAt (tableOf (init (cidToMethods sampleMarket))) .StorageMarketActorCodeID 0 =
        .ret ⟨"Send", .ptr (.struct ⟨"adt.EmptyValue", []⟩),
          .ptr (.struct ⟨"adt.EmptyValue", []⟩)⟩ ∧
      parseParamsForMethod sampleMarket sampleParsers .StorageMarketActorCodeID 0 ["t01000"]
        = .crash "invalid memory address or nil pointer dereference" := by
  decide

/-- C10 (amended): for a supported class and a non-empty argument list: for a method whose
export is a function, if the length of the list differs from the number of fields of the
method's parameter struct, `parseParamsForMethod` returns an error and no bytes; for a
method number whose export is nil (method number 0) or which is past the last export, it
panics. An empty argument list gives neither bytes nor an error, whatever the method. -/
theorem parseParams_count_mismatch (builtin : Builtin) (ps : Parsers) (act : CodeID)
    (method : Nat) (args : List String) (exports : List Export)
    (hargs : args ≠ [])
    (hact : supportedExports builtin act = some exports) :
    (∀ (ins outs : List RType) (s : StructType),
        exports[method]? = some (.func ins outs) → paramStruct ins = some s →
        s.fields.length ≠ args.length →
        ∃ e, parseParamsForMethod builtin ps act method args = .err e) ∧
      (exports[method]? = some .nilValue →
        parseParamsForMethod builtin ps act method args =
          .crash "invalid memory address or nil pointer dereference") ∧
      (exports[method]? = none →
        parseParamsForMethod builtin ps act method args = .crash "index out of range") ∧
      parseParamsForMethod builtin ps act method [] = .ret none := by
  obtain ⟨hnil, hnone⟩ := parseParams_no_function builtin ps act method args exports
    hargs hact
  refine ⟨?_, hnil, hnone, parseParams_nil builtin ps act method⟩
  intro ins outs s hf hs hlen
  by_cases h3 : ins.length = 3
  · obtain ⟨t, ht, hel⟩ := paramStruct_of_three ins s h3 hs
    exact ⟨_, parseParams_count builtin ps act method args exports ins outs t s
      hargs hact hf h3 ht hel hlen⟩
  · exact ⟨_, parseParams_not_three builtin ps act method args exports ins outs
      hargs hact hf h3⟩

/-- C10 (witness): method 3 of the storage market actor of the sample, one argument for a
parameter struct with two fields. -/
theorem parseParams_count_mismatch_witness :
    (∃ e, parseParamsForMethod sampleMarket sampleParsers .StorageMarketActorCodeID 3
        ["t01000"] = .err e) ∧
      parseParamsForMethod sampleMarket sampleParsers .StorageMarketActorCodeID 3 []
        = .ret none :=
  ⟨(parseParams_count_mismatch sampleMarket sampleParsers .StorageMarketActorCodeID 3
      ["t01000"] (sampleMarket .StorageMarketActorCodeID).exports
      (by decide) (by decide)).1
      [.basic "Runtime",
        .ptr (.struct ⟨"market.WithdrawBalanceParams",
          [("ProviderOrClientAddress", .address), ("Amount", .other "abi.TokenAmount")]⟩)]
      [emptyValuePtr]
      ⟨"market.WithdrawBalanceParams",
        [("ProviderOrClientAddress", .address), ("Amount", .other "abi.TokenAmount")]⟩
      (by decide) (by decide) (by decide),
    (parseParams_count_mismatch sampleMarket sampleParsers .StorageMarketActorCodeID 3
      ["t01000"] (sampleMarket .StorageMarketActorCodeID).exports
      (by decide) (by decide)).2.2.2⟩

/-! ## Field kinds -/

theorem parseFields_cons (ps : Parsers) (nm : String) (ty : FieldType)
    (fields : List (String × FieldType)) (arg : String) (args : List String) :
    parseFields ps ((nm, ty) :: fields) (arg :: args) =
      (match ty with
       | .address =>
         (match ps.NewFromString arg with
          | .ret a =>
            (match parseFields ps fields args with
             | .ret vs => .ret (.address a :: vs)
             | .err e => .err e
             | .crash e => .crash e)
          | .err e => .err ("failed to parse address: " ++ e)
          | .crash e => .crash e)
       | .uint64 =>
         (match ps.ParseUint arg with
          | .ret val =>
            (match parseFields ps fields args with
             | .ret vs => .ret (.uint64 val :: vs)
             | .err e => .err e
             | .crash e => .crash e)
          | .err e => .err e
          | .crash e => .crash e)
       | .peerID =>
         (match ps.IDB58Decode arg with
          | .ret pid =>
            (match parseFields ps fields args with
             | .ret vs => .ret (.peerID pid :: vs)
             | .err e => .err e
             | .crash e => .crash e)
          | .err e => .err ("failed to parse peer ID: " ++ e)
          | .crash e => .crash e)
       | .other name => .err ("unsupported type for call (TODO): " ++ name)) := by
  cases ty <;> rfl

theorem parseFields_ret_parses (ps : Parsers) :
    ∀ (fields : List (String × FieldType)) (args : List String) (vs : List FieldValue),
      parseFields ps fields args = .ret vs →
      ∀ (i : Nat) (fld : String × FieldType) (arg : String),
        fields[i]? = some fld → args[i]? = some arg → Parses ps fld.2 arg := by
  intro fields
  induction fields with
  | nil => intro args vs _ i fld arg hf; simp at hf
  | cons f0 fields ih =>
    intro args vs h i fld arg hf ha
    cases args with
    | nil => simp at ha
    | cons a0 args =>
      obtain ⟨nm, ty⟩ := f0
      rw [parseFields_cons] at h
      have step : ∀ vs1, parseFields ps fields args = .ret vs1 → Parses ps ty a0 →
          Parses ps fld.2 arg := by
        intro vs1 hrest hp0
        cases i with
        | zero =>
          simp only [List.getElem?_cons_zero, Option.some.injEq] at hf ha
          subst hf; subst ha; exact hp0
        | succ i =>
          simp only [List.getElem?_cons_succ] at hf ha
          exact ih args vs1 hrest i fld arg hf ha
      cases ty with
      | address =>
        simp only at h
        rcases h1 : ps.NewFromString a0 with a | e | e
        · rcases h2 : parseFields ps fields args with vs1 | e | e
          · exact step vs1 h2 ⟨a, h1⟩
          · simp [h1, h2] at h
          · simp [h1, h2] at h
        · simp [h1] at h
        · simp [h1] at h
      | uint64 =>
        simp only at h
        rcases h1 : ps.ParseUint a0 with a | e | e
        · rcases h2 : parseFields ps fields args with vs1 | e | e
          · exact step vs1 h2 ⟨a, h1⟩
          · simp [h1, h2] at h
          · simp [h1, h2] at h
        · simp [h1] at h
        · simp [h1] at h
      | peerID =>
        simp only at h
        rcases h1 : ps.IDB58Decode a0 with a | e | e
        · rcases h2 : parseFields ps fields args with vs1 | e | e
          · exact step vs1 h2 ⟨a, h1⟩
          · simp [h1, h2] at h
          · simp [h1, h2] at h
        · simp [h1] at h
        · simp [h1] at h
      | other name => simp at h

theorem parseFields_no_panic (ps : Parsers) (hnp : ps.NoPanic) :
    ∀ (fields : List (String × FieldType)) (args : List String) (e : String),
      parseFields ps fields args ≠ .crash e := by
  intro fields
  induction fields with
  | nil => intro args e; simp [parseFields]
  | cons f0 fields ih =>
    intro args e
    cases args with
    | nil => simp [parseFields]
    | cons a0 args =>
      obtain ⟨nm, ty⟩ := f0
      obtain ⟨n1, n2, n3⟩ := hnp a0
      rw [parseFields_cons]
      cases ty with
      | address =>
        simp only
        rcases h1 : ps.NewFromString a0 with a | e1 | e1
        · rcases h2 : parseFields ps fields args with vs1 | e2 | e2
          · simp
          · simp
          · exact absurd h2 (ih args e2)
        · simp
        · exact absurd h1 (n1 e1)
      | uint64 =>
        simp only
        rcases h1 : ps.ParseUint a0 with a | e1 | e1
        · rcases h2 : parseFields ps fields args with vs1 | e2 | e2
          · simp
          · simp
          · exact absurd h2 (ih args e2)
        · simp
        · exact absurd h1 (n2 e1)
      | peerID =>
        simp only
        rcases h1 : ps.IDB58Decode a0 with a | e1 | e1
        · rcases h2 : parseFields ps fields args with vs1 | e2 | e2
          · simp
          · simp
          · exact absurd h2 (ih args e2)
        · simp
        · exact absurd h1 (n3 e1)
      | other name => simp

/-- Past the argument count check, `parseParamsForMethod` is the field loop followed by the
encoder. -/
theorem parseParams_past_checks (builtin : Builtin) (ps : Parsers) (act : CodeID)
    (method : Nat) (args : List String) (exports : List Export) (ins outs : List RType)
    (t : RType) (s : StructType)
    (hargs : args ≠ [])
    (hact : supportedExports builtin act = some exports)
    (hf : exports[method]? = some (.func ins outs))
    (h3 : ins.length = 3) (ht : ins[2]? = some t) (hs : t.Elem = .ret (.struct s))
    (hlen : s.fields.length = args.length) :
    parseParamsForMethod builtin ps act method args =
      (match parseFields ps s.fields args with
       | .ret vs =>
         (match ps.MarshalCBOR s vs with
          | .ret b => .ret (some b)
          | .err e => .err ("failed to marshal param object: " ++ e)
          | .crash e => .crash e)
       | .err e => .err e
       | .crash e => .crash e) := by
  have hne : args.length ≠ 0 := by
    intro h0; exact hargs (List.length_eq_zero.1 h0)
  unfold parseParamsForMethod
  simp only [hne, if_false, hact, hf, Export.NumIn, h3, ne_eq, not_true_eq_false,
    Export.In, ht, hs, hlen, if_true, not_false_eq_true]

/-- C11: for a supported class, a method whose export is a function, and a non-empty
argument list with as many arguments as the method's parameter struct has fields: when some
field has a kind other than address, unsigned 64-bit integer or peer identifier,
`parseParamsForMethod` returns an error and no bytes (the parsers themselves not
panicking); and whenever it returns, it returns bytes, every field is of a supported kind
and every argument parses for the kind of its field. -/
theorem parseParams_field_kinds (builtin : Builtin) (ps : Parsers) (act : CodeID)
    (method : Nat) (args : List String) (exports : List Export) (ins outs : List RType)
    (s : StructType)
    (hargs : args ≠ [])
    (hact : supportedExports builtin act = some exports)
    (hf : exports[method]? = some (.func ins outs))
    (hs : paramStruct ins = some s)
    (hlen : s.fields.length = args.length) (hnp : ps.NoPanic) :
    ((∃ (i : Nat) (fld : String × FieldType) (name : String),
        s.fields[i]? = some fld ∧ fld.2 = .other name) →
        ∃ e, parseParamsForMethod builtin ps act method args = .err e) ∧
      (∀ r, parseParamsForMethod builtin ps act method args = .ret r →
        ∃ b, r = some b ∧
          ∀ (i : Nat) (fld : String × FieldType) (arg : String),
            s.fields[i]? = some fld → args[i]? = some arg → Parses ps fld.2 arg) := by
  by_cases h3 : ins.length = 3
  · obtain ⟨t, ht, hel⟩ := paramStruct_of_three ins s h3 hs
    have key := parseParams_past_checks builtin ps act method args exports ins outs t s
      hargs hact hf h3 ht hel hlen
    constructor
    · rintro ⟨i, fld, name, hfld, hother⟩
      rw [key]
      rcases hp : parseFields ps s.fields args with vs | e | e
      · have hi : i < s.fields.length := by
          by_contra hge
          rw [List.getElem?_eq_none (Nat.le_of_not_lt hge)] at hfld
          cases hfld
        have ha : args[i]? = some args[i] := List.getElem?_eq_getElem (hlen ▸ hi)
        have := parseFields_ret_parses ps s.fields args vs hp i fld _ hfld ha
        rw [hother] at this
        exact absurd this (by simp [Parses])
      · exact ⟨e, rfl⟩
      · exact absurd hp (parseFields_no_panic ps hnp s.fields args e)
    · intro r hr
      rw [key] at hr
      rcases hp : parseFields ps s.fields args with vs | e | e
      · rw [hp] at hr
        simp only at hr
        rcases hm : ps.MarshalCBOR s vs with b | e | e
        · rw [hm] at hr
          simp only [Result.ret.injEq] at hr
          exact ⟨b, hr.symm, parseFields_ret_parses ps s.fields args vs hp⟩
        · rw [hm] at hr; simp at hr
        · rw [hm] at hr; simp at hr
      · rw [hp] at hr; simp at hr
      · rw [hp] at hr; simp at hr
  · have key := parseParams_not_three builtin ps act method args exports ins outs
      hargs hact hf h3
    constructor
    · intro _
      exact ⟨_, key⟩
    · intro r hr
      rw [key] at hr
      cases hr

theorem sampleParsers_noPanic : sampleParsers.NoPanic := by
  intro arg
  refine ⟨fun e => ?_, fun e => ?_, fun e => ?_⟩
  · simp only [sampleParsers]
    split <;> simp
  · simp only [sampleParsers]
    split
    · split <;> simp
    · simp
  · simp [sampleParsers]

/-- C11 (witness): method 3 of the storage market actor of the sample, whose parameter
struct has an address and a token amount, a field of another kind, with two arguments: an
error and no bytes. -/
theorem parseParams_field_kinds_witness :
    ∃ e, parseParamsForMethod sampleMarket sampleParsers .StorageMarketActorCodeID 3
      ["t01000", "100"] = .err e :=
  (parseParams_field_kinds sampleMarket sampleParsers .StorageMarketActorCodeID 3
    ["t01000", "100"] (sampleMarket .StorageMarketActorCodeID).exports
    [.basic "Runtime",
      .ptr (.struct ⟨"market.WithdrawBalanceParams",
        [("ProviderOrClientAddress", .address), ("Amount", .other "abi.TokenAmount")]⟩)]
    [emptyValuePtr]
    ⟨"market.WithdrawBalanceParams",
      [("ProviderOrClientAddress", .address), ("Amount", .other "abi.TokenAmount")]⟩
    (by decide) (by decide) (by decide) (by decide) (by decide)
    sampleParsers_noPanic).1
    ⟨1, ("Amount", .other "abi.TokenAmount"), "abi.TokenAmount", by decide, rfl⟩

/-! ## The encoder and the registry -/

theorem supportedExports_mem (builtin : Builtin) (act : CodeID) (exports : List Export)
    (h : supportedExports builtin act = some exports) :
    (act, builtin act) ∈ cidToMethods builtin ∧ exports = (builtin act).exports := by
  cases act <;> simp [supportedExports] at h <;> simp [cidToMethods, h]

/-- The parameter type that `init` recorded for a method number from 1 on is the input at
index 1 of the export with that number. -/
theorem init_records_second_input (builtin : Builtin) (order : List (CodeID × ActorDef))
    (methods : MethodsMap) (hperm : order.Perm (cidToMethods builtin))
    (h : init order = .ret methods) (c : CodeID) (d : ActorDef)
    (hcd : (c, d) ∈ cidToMethods builtin) (i : Nat) (hi : 1 ≤ i) (m : methodMeta)
    (hm : methodsAt methods c i = .ret m) :
    ∃ ex, d.exports[i]? = some ex ∧ ex.In 1 = .ret m.params := by
  unfold init at h
  have hnd : (order.map Prod.fst).Nodup :=
    (hperm.map Prod.fst).nodup_iff.2 (cidToMethods_keys_nodup builtin)
  obtain ⟨-, hin⟩ := initLoop_spec order [] methods hnd h
  obtain ⟨entries, hl, hlen, hd⟩ := hin c d (hperm.mem_iff.2 hcd)
  have hg : methodsGet methods c = sendMeta :: entries := by
    simp [methodsGet, hl, List.lookup]
  obtain ⟨j, rfl⟩ : ∃ j, i = j + 1 := ⟨i - 1, by omega⟩
  unfold methodsAt at hm
  rw [hg, List.getElem?_cons_succ] at hm
  rcases hj : entries[j]? with _ | m1
  · rw [hj] at hm; simp at hm
  · rw [hj] at hm
    simp only [Result.ret.injEq] at hm
    subst hm
    have hjl : j < d.methodNums.length := by
      rw [← hlen]
      by_contra hge
      rw [List.getElem?_eq_none (Nat.le_of_not_lt hge)] at hj
      cases hj
    obtain ⟨ex, p, r, he, hp, -, hent⟩ := hd j d.methodNums[j] (List.getElem?_eq_getElem hjl)
    rw [hj] at hent
    simp only [Option.some.injEq] at hent
    subst hent
    exact ⟨ex, by simpa [Nat.add_comm] using he, hp⟩

/-- C18: the encoder and the registry agree on the parameter type of every method whose
export, when it is a function, has at index 1, where `init` reads the parameter type, its
last input, as a method value has (a function of the runtime and of a pointer to the
parameters). For such a method of a supported class and a non-empty argument list: when the
export has other than three inputs, as a method value has, `parseParamsForMethod` returns
the error that it expected three, and so never succeeds; and whenever it returns, it
returns bytes, the export is a function of exactly three inputs, the bytes encode the
struct that the input at index 2 points to, populated from the arguments, and that input is
the input at index 1, which is the parameter type that `init` recorded for the class and
the method in `methods`. -/
theorem encoder_agrees_with_registry (builtin : Builtin) (ps : Parsers) (act : CodeID)
    (method : Nat) (args : List String) (exports : List Export)
    (hargs : args ≠ [])
    (hact : supportedExports builtin act = some exports)
    (hlast : ∀ ins outs, exports[method]? = some (.func ins outs) →
      ins[1]? = ins.getLast?) :
    (∀ ins outs, exports[method]? = some (.func ins outs) → ins.length ≠ 3 →
        parseParamsForMethod builtin ps act method args =
          .err "expected referenced method to have three arguments") ∧
      (∀ r, parseParamsForMethod builtin ps act method args = .ret r →
        ∃ ins outs b t s vs, exports[method]? = some (.func ins outs) ∧ r = some b ∧
          ins.length = 3 ∧ ins[2]? = some t ∧
          t.Elem = .ret (.struct s) ∧ parseFields ps s.fields args = .ret vs ∧
          ps.MarshalCBOR s vs = .ret b ∧ ins[1]? = some t ∧
          ∀ (order : List (CodeID × ActorDef)) (methods : MethodsMap) (d : methodMeta),
            order.Perm (cidToMethods builtin) → init order = .ret methods → 1 ≤ method →
            methodsAt methods act method = .ret d → d.params = t) := by
  refine ⟨fun ins outs hf h3 => parseParams_not_three builtin ps act method args exports
    ins outs hargs hact hf h3, fun r hr => ?_⟩
  have hne : args.length ≠ 0 := by
    intro h0; exact hargs (List.length_eq_zero.1 h0)
  rcases hex : exports[method]? with _ | ex
  · rw [(parseParams_no_function builtin ps act method args exports hargs hact).2 hex] at hr
    cases hr
  cases ex with
  | nilValue =>
    rw [(parseParams_no_function builtin ps act method args exports hargs hact).1 hex] at hr
    cases hr
  | nonFunc t0 =>
    unfold parseParamsForMethod at hr
    simp only [hne, if_false, hact, hex, Export.NumIn] at hr
    cases hr
  | func ins outs =>
  by_cases h3 : ins.length = 3
  · have h12 : ins[1]? = ins[2]? := by rw [hlast ins outs hex, getLast_of_three ins h3]
    rcases ht : ins[2]? with _ | t
    · rw [List.getElem?_eq_none_iff] at ht
      omega
    · have hrec : ∀ (order : List (CodeID × ActorDef)) (methods : MethodsMap) (d : methodMeta),
          order.Perm (cidToMethods builtin) → init order = .ret methods → 1 ≤ method →
          methodsAt methods act method = .ret d → d.params = t := by
        intro order methods d hperm hinit h1 hd
        obtain ⟨hmem, hexp⟩ := supportedExports_mem builtin act exports hact
        obtain ⟨ex, he, hp⟩ := init_records_second_input builtin order methods hperm hinit
          act (builtin act) hmem method h1 d hd
        rw [← hexp, hex] at he
        cases he
        simp only [Export.In, h12, ht, Result.ret.injEq] at hp
        exact hp.symm
      unfold parseParamsForMethod at hr
      simp only [hne, if_false, hact, hex, Export.NumIn, h3, ne_eq, not_true_eq_false,
        Export.In, ht] at hr
      rcases hel : t.Elem with po | e | e
      · rw [hel] at hr
        simp only at hr
        cases po with
        | struct s =>
          simp only at hr
          by_cases hlen : s.fields.length = args.length
          · simp only [hlen, not_true_eq_false, if_false] at hr
            rcases hp : parseFields ps s.fields args with vs | e | e
            · rw [hp] at hr
              simp only at hr
              rcases hm : ps.MarshalCBOR s vs with b | e | e
              · rw [hm] at hr
                simp only [Result.ret.injEq] at hr
                exact ⟨ins, outs, b, t, s, vs, rfl, hr.symm, h3, ht, hel, hp, hm,
                  by rw [h12, ht], hrec⟩
              · rw [hm] at hr; simp at hr
              · rw [hm] at hr; simp at hr
            · rw [hp] at hr; simp at hr
            · rw [hp] at hr; simp at hr
          · simp [hlen] at hr
        | ptr _ => simp at hr
        | container _ _ => simp at hr
        | basic _ => simp at hr
      · rw [hel] at hr; simp at hr
      · rw [hel] at hr; simp at hr
  · rw [parseParams_not_three builtin ps act method args exports ins outs hargs hact hex h3]
      at hr
    cases hr

/-- C18 (witness): method 3 of the storage market actor of the sample, a method value of
two inputs, with an argument for each of the two fields of its parameter struct:
`parseParamsForMethod` returns the error and no bytes, and the parameter type that `init`
recorded is the pointer to that struct. -/
theorem encoder_agrees_with_registry_witness :
    parseParamsForMethod sampleMarket sampleParsers .StorageMarketActorCodeID 3
        ["t01000", "100"] = .err "expected referenced method to have three arguments" ∧
      methodsAt (tableOf (init (cidToMethods sampleMarket))) .StorageMarketActorCodeID 3 =
        .ret ⟨"WithdrawBalance",
          .ptr (.struct ⟨"market.WithdrawBalanceParams",
            [("ProviderOrClientAddress", .address), ("Amount", .other "abi.TokenAmount")]⟩),
          emptyValuePtr⟩ :=
  ⟨(encoder_agrees_with_registry sampleMarket sampleParsers .StorageMarketActorCodeID 3
      ["t01000", "100"] (sampleMarket .StorageMarketActorCodeID).exports
      (by decide) (by decide)
      (fun ins outs h => by
        have h1 : (sampleMarket .StorageMarketActorCodeID).exports[3]? =
            some (.func [.basic "Runtime",
              .ptr (.struct ⟨"market.WithdrawBalanceParams",
                [("ProviderOrClientAddress", .address),
                  ("Amount", .other "abi.TokenAmount")]⟩)] [emptyValuePtr]) := by decide
        rw [h1] at h
        cases h
        rfl)).1
      [.basic "Runtime",
        .ptr (.struct ⟨"market.WithdrawBalanceParams",
          [("ProviderOrClientAddress", .address), ("Amount", .other "abi.TokenAmount")]⟩)]
      [emptyValuePtr] (by decide) (by decide),
    by decide⟩

/-! ## Blocks of the HTML renderer -/

theorem not_isParamsSection_empty : ¬ IsParamsSection "" := by
  rintro ⟨body, h⟩
  have hl := congrArg String.length h
  have l1 : "<div><pre class=\"params\">".length = 25 := by decide
  rw [String.length_append, String.length_append, l1] at hl
  have l0 : "".length = 0 := by decide
  omega

theorem not_isReturnSection_closing : ¬ IsReturnSection "</div>" := by
  rintro ⟨body, h⟩
  have hl := congrArg String.length h
  have l1 : ", Return</div><div><pre class=\"ret\">".length = 36 := by decide
  have l0 : "</div>".length = 6 := by decide
  rw [String.length_append, String.length_append, l1, l0] at hl
  omega

theorem isParamsSection_paramsSlot (raw : Bytes) (p : String) :
    IsParamsSection (paramsSlot raw p) ↔ raw.length ≠ 0 := by
  unfold paramsSlot
  constructor
  · intro h hz
    rw [if_neg (by simpa using hz)] at h
    exact not_isParamsSection_empty h
  · intro hz
    rw [if_pos hz]
    exact ⟨p, rfl⟩

theorem isReturnSection_retSlot (raw : Bytes) (r : String) :
    IsReturnSection (retSlot raw r) ↔ raw.length ≠ 0 := by
  unfold retSlot
  constructor
  · intro h hz
    rw [if_pos hz] at h
    exact not_isReturnSection_closing h
  · intro hz
    rw [if_neg hz]
    exact ⟨r, rfl⟩

theorem subHead_ret_inv {σ V : Type} (gc : GetCode σ) (env : RenderEnv V) (msg : Message)
    (rct : MessageReceipt) (st st1 : σ) (ev : Event)
    (h : subHead gc env msg rct st = (.ret ev, st1)) :
    ∃ toCode p r code d, gc st msg.To = (.ret toCode, st1) ∧
      jsonParams env.dec env.methods toCode msg.Method msg.Params = .ret p ∧
      jsonReturn env.dec env.methods toCode msg.Method rct.Return = .ret r ∧
      codeStr env.mhDecode toCode = .ret code ∧
      methodsAt env.methods toCode msg.Method = .ret d ∧
      ev = .subExec code d.name msg.From msg.To msg.Value msg.Method
        (paramsSlot msg.Params p) rct.ExitCode (retSlot rct.Return r) := by
  unfold subHead at h
  rcases hg : gc st msg.To with ⟨toCode | e | e, s1⟩
  · rw [hg] at h
    simp only at h
    rcases hp : jsonParams env.dec env.methods toCode msg.Method msg.Params with p | e | e
    · rw [hp] at h
      simp only at h
      rcases hr : jsonReturn env.dec env.methods toCode msg.Method rct.Return with r | e | e
      · rw [hr] at h
        simp only at h
        rcases hc : codeStr env.mhDecode toCode with code | e | e
        · rw [hc] at h
          simp only at h
          rcases hm : methodsAt env.methods toCode msg.Method with d | e | e
          · rw [hm] at h
            simp only [Prod.mk.injEq, Result.ret.injEq] at h
            obtain ⟨h1, h2⟩ := h
            subst h2
            exact ⟨toCode, p, r, code, d, rfl, hp, hr, hc, hm, h1.symm⟩
          · rw [hm] at h; simp at h
          · rw [hm] at h; simp at h
        · rw [hc] at h; simp at h
        · rw [hc] at h; simp at h
      · rw [hr] at h; simp at h
      · rw [hr] at h; simp at h
    · rw [hp] at h; simp at h
    · rw [hp] at h; simp at h
  · rw [hg] at h; simp at h
  · rw [hg] at h; simp at h

theorem rootHead_ret_inv {σ V : Type} (gc : GetCode σ) (env : RenderEnv V) (msg : Message)
    (rct : MessageReceipt) (duration : Int) (st st1 : σ) (ev : Event)
    (h : rootHead gc env msg rct duration st = (.ret ev, st1)) :
    ∃ toCode p r c code d, gc st msg.To = (.ret toCode, st1) ∧
      jsonParams env.dec env.methods toCode msg.Method msg.Params = .ret p ∧
      jsonReturn env.dec env.methods toCode msg.Method rct.Return = .ret r ∧
      msg.Cid env.cdc env.sum = .ret c ∧
      codeStr env.mhDecode toCode = .ret code ∧
      methodsAt env.methods toCode msg.Method = .ret d ∧
      ev = .rootExec c code d.name msg.From msg.To msg.Value msg.Method
        (paramsSlot msg.Params p) (decide (duration > 10 * 1000000))
        (decide (duration > 50 * 1000000)) duration rct.ExitCode (retSlot rct.Return r) := by
  unfold rootHead at h
  rcases hg : gc st msg.To with ⟨toCode | e | e, s1⟩
  · rw [hg] at h
    simp only at h
    rcases hp : jsonParams env.dec env.methods toCode msg.Method msg.Params with p | e | e
    · rw [hp] at h
      simp only at h
      rcases hr : jsonReturn env.dec env.methods toCode msg.Method rct.Return with r | e | e
      · rw [hr] at h
        simp only at h
        rcases hcid : msg.Cid env.cdc env.sum with c | e | e
        · rw [hcid] at h
          simp only at h
          rcases hc : codeStr env.mhDecode toCode with code | e | e
          · rw [hc] at h
            simp only at h
            rcases hm : methodsAt env.methods toCode msg.Method with d | e | e
            · rw [hm] at h
              simp only [Prod.mk.injEq, Result.ret.injEq] at h
              obtain ⟨h1, h2⟩ := h
              subst h2
              exact ⟨toCode, p, r, c, code, d, rfl, hp, hr, rfl, hc, hm, h1.symm⟩
            · rw [hm] at h; simp at h
            · rw [hm] at h; simp at h
          · rw [hc] at h; simp at h
          · rw [hc] at h; simp at h
        · rw [hcid] at h; simp at h
        · rw [hcid] at h; simp at h
      · rw [hr] at h; simp at h
      · rw [hr] at h; simp at h
    · rw [hp] at h; simp at h
    · rw [hp] at h; simp at h
  · rw [hg] at h; simp at h
  · rw [hg] at h; simp at h


theorem subcallHtml_mk {σ V : Type} (gc : GetCode σ) (env : RenderEnv V) (msg : Message)
    (rct : MessageReceipt) (error : String) (dur : Int) (subs : List ExecutionResult) (st : σ) :
    subcallHtml gc env (.mk msg rct error dur subs) st =
      (match subHead gc env msg rct st with
       | (.ret block, st1) =>
         if subs.length > 0 then
           (match printInternalExecutionsHtml gc env subs st1 with
            | (out, st2, .ret _) =>
              (block :: errorSection rct.ExitCode error ++ .line "<div>Subcalls:</div>" :: out
                ++ [.line "</div>"], st2, .ret ())
            | (out, st2, .err e) =>
              (block :: errorSection rct.ExitCode error ++ .line "<div>Subcalls:</div>" :: out,
                st2, .err e)
            | (out, st2, .crash e) =>
              (block :: errorSection rct.ExitCode error ++ .line "<div>Subcalls:</div>" :: out,
                st2, .crash e))
         else (block :: errorSection rct.ExitCode error ++ [.line "</div>"], st1, .ret ())
       | (.err e, st1) => ([], st1, .err e)
       | (.crash e, st1) => ([], st1, .crash e)) := by
  rw [subcallHtml]

/-- The loop body for a node, root call or subcall alike: the first part, and when it
succeeds the block, the error section, the children under their heading, and the closing
tag. -/
theorem html_eq {σ V : Type} (gc : GetCode σ) (env : RenderEnv V) (n : Node) (st : σ) :
    n.html gc env st =
      (match n.head gc env st with
       | (.ret block, st1) =>
         if n.children.length > 0 then
           (match printInternalExecutionsHtml gc env n.children st1 with
            | (out, st2, .ret _) =>
              (block :: errorSection n.MsgRct.ExitCode n.Error ++ .line n.heading :: out
                ++ [.line "</div>"], st2, .ret ())
            | (out, st2, .err e) =>
              (block :: errorSection n.MsgRct.ExitCode n.Error ++ .line n.heading :: out,
                st2, .err e)
            | (out, st2, .crash e) =>
              (block :: errorSection n.MsgRct.ExitCode n.Error ++ .line n.heading :: out,
                st2, .crash e))
         else (block :: errorSection n.MsgRct.ExitCode n.Error ++ [.line "</div>"], st1, .ret ())
       | (.err e, st1) => ([], st1, .err e)
       | (.crash e, st1) => ([], st1, .crash e)) := by
  cases n with
  | root ir => rfl
  | sub im =>
    cases im with
    | mk msg rct error dur subs =>
      simp only [Node.html, subcallHtml_mk]
      rfl

theorem subExec_text_tag (f : Fmt) (code name : String) (src dst : Address) (value : BigInt)
    (method : Nat) (params : String) (exitCode : Int) (ret : String) :
    ∃ pre, (Event.subExec code name src dst value method params exitCode ret).text f =
      pre ++ exitTag exitCode ++ ret ++ "\n" := by
  have hl : "<div><span class=\"exit" = "<div>" ++ "<span class=\"exit" := by decide
  refine ⟨"<div class=\"exec\">\n" ++ "<div><h4 class=\"call\">" ++ code ++ ":" ++ name
      ++ "</h4></div>\n" ++ "<div><b>" ++ f.address src ++ "</b> -&gt; <b>" ++ f.address dst
      ++ "</b> (" ++ f.fil value ++ " FIL), M" ++ toString method ++ "</div>\n" ++ params ++ "\n"
      ++ "<div>", ?_⟩
  simp only [Event.text, exitTag, hl, String.append_assoc]

theorem rootExec_text_tag (f : Fmt) (msgCid : cid.Cid) (code name : String)
    (src dst : Address) (value : BigInt) (method : Nat) (params : String)
    (slow veryslow : Bool) (duration : Int) (exitCode : Int) (ret : String) :
    ∃ pre, (Event.rootExec msgCid code name src dst value method params slow veryslow duration
        exitCode ret).text f = pre ++ exitTag exitCode ++ ret ++ "\n" := by
  have hl : "</span>, <span class=\"exit" = "</span>, " ++ "<span class=\"exit" := by decide
  refine ⟨"<div class=\"exec\" id=\"" ++ f.cid msgCid ++ "\">\n" ++ "<div><a href=\"#"
      ++ f.cid msgCid ++ "\"><h2 class=\"call\">" ++ code ++ ":" ++ name ++ "</h2></a></div>\n"
      ++ "<div><b>" ++ f.address src ++ "</b> -&gt; <b>" ++ f.address dst ++ "</b> ("
      ++ f.fil value ++ " FIL), M" ++ toString method ++ "</div>\n" ++ "<div><small>Msg CID: "
      ++ f.cid msgCid ++ "</small></div>\n" ++ params ++ "\n" ++ "<div><span class=\"slow-"
      ++ toString slow ++ "-" ++ toString veryslow ++ "\">Took " ++ f.duration duration
      ++ "</span>, ", ?_⟩
  simp only [Event.text, exitTag, hl, String.append_assoc]

/-- What a successful first part of the loop body yields for a node: the class and the two
decoded values it was built from, and a block with the sections, exit code and call of the
node. -/
theorem head_ret_inv {σ V : Type} (gc : GetCode σ) (env : RenderEnv V) (n : Node)
    (st st1 : σ) (block : Event) (h : n.head gc env st = (.ret block, st1)) :
    ∃ toCode p r, gc st n.Msg.To = (.ret toCode, st1) ∧
      jsonParams env.dec env.methods toCode n.Msg.Method n.Msg.Params = .ret p ∧
      jsonReturn env.dec env.methods toCode n.Msg.Method n.MsgRct.Return = .ret r ∧
      block.isBlock = true ∧
      block.params = paramsSlot n.Msg.Params p ∧
      block.ret = retSlot n.MsgRct.Return r ∧
      block.exitCode = n.MsgRct.ExitCode ∧
      block.call = some n.call ∧
      ∀ f, ∃ pre, block.text f = pre ++ exitTag n.MsgRct.ExitCode ++ block.ret ++ "\n" := by
  cases n with
  | root ir =>
    obtain ⟨toCode, p, r, c, code, d, h1, h2, h3, -, -, -, h7⟩ :=
      rootHead_ret_inv gc env ir.Msg ir.MsgRct ir.Duration st st1 block h
    subst h7
    exact ⟨toCode, p, r, h1, h2, h3, rfl, rfl, rfl, rfl, rfl,
      fun f => rootExec_text_tag f _ _ _ _ _ _ _ _ _ _ _ _ _⟩
  | sub im =>
    obtain ⟨toCode, p, r, code, d, h1, h2, h3, -, -, h7⟩ :=
      subHead_ret_inv gc env im.Msg im.MsgRct st st1 block h
    subst h7
    exact ⟨toCode, p, r, h1, h2, h3, rfl, rfl, rfl, rfl, rfl,
      fun f => subExec_text_tag f _ _ _ _ _ _ _ _ _⟩

theorem methodsAt_ne_err (methods : MethodsMap) (c : CodeID) (n : Nat) (e : String) :
    methodsAt methods c n ≠ .err e := by
  unfold methodsAt; split <;> simp

theorem codeStr_ne_err (mhDecode : CodeID → Result String) (c : CodeID) (e : String) :
    codeStr mhDecode c ≠ .err e := by
  unfold codeStr; split <;> simp

theorem cid_ne_err (cdc : Codec) (sum : SumFn) (m : Message) (e : String) :
    m.Cid cdc sum ≠ .err e := by
  unfold Message.Cid; split <;> simp

theorem subHead_err_iff {σ V : Type} (gc : GetCode σ) (env : RenderEnv V) (msg : Message)
    (rct : MessageReceipt) (st st1 : σ) (e : String) :
    subHead gc env msg rct st = (.err e, st1) ↔
      ((∃ e0, gc st msg.To = (.err e0, st1) ∧
          e = "getting code for " ++ env.undef ++ ": " ++ e0) ∨
        (∃ toCode e0, gc st msg.To = (.ret toCode, st1) ∧
          jsonParams env.dec env.methods toCode msg.Method msg.Params = .err e0 ∧
          e = "decoding params: " ++ e0) ∨
        (∃ toCode p e0, gc st msg.To = (.ret toCode, st1) ∧
          jsonParams env.dec env.methods toCode msg.Method msg.Params = .ret p ∧
          jsonReturn env.dec env.methods toCode msg.Method rct.Return = .err e0 ∧
          e = "decoding return value: " ++ e0)) := by
  constructor
  · intro h
    unfold subHead at h
    rcases hg : gc st msg.To with ⟨toCode | e1 | e1, s1⟩
    · rw [hg] at h
      simp only at h
      rcases hp : jsonParams env.dec env.methods toCode msg.Method msg.Params with p | e2 | e2
      · rw [hp] at h
        simp only at h
        rcases hr : jsonReturn env.dec env.methods toCode msg.Method rct.Return with r | e3 | e3
        · rw [hr] at h
          simp only at h
          rcases hc : codeStr env.mhDecode toCode with code | e4 | e4
          · rw [hc] at h
            simp only at h
            rcases hm : methodsAt env.methods toCode msg.Method with d | e5 | e5
            · rw [hm] at h; simp at h
            · exact absurd hm (methodsAt_ne_err _ _ _ _)
            · rw [hm] at h; simp at h
          · exact absurd hc (codeStr_ne_err _ _ _)
          · rw [hc] at h; simp at h
        · rw [hr] at h
          simp only [Prod.mk.injEq, Result.err.injEq] at h
          obtain ⟨h1, h2⟩ := h
          subst h2
          exact Or.inr (Or.inr ⟨toCode, p, e3, rfl, hp, hr, h1.symm⟩)
        · rw [hr] at h; simp at h
      · rw [hp] at h
        simp only [Prod.mk.injEq, Result.err.injEq] at h
        obtain ⟨h1, h2⟩ := h
        subst h2
        exact Or.inr (Or.inl ⟨toCode, e2, rfl, hp, h1.symm⟩)
      · rw [hp] at h; simp at h
    · rw [hg] at h
      simp only [Prod.mk.injEq, Result.err.injEq] at h
      obtain ⟨h1, h2⟩ := h
      subst h2
      exact Or.inl ⟨e1, rfl, h1.symm⟩
    · rw [hg] at h; simp at h
  · rintro (⟨e0, hg, he⟩ | ⟨toCode, e0, hg, hp, he⟩ | ⟨toCode, p, e0, hg, hp, hr, he⟩)
    · simp only [subHead, hg, he]
    · simp only [subHead, hg, hp, he]
    · simp only [subHead, hg, hp, hr, he]

theorem rootHead_err_iff {σ V : Type} (gc : GetCode σ) (env : RenderEnv V) (msg : Message)
    (rct : MessageReceipt) (duration : Int) (st st1 : σ) (e : String) :
    rootHead gc env msg rct duration st = (.err e, st1) ↔
      ((∃ e0, gc st msg.To = (.err e0, st1) ∧
          e = "getting code for " ++ env.undef ++ ": " ++ e0) ∨
        (∃ toCode e0, gc st msg.To = (.ret toCode, st1) ∧
          jsonParams env.dec env.methods toCode msg.Method msg.Params = .err e0 ∧
          e = "decoding params: " ++ e0) ∨
        (∃ toCode p e0, gc st msg.To = (.ret toCode, st1) ∧
          jsonParams env.dec env.methods toCode msg.Method msg.Params = .ret p ∧
          jsonReturn env.dec env.methods toCode msg.Method rct.Return = .err e0 ∧
          e = "decoding return value: " ++ e0)) := by
  constructor
  · intro h
    unfold rootHead at h
    rcases hg : gc st msg.To with ⟨toCode | e1 | e1, s1⟩
    · rw [hg] at h
      simp only at h
      rcases hp : jsonParams env.dec env.methods toCode msg.Method msg.Params with p | e2 | e2
      · rw [hp] at h
        simp only at h
        rcases hr : jsonReturn env.dec env.methods toCode msg.Method rct.Return with r | e3 | e3
        · rw [hr] at h
          simp only at h
          rcases hcid : Message.Cid env.cdc env.sum msg with c | e6 | e6
          · rw [hcid] at h
            simp only at h
            rcases hc : codeStr env.mhDecode toCode with code | e4 | e4
            · rw [hc] at h
              simp only at h
              rcases hm : methodsAt env.methods toCode msg.Method with d | e5 | e5
              · rw [hm] at h; simp at h
              · exact absurd hm (methodsAt_ne_err _ _ _ _)
              · rw [hm] at h; simp at h
            · exact absurd hc (codeStr_ne_err _ _ _)
            · rw [hc] at h; simp at h
          · exact absurd hcid (cid_ne_err _ _ _ _)
          · rw [hcid] at h; simp at h
        · rw [hr] at h
          simp only [Prod.mk.injEq, Result.err.injEq] at h
          obtain ⟨h1, h2⟩ := h
          subst h2
          exact Or.inr (Or.inr ⟨toCode, p, e3, rfl, hp, hr, h1.symm⟩)
        · rw [hr] at h; simp at h
      · rw [hp] at h
        simp only [Prod.mk.injEq, Result.err.injEq] at h
        obtain ⟨h1, h2⟩ := h
        subst h2
        exact Or.inr (Or.inl ⟨toCode, e2, rfl, hp, h1.symm⟩)
      · rw [hp] at h; simp at h
    · rw [hg] at h
      simp only [Prod.mk.injEq, Result.err.injEq] at h
      obtain ⟨h1, h2⟩ := h
      subst h2
      exact Or.inl ⟨e1, rfl, h1.symm⟩
    · rw [hg] at h; simp at h
  · rintro (⟨e0, hg, he⟩ | ⟨toCode, e0, hg, hp, he⟩ | ⟨toCode, p, e0, hg, hp, hr, he⟩)
    · simp only [rootHead, hg, he]
    · simp only [rootHead, hg, hp, he]
    · simp only [rootHead, hg, hp, hr, he]

/-- The first part of the loop body for a node returns an error exactly when class
resolution or one of the two decodings fails. -/
theorem head_err_iff {σ V : Type} (gc : GetCode σ) (env : RenderEnv V) (n : Node)
    (st st1 : σ) (e : String) :
    n.head gc env st = (.err e, st1) ↔ Fails gc env n st e st1 := by
  cases n with
  | root ir => exact rootHead_err_iff gc env ir.Msg ir.MsgRct ir.Duration st st1 e
  | sub im => exact subHead_err_iff gc env im.Msg im.MsgRct st st1 e

theorem html_of_head_err {σ V : Type} (gc : GetCode σ) (env : RenderEnv V) (n : Node)
    (st st1 : σ) (e : String) (h : n.head gc env st = (.err e, st1)) :
    n.html gc env st = ([], st1, .err e) := by
  rw [html_eq, h]

/-- A node that renders without error printed its block first, then its error section, then a
line of fixed text. -/
theorem html_ret_inv {σ V : Type} (gc : GetCode σ) (env : RenderEnv V) (n : Node)
    (st st' : σ) (out : List Event) (u : Unit) (h : n.html gc env st = (out, st', .ret u)) :
    ∃ block st1 s more, n.head gc env st = (.ret block, st1) ∧
      out = block :: (errorSection n.MsgRct.ExitCode n.Error ++ .line s :: more) := by
  rw [html_eq] at h
  rcases hh : n.head gc env st with ⟨block | e | e, st1⟩
  · rw [hh] at h
    simp only at h
    by_cases hc : n.children.length > 0
    · rw [if_pos hc] at h
      rcases hk : printInternalExecutionsHtml gc env n.children st1 with ⟨o, st2, v | e | e⟩
      · rw [hk] at h
        simp only [Prod.mk.injEq] at h
        exact ⟨block, st1, n.heading, o ++ [.line "</div>"], rfl, by simp [← h.1]⟩
      · rw [hk] at h; simp at h
      · rw [hk] at h; simp at h
    · rw [if_neg hc] at h
      simp only [Prod.mk.injEq] at h
      exact ⟨block, st1, "</div>", [], rfl, by simp [← h.1]⟩
  · rw [hh] at h; simp at h
  · rw [hh] at h; simp at h

theorem errorSection_line_head (exitCode : Int) (error s : String) (more : List Event) :
    (∃ rest, errorSection exitCode error ++ .line s :: more = .error error :: rest) ↔
      exitCode ≠ 0 := by
  unfold errorSection
  constructor
  · rintro ⟨rest, h⟩ hz
    rw [if_neg (by simpa using hz)] at h
    simp at h
  · intro hz
    rw [if_pos hz]
    exact ⟨_, rfl⟩

/-- C12 (counterexample): a subcall and a root call whose parameter and return bytes are both
empty do not render when the decoders fail on an empty byte string: the renderer decodes
them all the same and returns the decoder's error, while with decoders that accept an empty
byte string the same calls render. -/
theorem empty_bytes_decoded_counterexample :
    (callNode 1 [] [] 0 []).Msg.Params = [] ∧ (callNode 1 [] [] 0 []).MsgRct.Return = [] ∧
      printInternalExecutionsHtml sampleGetCode strictEnv [callNode 1 [] [] 0 []] () =
        ([], (), .err "decoding params: EOF") ∧
      (printInternalExecutionsHtml sampleGetCode sampleEnv [callNode 1 [] [] 0 []] ()).2.2 =
        .ret () ∧
      computeStateHtml sampleGetCode strictEnv
          ⟨⟨1, 113, 45600, []⟩, [⟨paramsOnly [], ⟨0, [], 0⟩, [], "", 0⟩]⟩ () =
        ([.header ⟨1, 113, 45600, []⟩], (), .err "decoding params: EOF") ∧
      (computeStateHtml sampleGetCode sampleEnv
          ⟨⟨1, 113, 45600, []⟩, [⟨paramsOnly [], ⟨0, [], 0⟩, [], "", 0⟩]⟩ ()).2.2 = .ret () := by
  decide

/-- C12 (amended): the HTML renderer decodes the parameter bytes and the return bytes of
every node, also when they are empty. A node whose parameter and return bytes are both empty
renders without error only if decoding the empty byte string succeeds for both schemas, and
then its block has an empty parameter section and the closing tag alone as return section,
whatever the decoded values are; when decoding the empty byte string fails for the
parameters or for the return value, the renderer returns that error and prints nothing for
the node. -/
theorem empty_bytes_still_decoded {σ V : Type} (gc : GetCode σ) (env : RenderEnv V)
    (n : Node) (st : σ) (hp : n.Msg.Params = []) (hr : n.MsgRct.Return = []) :
    (∀ out st', n.html gc env st = (out, st', .ret ()) →
        ∃ toCode st1 p r block rest, gc st n.Msg.To = (.ret toCode, st1) ∧
          jsonParams env.dec env.methods toCode n.Msg.Method [] = .ret p ∧
          jsonReturn env.dec env.methods toCode n.Msg.Method [] = .ret r ∧
          out = block :: rest ∧ block.params = "" ∧ block.ret = "</div>") ∧
      (∀ toCode st1 e, gc st n.Msg.To = (.ret toCode, st1) →
        jsonParams env.dec env.methods toCode n.Msg.Method [] = .err e →
        n.html gc env st = ([], st1, .err ("decoding params: " ++ e))) ∧
      (∀ toCode st1 p e, gc st n.Msg.To = (.ret toCode, st1) →
        jsonParams env.dec env.methods toCode n.Msg.Method [] = .ret p →
        jsonReturn env.dec env.methods toCode n.Msg.Method [] = .err e →
        n.html gc env st = ([], st1, .err ("decoding return value: " ++ e))) := by
  refine ⟨fun out st' h => ?_, fun toCode st1 e hg hj => ?_, fun toCode st1 p e hg hj hk => ?_⟩
  · obtain ⟨block, st1, s, more, hh, hout⟩ := html_ret_inv gc env n st st' out () h
    obtain ⟨toCode, p, r, h1, h2, h3, -, h5, h6, -⟩ := head_ret_inv gc env n st st1 block hh
    rw [hp] at h2 h5
    rw [hr] at h3 h6
    exact ⟨toCode, st1, p, r, block, _, h1, h2, h3, hout, by simpa [paramsSlot] using h5,
      by simpa [retSlot] using h6⟩
  · apply html_of_head_err
    rw [head_err_iff]
    exact Or.inr (Or.inl ⟨toCode, e, hg, by rw [hp]; exact hj, rfl⟩)
  · apply html_of_head_err
    rw [head_err_iff]
    exact Or.inr (Or.inr ⟨toCode, p, e, hg, by rw [hp]; exact hj, by rw [hr]; exact hk, rfl⟩)

/-- C12 (witness): the subcall with empty parameter and return bytes, under the decoders
that fail on an empty byte string. -/
theorem empty_bytes_still_decoded_witness :
    (Node.sub (callNode 1 [] [] 0 [])).html sampleGetCode strictEnv () =
      ([], (), .err ("decoding params: " ++ "EOF")) :=
  (empty_bytes_still_decoded sampleGetCode strictEnv (Node.sub (callNode 1 [] [] 0 [])) ()
    (by decide) (by decide)).2.1 .InitActorCodeID () "EOF" (by decide) (by decide)

/-- C13: in the block of every node that the HTML renderer renders without error, root call
or subcall, the return section (the `, Return` marker and the decoded return value in a `ret`
block) is present if and only if the return bytes are not empty, and the parameter section
if and only if the parameter bytes are not empty; with empty return bytes the return slot is
the closing tag alone. -/
theorem sections_iff_nonempty {σ V : Type} (gc : GetCode σ) (env : RenderEnv V) (n : Node)
    (st st' : σ) (out : List Event) (h : n.html gc env st = (out, st', .ret ())) :
    ∃ block rest toCode st1 p r, out = block :: rest ∧ block.isBlock = true ∧
      gc st n.Msg.To = (.ret toCode, st1) ∧
      jsonParams env.dec env.methods toCode n.Msg.Method n.Msg.Params = .ret p ∧
      jsonReturn env.dec env.methods toCode n.Msg.Method n.MsgRct.Return = .ret r ∧
      (IsReturnSection block.ret ↔ n.MsgRct.Return.length ≠ 0) ∧
      (IsParamsSection block.params ↔ n.Msg.Params.length ≠ 0) ∧
      (n.MsgRct.Return.length = 0 → block.ret = "</div>") ∧
      (n.MsgRct.Return.length ≠ 0 →
        block.ret = ", Return</div><div><pre class=\"ret\">" ++ r ++ "</pre></div>") ∧
      (n.Msg.Params.length = 0 → block.params = "") ∧
      (n.Msg.Params.length ≠ 0 →
        block.params = "<div><pre class=\"params\">" ++ p ++ "</pre></div>") := by
  obtain ⟨block, st1, s, more, hh, hout⟩ := html_ret_inv gc env n st st' out () h
  obtain ⟨toCode, p, r, h1, h2, h3, h4, h5, h6, -⟩ := head_ret_inv gc env n st st1 block hh
  refine ⟨block, _, toCode, st1, p, r, hout, h4, h1, h2, h3, ?_, ?_, ?_, ?_, ?_, ?_⟩
  · rw [h6]; exact isReturnSection_retSlot _ _
  · rw [h5]; exact isParamsSection_paramsSlot _ _
  · intro hz; rw [h6, retSlot, if_pos hz]
  · intro hz; rw [h6, retSlot, if_neg hz]
  · intro hz; rw [h5, paramsSlot, if_neg (by simpa using hz)]
  · intro hz; rw [h5, paramsSlot, if_pos hz]

/-- C13 (witness): a subcall with parameter bytes and without return bytes. -/
theorem sections_iff_nonempty_witness :
    ∃ block rest toCode st1 p r,
      ((Node.sub (callNode 1 [1] [] 0 [])).html sampleGetCode sampleEnv ()).1 = block :: rest ∧
      block.isBlock = true ∧
      sampleGetCode () (Node.sub (callNode 1 [1] [] 0 [])).Msg.To = (.ret toCode, st1) ∧
      jsonParams sampleEnv.dec sampleEnv.methods toCode
        (Node.sub (callNode 1 [1] [] 0 [])).Msg.Method
        (Node.sub (callNode 1 [1] [] 0 [])).Msg.Params = .ret p ∧
      jsonReturn sampleEnv.dec sampleEnv.methods toCode
        (Node.sub (callNode 1 [1] [] 0 [])).Msg.Method
        (Node.sub (callNode 1 [1] [] 0 [])).MsgRct.Return = .ret r ∧
      (IsReturnSection block.ret ↔
        (Node.sub (callNode 1 [1] [] 0 [])).MsgRct.Return.length ≠ 0) ∧
      (IsParamsSection block.params ↔
        (Node.sub (callNode 1 [1] [] 0 [])).Msg.Params.length ≠ 0) ∧
      ((Node.sub (callNode 1 [1] [] 0 [])).MsgRct.Return.length = 0 → block.ret = "</div>") ∧
      ((Node.sub (callNode 1 [1] [] 0 [])).MsgRct.Return.length ≠ 0 →
        block.ret = ", Return</div><div><pre class=\"ret\">" ++ r ++ "</pre></div>") ∧
      ((Node.sub (callNode 1 [1] [] 0 [])).Msg.Params.length = 0 → block.params = "") ∧
      ((Node.sub (callNode 1 [1] [] 0 [])).Msg.Params.length ≠ 0 →
        block.params = "<div><pre class=\"params\">" ++ p ++ "</pre></div>") :=
  sections_iff_nonempty sampleGetCode sampleEnv (Node.sub (callNode 1 [1] [] 0 [])) () ()
    ((Node.sub (callNode 1 [1] [] 0 [])).html sampleGetCode sampleEnv ()).1 (by decide)

/-- C14: the block of every node that the HTML renderer renders without error, root call or
subcall, carries the exit code of the node, printed as the class `exit<code>` and as the
code itself, and the error section with the error text of the node follows the block if and
only if the exit code is not zero. -/
theorem block_tagged_with_exit_code {σ V : Type} (gc : GetCode σ) (env : RenderEnv V)
    (n : Node) (st st' : σ) (out : List Event) (h : n.html gc env st = (out, st', .ret ())) :
    ∃ block rest, out = block :: rest ∧ block.isBlock = true ∧
      block.exitCode = n.MsgRct.ExitCode ∧
      (∀ f, ∃ pre, block.text f = pre ++ exitTag n.MsgRct.ExitCode ++ block.ret ++ "\n") ∧
      ((∃ more, rest = .error n.Error :: more) ↔ n.MsgRct.ExitCode ≠ 0) ∧
      (n.MsgRct.ExitCode = 0 → ∃ s more, rest = .line s :: more) := by
  obtain ⟨block, st1, s, more, hh, hout⟩ := html_ret_inv gc env n st st' out () h
  obtain ⟨toCode, p, r, -, -, -, h4, -, -, h7, -, h9⟩ := head_ret_inv gc env n st st1 block hh
  refine ⟨block, _, hout, h4, h7, h9, errorSection_line_head _ _ _ _, fun hz => ?_⟩
  exact ⟨s, more, by simp [errorSection, hz]⟩

/-- C14 (witness): a subcall with exit code 1 is followed by its error section. -/
theorem block_tagged_with_exit_code_witness :
    ∃ block rest,
      ((Node.sub (callNode 1 [1] [] 1 [])).html sampleGetCode sampleEnv ()).1 = block :: rest ∧
      block.isBlock = true ∧
      block.exitCode = (Node.sub (callNode 1 [1] [] 1 [])).MsgRct.ExitCode ∧
      (∀ f, ∃ pre, block.text f =
        pre ++ exitTag (Node.sub (callNode 1 [1] [] 1 [])).MsgRct.ExitCode ++ block.ret ++ "\n") ∧
      ((∃ more, rest = .error (Node.sub (callNode 1 [1] [] 1 [])).Error :: more) ↔
        (Node.sub (callNode 1 [1] [] 1 [])).MsgRct.ExitCode ≠ 0) ∧
      ((Node.sub (callNode 1 [1] [] 1 [])).MsgRct.ExitCode = 0 →
        ∃ s more, rest = .line s :: more) :=
  block_tagged_with_exit_code sampleGetCode sampleEnv (Node.sub (callNode 1 [1] [] 1 [])) () ()
    ((Node.sub (callNode 1 [1] [] 1 [])).html sampleGetCode sampleEnv ()).1 (by decide)

/-! ## The traversal -/

theorem scan_cons {σ V : Type} (gc : GetCode σ) (env : RenderEnv V) (n : Node)
    (rest : List Node) (st : σ) :
    scan gc env (n :: rest) st =
      (match n.head gc env st with
       | (.ret block, st1) =>
         (block :: (scan gc env rest st1).1, (scan gc env rest st1).2.1,
           (scan gc env rest st1).2.2)
       | (.err e, st1) => ([], st1, .err e)
       | (.crash e, st1) => ([], st1, .crash e)) := by
  rw [scan]

theorem scan_append_ret {σ V : Type} (gc : GetCode σ) (env : RenderEnv V) :
    ∀ (a b : List Node) (st st1 : σ) (o : List Event) (u : Unit),
      scan gc env a st = (o, st1, .ret u) →
      scan gc env (a ++ b) st =
        (o ++ (scan gc env b st1).1, (scan gc env b st1).2.1, (scan gc env b st1).2.2) := by
  intro a
  induction a with
  | nil =>
    intro b st st1 o u h
    simp only [scan, Prod.mk.injEq] at h
    obtain ⟨h1, h2, -⟩ := h
    subst h1; subst h2
    rfl
  | cons n rest ih =>
    intro b st st1 o u h
    rw [scan_cons] at h
    rw [List.cons_append, scan_cons]
    rcases hh : n.head gc env st with ⟨block | e | e, s1⟩
    · rw [hh] at h
      simp only [Prod.mk.injEq] at h
      obtain ⟨h1, h2, h3⟩ := h
      have hr : scan gc env rest s1 = ((scan gc env rest s1).1, st1, .ret u) := by
        rw [← h2, ← h3]
      simp only
      rw [ih b s1 st1 _ u hr]
      simp [← h1]
    · rw [hh] at h; simp at h
    · rw [hh] at h; simp at h

theorem scan_append_stop {σ V : Type} (gc : GetCode σ) (env : RenderEnv V) :
    ∀ (a b : List Node) (st st1 : σ) (o : List Event) (r : Result Unit),
      scan gc env a st = (o, st1, r) → (∀ u, r ≠ .ret u) →
      scan gc env (a ++ b) st = (o, st1, r) := by
  intro a
  induction a with
  | nil =>
    intro b st st1 o r h hr
    simp only [scan, Prod.mk.injEq] at h
    exact absurd h.2.2.symm (hr ())
  | cons n rest ih =>
    intro b st st1 o r h hr
    rw [scan_cons] at h
    rw [List.cons_append, scan_cons]
    rcases hh : n.head gc env st with ⟨block | e | e, s1⟩
    · rw [hh] at h
      simp only [Prod.mk.injEq] at h
      obtain ⟨h1, h2, h3⟩ := h
      have hrest : scan gc env rest s1 = ((scan gc env rest s1).1, st1, r) := by
        rw [← h2, ← h3]
      simp only
      rw [ih b s1 st1 _ r hrest hr]
      simp [← h1]
    · rw [hh] at h; exact h
    · rw [hh] at h; exact h

theorem filter_isBlock_errorSection (exitCode : Int) (error : String) :
    (errorSection exitCode error).filter Event.isBlock = [] := by
  unfold errorSection
  split <;> simp [Event.isBlock]

/-- The blocks that the loop body prints for a node are those of the traversal of the node
and its children, when this holds for the children. -/
theorem node_scan {σ V : Type} (gc : GetCode σ) (env : RenderEnv V) (n : Node) (d : Nat)
    (hkids : ∀ st1, scan gc env ((walkAll d n.children).map (fun p => Node.sub p.2)) st1 =
      ((printInternalExecutionsHtml gc env n.children st1).1.filter Event.isBlock,
        (printInternalExecutionsHtml gc env n.children st1).2.1,
        (printInternalExecutionsHtml gc env n.children st1).2.2))
    (st : σ) :
    scan gc env (n :: (walkAll d n.children).map (fun p => Node.sub p.2)) st =
      ((n.html gc env st).1.filter Event.isBlock, (n.html gc env st).2.1,
        (n.html gc env st).2.2) := by
  have hline : ∀ s, Event.isBlock (.line s) = false := fun _ => rfl
  rw [scan_cons, html_eq]
  rcases hh : n.head gc env st with ⟨block | e | e, st1⟩
  · obtain ⟨-, -, -, -, -, -, hb, -⟩ := head_ret_inv gc env n st st1 block hh
    simp only
    rw [hkids st1]
    by_cases hc : n.children.length > 0
    · rw [if_pos hc]
      rcases hk : printInternalExecutionsHtml gc env n.children st1 with ⟨o, st2, v | e | e⟩
      · simp [List.filter_cons, hb, filter_isBlock_errorSection, hline]
      · simp [List.filter_cons, hb, filter_isBlock_errorSection, hline]
      · simp [List.filter_cons, hb, filter_isBlock_errorSection, hline]
    · rw [if_neg hc]
      have hnil : n.children = [] := by
        cases hcs : n.children with
        | nil => rfl
        | cons a l => rw [hcs] at hc; simp at hc
      rw [hnil]
      simp [printInternalExecutionsHtml, List.filter_cons, hb, filter_isBlock_errorSection,
        hline, walkAll, scan]
  · simp
  · simp

mutual
/-- The blocks that `printInternalExecutionsHtml` prints for one node and its subcalls are
those of the traversal of that tree. -/
theorem subcallHtml_scan {σ V : Type} (gc : GetCode σ) (env : RenderEnv V) :
    ∀ (im : ExecutionResult) (d : Nat) (st : σ),
      scan gc env ((walk d im).map (fun p => Node.sub p.2)) st =
        ((subcallHtml gc env im st).1.filter Event.isBlock, (subcallHtml gc env im st).2.1,
          (subcallHtml gc env im st).2.2)
  | .mk msg rct error dur subs, d, st => by
    have h := node_scan gc env (Node.sub (.mk msg rct error dur subs)) (d + 1)
      (fun st1 => printInternalExecutionsHtml_scan gc env subs (d + 1) st1) st
    rw [walk]
    exact h
/-- The blocks that `printInternalExecutionsHtml` prints are those of the traversal of the
forest in pre-order. -/
theorem printInternalExecutionsHtml_scan {σ V : Type} (gc : GetCode σ) (env : RenderEnv V) :
    ∀ (trace : List ExecutionResult) (d : Nat) (st : σ),
      scan gc env ((walkAll d trace).map (fun p => Node.sub p.2)) st =
        ((printInternalExecutionsHtml gc env trace st).1.filter Event.isBlock,
          (printInternalExecutionsHtml gc env trace st).2.1,
          (printInternalExecutionsHtml gc env trace st).2.2)
  | [], d, st => by
    simp [walkAll, scan, printInternalExecutionsHtml]
  | im :: rest, d, st => by
    have h1 := subcallHtml_scan gc env im d st
    rw [walkAll, List.map_append, printInternalExecutionsHtml]
    rcases hs : subcallHtml gc env im st with ⟨o, st1, u | e | e⟩
    · rw [hs] at h1
      rw [scan_append_ret gc env _ _ st st1 _ u h1,
        printInternalExecutionsHtml_scan gc env rest d st1]
      simp
    · rw [hs] at h1
      rw [scan_append_stop gc env _ _ st st1 _ _ h1 (by simp)]
    · rw [hs] at h1
      rw [scan_append_stop gc env _ _ st st1 _ _ h1 (by simp)]
end

theorem traceNodes_cons (ir : InvocResult) (rest : List InvocResult) :
    traceNodes (ir :: rest) =
      (Node.root ir :: (walkAll 1 ir.InternalExecutions).map (fun p => Node.sub p.2))
        ++ traceNodes rest := by
  simp [traceNodes]

/-- The blocks that the loop of `computeStateHtml` prints are those of the traversal of the
trace in pre-order. -/
theorem rootCallsHtml_scan {σ V : Type} (gc : GetCode σ) (env : RenderEnv V) :
    ∀ (trace : List InvocResult) (st : σ),
      scan gc env (traceNodes trace) st =
        ((rootCallsHtml gc env trace st).1.filter Event.isBlock,
          (rootCallsHtml gc env trace st).2.1, (rootCallsHtml gc env trace st).2.2) := by
  intro trace
  induction trace with
  | nil => intro st; simp [traceNodes, scan, rootCallsHtml]
  | cons ir rest ih =>
    intro st
    have h1 := node_scan gc env (Node.root ir) 1
      (fun st1 => printInternalExecutionsHtml_scan gc env ir.InternalExecutions 1 st1) st
    rw [traceNodes_cons, rootCallsHtml]
    have hroot : (Node.root ir).html gc env st = rootCallHtml gc env ir st := rfl
    have hkids : (Node.root ir).children = ir.InternalExecutions := rfl
    rw [hroot, hkids] at h1
    rcases hs : rootCallHtml gc env ir st with ⟨o, st1, u | e | e⟩
    · rw [hs] at h1
      rw [scan_append_ret gc env _ _ st st1 _ u h1, ih st1]
      simp
    · rw [hs] at h1
      rw [scan_append_stop gc env _ _ st st1 _ _ h1 (by simp)]
    · rw [hs] at h1
      rw [scan_append_stop gc env _ _ st st1 _ _ h1 (by simp)]

theorem computeStateHtml_scan {σ V : Type} (gc : GetCode σ) (env : RenderEnv V)
    (o : ComputeStateOutput) (st : σ) :
    scan gc env (traceNodes o.Trace) st =
      ((computeStateHtml gc env o st).1.filter Event.isBlock,
        (computeStateHtml gc env o st).2.1, (computeStateHtml gc env o st).2.2) := by
  rw [rootCallsHtml_scan, computeStateHtml]
  rcases rootCallsHtml gc env o.Trace st with ⟨out, st1, u | e | e⟩ <;>
    simp [List.filter_cons, Event.isBlock]

/-- What the traversal has when it stops: the blocks of the first nodes, one per node and in
their order, and all of them when it ends without error or panic. -/
theorem scan_calls {σ V : Type} (gc : GetCode σ) (env : RenderEnv V) :
    ∀ (nodes : List Node) (st st1 : σ) (blocks : List Event) (r : Result Unit),
      scan gc env nodes st = (blocks, st1, r) →
      blocks.filterMap Event.call = (nodes.take blocks.length).map Node.call ∧
        blocks.length ≤ nodes.length ∧ (∀ u, r = .ret u → blocks.length = nodes.length) := by
  intro nodes
  induction nodes with
  | nil =>
    intro st st1 blocks r h
    simp only [scan, Prod.mk.injEq] at h
    obtain ⟨h1, -, -⟩ := h
    subst h1
    simp
  | cons n rest ih =>
    intro st st1 blocks r h
    rw [scan_cons] at h
    rcases hh : n.head gc env st with ⟨block | e | e, s1⟩
    · rw [hh] at h
      simp only [Prod.mk.injEq] at h
      obtain ⟨h1, h2, h3⟩ := h
      obtain ⟨-, -, -, -, -, -, -, -, -, -, hcall, -⟩ := head_ret_inv gc env n st s1 block hh
      have hr : scan gc env rest s1 = ((scan gc env rest s1).1, st1, r) := by
        rw [← h2, ← h3]
      obtain ⟨i1, i2, i3⟩ := ih s1 st1 _ r hr
      subst h1
      refine ⟨?_, ?_, ?_⟩
      · simp [List.filterMap_cons, hcall, i1]
      · simp; exact i2
      · intro u hu; simp [i3 u hu]
    · rw [hh] at h
      simp only [Prod.mk.injEq] at h
      obtain ⟨h1, -, h3⟩ := h
      subst h1
      refine ⟨by simp, by simp, fun u hu => ?_⟩
      rw [hu] at h3; cases h3
    · rw [hh] at h
      simp only [Prod.mk.injEq] at h
      obtain ⟨h1, -, h3⟩ := h
      subst h1
      refine ⟨by simp, by simp, fun u hu => ?_⟩
      rw [hu] at h3; cases h3

/-- A traversal that ends with an error stopped at a node whose visit failed with that error,
after visiting the nodes before it. -/
theorem scan_err_inv {σ V : Type} (gc : GetCode σ) (env : RenderEnv V) :
    ∀ (nodes : List Node) (st st1 : σ) (blocks : List Event) (e : String),
      scan gc env nodes st = (blocks, st1, .err e) →
      ∃ done n rest stk, nodes = done ++ n :: rest ∧
        scan gc env done st = (blocks, stk, .ret ()) ∧ Fails gc env n stk e st1 := by
  intro nodes
  induction nodes with
  | nil =>
    intro st st1 blocks e h
    simp [scan] at h
  | cons n rest ih =>
    intro st st1 blocks e h
    rw [scan_cons] at h
    rcases hh : n.head gc env st with ⟨block | e1 | e1, s1⟩
    · rw [hh] at h
      simp only [Prod.mk.injEq] at h
      obtain ⟨h1, h2, h3⟩ := h
      have hr : scan gc env rest s1 = ((scan gc env rest s1).1, st1, .err e) := by
        rw [← h2, ← h3]
      obtain ⟨done, m, more, stk, hsplit, hdone, hfail⟩ := ih s1 st1 _ e hr
      refine ⟨n :: done, m, more, stk, by simp [hsplit], ?_, hfail⟩
      rw [scan_cons, hh]
      simp only [hdone, ← h1]
    · rw [hh] at h
      simp only [Prod.mk.injEq, Result.err.injEq] at h
      obtain ⟨h1, h2, h3⟩ := h
      subst h1; subst h2; subst h3
      exact ⟨[], n, rest, st, rfl, rfl, (head_err_iff gc env n st s1 e1).1 hh⟩
    · rw [hh] at h; simp at h

/-- A node whose visit fails after the nodes before it were visited makes the traversal end
with its error, with the blocks of the nodes before it. -/
theorem scan_err_of {σ V : Type} (gc : GetCode σ) (env : RenderEnv V) (done rest : List Node)
    (n : Node) (st stk st1 : σ) (blocks : List Event) (e : String)
    (hdone : scan gc env done st = (blocks, stk, .ret ()))
    (hfail : Fails gc env n stk e st1) :
    scan gc env (done ++ n :: rest) st = (blocks, st1, .err e) := by
  rw [scan_append_ret gc env done (n :: rest) st stk blocks () hdone, scan_cons,
    (head_err_iff gc env n stk st1 e).2 hfail]
  simp

theorem node_no_footer {σ V : Type} (gc : GetCode σ) (env : RenderEnv V) (n : Node)
    (hkids : ∀ st1, Event.footer ∉ (printInternalExecutionsHtml gc env n.children st1).1)
    (st : σ) : Event.footer ∉ (n.html gc env st).1 := by
  rw [html_eq]
  rcases hh : n.head gc env st with ⟨block | e | e, st1⟩
  · obtain ⟨-, -, -, -, -, -, hb, -⟩ := head_ret_inv gc env n st st1 block hh
    have hbf : Event.footer ≠ block := by
      intro hf; rw [← hf] at hb; cases hb
    have herr : Event.footer ∉ errorSection n.MsgRct.ExitCode n.Error := by
      unfold errorSection; split <;> simp
    have hk := hkids st1
    simp only
    by_cases hc : n.children.length > 0
    · rw [if_pos hc]
      rcases hp : printInternalExecutionsHtml gc env n.children st1 with ⟨o, st2, v | e | e⟩ <;>
        (rw [hp] at hk; simp [hbf, herr, hk])
    · rw [if_neg hc]
      simp [hbf, herr]
  · simp
  · simp

mutual
theorem subcallHtml_no_footer {σ V : Type} (gc : GetCode σ) (env : RenderEnv V) :
    ∀ (im : ExecutionResult) (st : σ), Event.footer ∉ (subcallHtml gc env im st).1
  | .mk msg rct error dur subs, st =>
    node_no_footer gc env (Node.sub (.mk msg rct error dur subs))
      (fun st1 => printInternalExecutionsHtml_no_footer gc env subs st1) st
theorem printInternalExecutionsHtml_no_footer {σ V : Type} (gc : GetCode σ)
    (env : RenderEnv V) :
    ∀ (trace : List ExecutionResult) (st : σ),
      Event.footer ∉ (printInternalExecutionsHtml gc env trace st).1
  | [], st => by simp [printInternalExecutionsHtml]
  | im :: rest, st => by
    have h1 := subcallHtml_no_footer gc env im st
    rw [printInternalExecutionsHtml]
    rcases hs : subcallHtml gc env im st with ⟨o, st1, u | e | e⟩
    · rw [hs] at h1
      have h2 := printInternalExecutionsHtml_no_footer gc env rest st1
      simp [h1, h2]
    · rw [hs] at h1; simpa using h1
    · rw [hs] at h1; simpa using h1
end

theorem rootCallsHtml_no_footer {σ V : Type} (gc : GetCode σ) (env : RenderEnv V) :
    ∀ (trace : List InvocResult) (st : σ), Event.footer ∉ (rootCallsHtml gc env trace st).1 := by
  intro trace
  induction trace with
  | nil => intro st; simp [rootCallsHtml]
  | cons ir rest ih =>
    intro st
    have h1 : Event.footer ∉ (rootCallHtml gc env ir st).1 :=
      node_no_footer gc env (Node.root ir)
        (fun st1 => printInternalExecutionsHtml_no_footer gc env ir.InternalExecutions st1) st
    rw [rootCallsHtml]
    rcases hs : rootCallHtml gc env ir st with ⟨o, st1, u | e | e⟩
    · rw [hs] at h1
      simp [h1, ih st1]
    · rw [hs] at h1; simpa using h1
    · rw [hs] at h1; simpa using h1

theorem computeStateHtml_footer {σ V : Type} (gc : GetCode σ) (env : RenderEnv V)
    (o : ComputeStateOutput) (st : σ) :
    Event.footer ∈ (computeStateHtml gc env o st).1 ↔
      (computeStateHtml gc env o st).2.2 = .ret () := by
  have h := rootCallsHtml_no_footer gc env o.Trace st
  rw [computeStateHtml]
  rcases hs : rootCallsHtml gc env o.Trace st with ⟨out, st1, u | e | e⟩
  · simp
  · rw [hs] at h; simpa using h
  · rw [hs] at h; simpa using h

/-! ## Fail fast, and the order of the traversal -/

/-- C15: `computeStateHtml` stops at the first node, in pre-order and at any depth, whose
class resolution, parameter decoding or return decoding fails: when the nodes before it were
visited and its visit fails with an error, `computeStateHtml` returns that error, the blocks
printed are exactly those of the nodes before it, and the footer of the document is not
printed; an error that `computeStateHtml` returns is the error of such a node; and when it
returns no error, a block was printed for every node and the footer was printed. -/
theorem computeStateHtml_fail_fast {σ V : Type} (gc : GetCode σ) (env : RenderEnv V)
    (o : ComputeStateOutput) (st : σ) :
    (∀ done n rest blocks stk e st1,
        traceNodes o.Trace = done ++ n :: rest →
        scan gc env done st = (blocks, stk, .ret ()) →
        Fails gc env n stk e st1 →
        (computeStateHtml gc env o st).2.2 = .err e ∧
          (computeStateHtml gc env o st).2.1 = st1 ∧
          (computeStateHtml gc env o st).1.filter Event.isBlock = blocks ∧
          blocks.filterMap Event.call = done.map Node.call ∧
          blocks.length = done.length ∧
          Event.footer ∉ (computeStateHtml gc env o st).1) ∧
      (∀ e, (computeStateHtml gc env o st).2.2 = .err e →
        ∃ done n rest blocks stk, traceNodes o.Trace = done ++ n :: rest ∧
          scan gc env done st = (blocks, stk, .ret ()) ∧
          Fails gc env n stk e (computeStateHtml gc env o st).2.1) ∧
      ((computeStateHtml gc env o st).2.2 = .ret () →
        ((computeStateHtml gc env o st).1.filter Event.isBlock).filterMap Event.call =
            (traceNodes o.Trace).map Node.call ∧
          Event.footer ∈ (computeStateHtml gc env o st).1) := by
  have hscan := computeStateHtml_scan gc env o st
  refine ⟨?_, ?_, ?_⟩
  · intro done n rest blocks stk e st1 hsplit hdone hfail
    have h := scan_err_of gc env done rest n st stk st1 blocks e hdone hfail
    rw [← hsplit, hscan] at h
    simp only [Prod.mk.injEq] at h
    obtain ⟨h1, h2, h3⟩ := h
    obtain ⟨c1, -, c3⟩ := scan_calls gc env done st stk blocks _ hdone
    have hlen : blocks.length = done.length := c3 () rfl
    refine ⟨h3, h2, h1, ?_, hlen, ?_⟩
    · rw [c1, hlen, List.take_length]
    · rw [computeStateHtml_footer, h3]
      simp
  · intro e he
    have h : scan gc env (traceNodes o.Trace) st =
        ((computeStateHtml gc env o st).1.filter Event.isBlock,
          (computeStateHtml gc env o st).2.1, .err e) := by
      rw [hscan, he]
    obtain ⟨done, n, rest, stk, hsplit, hdone, hfail⟩ := scan_err_inv gc env _ _ _ _ _ h
    exact ⟨done, n, rest, _, stk, hsplit, hdone, hfail⟩
  · intro hret
    obtain ⟨c1, -, c3⟩ := scan_calls gc env _ _ _ _ _ hscan
    refine ⟨?_, (computeStateHtml_footer gc env o st).2 hret⟩
    rw [c1, c3 () hret, List.take_length]

/-- C15 (witness): a root call whose second internal execution does not decode under the
decoders that fail on an empty byte string: the error is returned, the blocks of the root
call and of the first internal execution are printed, and the footer is not. -/
theorem computeStateHtml_fail_fast_witness :
    (computeStateHtml sampleGetCode strictEnv
        ⟨⟨1, 113, 45600, []⟩,
          [⟨paramsOnly [byteOf 1], ⟨0, [byteOf 1], 0⟩,
            [callNode 1 [byteOf 1] [byteOf 1] 0 [], callNode 1 [] [] 0 []], "", 0⟩]⟩ ()).2.2 =
        .err "decoding params: EOF" ∧
      ((computeStateHtml sampleGetCode strictEnv
        ⟨⟨1, 113, 45600, []⟩,
          [⟨paramsOnly [byteOf 1], ⟨0, [byteOf 1], 0⟩,
            [callNode 1 [byteOf 1] [byteOf 1] 0 [], callNode 1 [] [] 0 []], "", 0⟩]⟩ ()).1.filter
          Event.isBlock).length = 2 ∧
      Event.footer ∉ (computeStateHtml sampleGetCode strictEnv
        ⟨⟨1, 113, 45600, []⟩,
          [⟨paramsOnly [byteOf 1], ⟨0, [byteOf 1], 0⟩,
            [callNode 1 [byteOf 1] [byteOf 1] 0 [], callNode 1 [] [] 0 []], "", 0⟩]⟩ ()).1 :=
  have h := (computeStateHtml_fail_fast sampleGetCode strictEnv
    ⟨⟨1, 113, 45600, []⟩,
      [⟨paramsOnly [byteOf 1], ⟨0, [byteOf 1], 0⟩,
        [callNode 1 [byteOf 1] [byteOf 1] 0 [], callNode 1 [] [] 0 []], "", 0⟩]⟩ ()).1
    [Node.root ⟨paramsOnly [byteOf 1], ⟨0, [byteOf 1], 0⟩,
        [callNode 1 [byteOf 1] [byteOf 1] 0 [], callNode 1 [] [] 0 []], "", 0⟩,
      Node.sub (callNode 1 [byteOf 1] [byteOf 1] 0 [])]
    (Node.sub (callNode 1 [] [] 0 [])) []
    (scan sampleGetCode strictEnv
      [Node.root ⟨paramsOnly [byteOf 1], ⟨0, [byteOf 1], 0⟩,
          [callNode 1 [byteOf 1] [byteOf 1] 0 [], callNode 1 [] [] 0 []], "", 0⟩,
        Node.sub (callNode 1 [byteOf 1] [byteOf 1] 0 [])] ()).1
    () "decoding params: EOF" () rfl (by decide)
    (Or.inr (Or.inl ⟨.InitActorCodeID, "EOF", by decide, by decide, by decide⟩))
  ⟨h.1, by rw [h.2.2.1]; decide, h.2.2.2.2.2⟩

theorem tabs_succ (pre : String) (d : Nat) : pre ++ tabs d ++ "\t" = pre ++ tabs (d + 1) := by
  rw [tabs, String.append_assoc]

mutual
theorem printExecution_walk (f : Fmt) (pre : String) :
    ∀ (im : ExecutionResult) (d : Nat),
      printExecution f (pre ++ tabs d) im =
        (walk d im).map (fun p => traceLine f (pre ++ tabs p.1) p.2.Msg p.2.MsgRct)
  | .mk msg rct error dur subs, d => by
    rw [printExecution, walk, tabs_succ, printInternalExecutions_walk f pre subs (d + 1)]
    rfl
theorem printInternalExecutions_walk (f : Fmt) (pre : String) :
    ∀ (trace : List ExecutionResult) (d : Nat),
      printInternalExecutions f (pre ++ tabs d) trace =
        (walkAll d trace).map (fun p => traceLine f (pre ++ tabs p.1) p.2.Msg p.2.MsgRct)
  | [], d => by simp [printInternalExecutions, walkAll]
  | im :: rest, d => by
    rw [printInternalExecutions, walkAll, List.map_append, printExecution_walk f pre im d,
      printInternalExecutions_walk f pre rest d]
end

theorem walkAll_cons (d : Nat) (n : ExecutionResult) (rest : List ExecutionResult) :
    walkAll d (n :: rest) = (d, n) :: (walkAll (d + 1) n.Subcalls ++ walkAll d rest) := by
  cases n with
  | mk msg rct error dur subs => simp [walkAll, walk, ExecutionResult.Subcalls]

/-- C16: both renderers are total functions of a finite trace forest, and both follow the
pre-order traversal, in which a node comes before its subcalls and all of its subtree before
its next sibling, with children in their original order. `printInternalExecutions` prints
exactly one line per node in that order, and the line of a node at depth `d` starts with the
given text followed by `d` tab characters. `printInternalExecutionsHtml` prints the blocks of
the nodes in the same order: all of them when it returns without error, and otherwise those
of the nodes before the one at which it stopped. -/
theorem renderers_follow_preorder {σ V : Type} (f : Fmt) (pre : String)
    (gc : GetCode σ) (env : RenderEnv V) (trace : List ExecutionResult) (st : σ) :
    (∀ d n rest, walkAll d (n :: rest) =
        (d, n) :: (walkAll (d + 1) n.Subcalls ++ walkAll d rest)) ∧
      printInternalExecutions f pre trace =
        (walkAll 0 trace).map (fun p => pre ++ tabs p.1 ++
          (f.address p.2.Msg.From ++ "\t" ++ f.address p.2.Msg.To ++ "\t"
            ++ f.bigint p.2.Msg.Value ++ "\t" ++ toString p.2.Msg.Method ++ "\t"
            ++ f.hex p.2.Msg.Params ++ "\t" ++ toString p.2.MsgRct.ExitCode ++ "\t"
            ++ f.hex p.2.MsgRct.Return ++ "\n")) ∧
      (printInternalExecutions f pre trace).length = (walkAll 0 trace).length ∧
      ((printInternalExecutionsHtml gc env trace st).2.2 = .ret () →
        ((printInternalExecutionsHtml gc env trace st).1.filter Event.isBlock).filterMap
            Event.call = (walkAll 0 trace).map (fun p => (Node.sub p.2).call)) ∧
      (∃ k, k ≤ (walkAll 0 trace).length ∧
        ((printInternalExecutionsHtml gc env trace st).1.filter Event.isBlock).filterMap
            Event.call = ((walkAll 0 trace).take k).map (fun p => (Node.sub p.2).call)) := by
  have htext : printInternalExecutions f pre trace =
      (walkAll 0 trace).map (fun p => traceLine f (pre ++ tabs p.1) p.2.Msg p.2.MsgRct) := by
    have h := printInternalExecutions_walk f pre trace 0
    have h0 : pre ++ tabs 0 = pre := by rw [tabs, String.append_empty]
    rw [h0] at h
    exact h
  have hscan := printInternalExecutionsHtml_scan gc env trace 0 st
  obtain ⟨c1, c2, c3⟩ := scan_calls gc env _ _ _ _ _ hscan
  refine ⟨walkAll_cons, htext, by rw [htext, List.length_map], fun hret => ?_, ?_⟩
  · rw [c1, c3 () hret, List.take_length, List.map_map]
    rfl
  · refine ⟨_, by simpa using c2, ?_⟩
    rw [c1, List.map_take, List.map_take, List.map_map]
    rfl

/-! ## The cache of `getCode` -/

theorem getCode_hit {ω : Type} (api : StateGetActor ω) (st : CodeCache ω) (a : Address)
    (c : CodeID) (h : st.codeCache.lookup a = some c) : getCode api st a = (.ret c, st) := by
  simp [getCode, h]

theorem getCode_lookup_mono {ω : Type} (api : StateGetActor ω) (st : CodeCache ω)
    (a b : Address) (c : CodeID) (h : st.codeCache.lookup a = some c) :
    (getCode api st b).2.codeCache.lookup a = some c := by
  unfold getCode
  rcases hb : st.codeCache.lookup b with _ | cb
  · have hab : (a == b) = false := by
      apply beq_false_of_ne
      intro hab; rw [hab, hb] at h; cases h
    rcases api st.node b with ⟨actor | e | e, w⟩
    · simp [List.lookup, hab, h]
    · simpa using h
    · simpa using h
  · simpa using h

theorem getCodeAll_lookup_mono {ω : Type} (api : StateGetActor ω) (a : Address)
    (c : CodeID) :
    ∀ (addrs : List Address) (st : CodeCache ω), st.codeCache.lookup a = some c →
      (getCodeAll api addrs st).codeCache.lookup a = some c := by
  intro addrs
  induction addrs with
  | nil => intro st h; exact h
  | cons b rest ih =>
    intro st h
    rw [getCodeAll]
    exact ih _ (getCode_lookup_mono api st a b c h)

theorem getCode_ret_cached {ω : Type} (api : StateGetActor ω) (st st1 : CodeCache ω)
    (a : Address) (c : CodeID) (h : getCode api st a = (.ret c, st1)) :
    st1.codeCache.lookup a = some c := by
  unfold getCode at h
  rcases ha : st.codeCache.lookup a with _ | ca
  · rw [ha] at h
    simp only at h
    rcases hapi : api st.node a with ⟨actor | e | e, w⟩
    · rw [hapi] at h
      simp only [Prod.mk.injEq, Result.ret.injEq] at h
      obtain ⟨h1, h2⟩ := h
      subst h2
      simp [List.lookup, h1]
    · rw [hapi] at h; simp at h
    · rw [hapi] at h; simp at h
  · rw [ha] at h
    simp only [Prod.mk.injEq, Result.ret.injEq] at h
    obtain ⟨h1, h2⟩ := h
    subst h1; subst h2
    exact ha

theorem getCode_err_inv {ω : Type} (api : StateGetActor ω) (st st1 : CodeCache ω)
    (a : Address) (e : String) (h : getCode api st a = (.err e, st1)) :
    (api st.node a).1 = .err e ∧ st1.codeCache = st.codeCache ∧
      st.codeCache.lookup a = none ∧ st1.node = (api st.node a).2 := by
  unfold getCode at h
  rcases ha : st.codeCache.lookup a with _ | ca
  · rw [ha] at h
    simp only at h
    rcases hapi : api st.node a with ⟨actor | e1 | e1, w⟩
    · rw [hapi] at h; simp at h
    · rw [hapi] at h
      simp only [Prod.mk.injEq, Result.err.injEq] at h
      obtain ⟨h1, h2⟩ := h
      subst h1; subst h2
      exact ⟨rfl, rfl, rfl, rfl⟩
    · rw [hapi] at h; simp at h
  · rw [ha] at h; simp at h

/-- On a miss `getCode` is one call of the collaborator: the state of the collaborator
after `getCode` is its state after that call, and an actor it gives is returned by its class
and stored under the address. -/
theorem getCode_miss {ω : Type} (api : StateGetActor ω) (st : CodeCache ω) (a : Address)
    (h : st.codeCache.lookup a = none) :
    (getCode api st a).2.node = (api st.node a).2 ∧
      ∀ actor, (api st.node a).1 = .ret actor →
        (getCode api st a).1 = .ret actor.Code ∧
          (getCode api st a).2.codeCache = (a, actor.Code) :: st.codeCache := by
  unfold getCode
  rw [h]
  rcases hapi : api st.node a with ⟨actor | e | e, w⟩
  · refine ⟨rfl, fun actor1 h1 => ?_⟩
    simp only [Result.ret.injEq] at h1
    subst h1
    exact ⟨rfl, rfl⟩
  · exact ⟨rfl, fun actor1 h1 => by simp at h1⟩
  · exact ⟨rfl, fun actor1 h1 => by simp at h1⟩

/-- The invariant of the cache over a collaborator that records its calls: an address has
one resolved call on the record when it is a key of the cache and none otherwise, and every
entry of the cache is the class of the actor that the collaborator gave in a recorded call
for that address. -/
theorem getCode_invariant (answer : List (Address × Result Actor) → Address → Result Actor)
    (st : CodeCache (List (Address × Result Actor))) (b : Address)
    (h1 : ∀ a, (st.node.filter (resolved a)).length =
      if (st.codeCache.lookup a).isSome then 1 else 0)
    (h2 : ∀ a c, st.codeCache.lookup a = some c →
      ∃ i actor, st.node[i]? = some (a, .ret actor) ∧
        answer (st.node.take i) a = .ret actor ∧ actor.Code = c) :
    (∀ a, ((getCode (recording answer) st b).2.node.filter (resolved a)).length =
        if ((getCode (recording answer) st b).2.codeCache.lookup a).isSome then 1 else 0) ∧
      (∀ a c, (getCode (recording answer) st b).2.codeCache.lookup a = some c →
        ∃ i actor, (getCode (recording answer) st b).2.node[i]? = some (a, .ret actor) ∧
          answer ((getCode (recording answer) st b).2.node.take i) a = .ret actor ∧
          actor.Code = c) := by
  have hext : ∀ (x : Address × Result Actor) a c, st.codeCache.lookup a = some c →
      ∃ i actor, (st.node ++ [x])[i]? = some (a, .ret actor) ∧
        answer ((st.node ++ [x]).take i) a = .ret actor ∧ actor.Code = c := by
    intro x a c hac
    obtain ⟨i, actor, g1, g2, g3⟩ := h2 a c hac
    have hi : i < st.node.length := by
      by_contra hge
      rw [List.getElem?_eq_none (Nat.le_of_not_lt hge)] at g1
      cases g1
    refine ⟨i, actor, ?_, ?_, g3⟩
    · rw [List.getElem?_append_left hi]; exact g1
    · rw [List.take_append_of_le_length (Nat.le_of_lt hi)]; exact g2
  unfold getCode recording
  rcases hb : st.codeCache.lookup b with _ | cb
  · rcases hapi : answer st.node b with actor | e | e
    · simp only
      constructor
      · intro a
        by_cases hab : a = b
        · subst hab
          have h0 := h1 a
          rw [hb] at h0
          simp only [Option.isSome_none, Bool.false_eq_true, if_false] at h0
          simp [List.filter_append, h0, resolved, List.lookup]
        · have hne : (a == b) = false := beq_false_of_ne hab
          have hba : ¬ b = a := fun h => hab h.symm
          have hl : List.lookup a ((b, actor.Code) :: st.codeCache) =
              List.lookup a st.codeCache := by
            simp [List.lookup, hne]
          rw [hl]
          simp [List.filter_append, resolved, hba, h1 a]
      · intro a c hac
        by_cases hab : a = b
        · subst hab
          simp only [List.lookup, beq_self_eq_true, Option.some.injEq] at hac
          refine ⟨st.node.length, actor, by simp, by simpa using hapi, hac⟩
        · have hne : (a == b) = false := beq_false_of_ne hab
          simp only [List.lookup, hne] at hac
          exact hext _ a c hac
    · simp only
      constructor
      · intro a
        simp [List.filter_append, resolved, h1 a]
      · intro a c hac
        exact hext _ a c hac
    · simp only
      constructor
      · intro a
        simp [List.filter_append, resolved, h1 a]
      · intro a c hac
        exact hext _ a c hac
  · exact ⟨h1, h2⟩

theorem getCodeAll_invariant
    (answer : List (Address × Result Actor) → Address → Result Actor) :
    ∀ (addrs : List Address) (st : CodeCache (List (Address × Result Actor))),
      (∀ a, (st.node.filter (resolved a)).length =
        if (st.codeCache.lookup a).isSome then 1 else 0) →
      (∀ a c, st.codeCache.lookup a = some c →
        ∃ i actor, st.node[i]? = some (a, .ret actor) ∧
          answer (st.node.take i) a = .ret actor ∧ actor.Code = c) →
      (∀ a, ((getCodeAll (recording answer) addrs st).node.filter (resolved a)).length =
          if ((getCodeAll (recording answer) addrs st).codeCache.lookup a).isSome
          then 1 else 0) ∧
        (∀ a c, (getCodeAll (recording answer) addrs st).codeCache.lookup a = some c →
          ∃ i actor,
            (getCodeAll (recording answer) addrs st).node[i]? = some (a, .ret actor) ∧
            answer ((getCodeAll (recording answer) addrs st).node.take i) a = .ret actor ∧
            actor.Code = c) := by
  intro addrs
  induction addrs with
  | nil => intro st h1 h2; exact ⟨h1, h2⟩
  | cons b rest ih =>
    intro st h1 h2
    rw [getCodeAll]
    obtain ⟨g1, g2⟩ := getCode_invariant answer st b h1 h2
    exact ih _ g1 g2

theorem subHead_state {σ V : Type} (gc : GetCode σ) (env : RenderEnv V) (msg : Message)
    (rct : MessageReceipt) (st : σ) :
    (subHead gc env msg rct st).2 = (gc st msg.To).2 := by
  unfold subHead
  rcases gc st msg.To with ⟨toCode | e | e, s1⟩
  · simp only
    (repeat' split) <;> rfl
  · rfl
  · rfl

theorem rootHead_state {σ V : Type} (gc : GetCode σ) (env : RenderEnv V) (msg : Message)
    (rct : MessageReceipt) (duration : Int) (st : σ) :
    (rootHead gc env msg rct duration st).2 = (gc st msg.To).2 := by
  unfold rootHead
  rcases gc st msg.To with ⟨toCode | e | e, s1⟩
  · simp only
    (repeat' split) <;> rfl
  · rfl
  · rfl

/-- The first part of the loop body changes the state of `getCode` by one call of it, for the
receiver of the node. -/
theorem head_state {σ V : Type} (gc : GetCode σ) (env : RenderEnv V) (n : Node) (st : σ) :
    (n.head gc env st).2 = (gc st n.Msg.To).2 := by
  cases n with
  | root ir => exact rootHead_state gc env ir.Msg ir.MsgRct ir.Duration st
  | sub im => exact subHead_state gc env im.Msg im.MsgRct st

/-- A property of the state that every call of `getCode` keeps holds after the traversal. -/
theorem scan_state {σ V : Type} (gc : GetCode σ) (env : RenderEnv V) (P : σ → Prop)
    (hP : ∀ st a, P st → P (gc st a).2) :
    ∀ (nodes : List Node) (st : σ), P st → P (scan gc env nodes st).2.1 := by
  intro nodes
  induction nodes with
  | nil => intro st h; simpa [scan] using h
  | cons n rest ih =>
    intro st h
    have hs := head_state gc env n st
    have hn := hP st n.Msg.To h
    rw [← hs] at hn
    rw [scan_cons]
    rcases hh : n.head gc env st with ⟨block | e | e, s1⟩
    · rw [hh] at hn
      exact ih s1 hn
    · rw [hh] at hn; exact hn
    · rw [hh] at hn; exact hn

/-- C17: the closure `getCode` caches. After `getCode` succeeded for an address, the class
is stored under the address, and every later call for it returns the same class and leaves
the whole state as it is, the state of the collaborator included: the collaborator is not
called, whatever it would answer now. On a miss the collaborator is called once; a failed
resolution returns the collaborator's error and leaves the cache as it was. Hence, over a
collaborator that records the calls made to it, in every state reached from a fresh cache,
and at the end of a render call, the record holds for each address exactly one call that
gave an actor when the address is a key of the cache and none otherwise, so at most one,
and every entry of the cache is the class of the actor given in a recorded call for that
address. -/
theorem getCode_consults_once {ω V : Type} (api : StateGetActor ω) (st : CodeCache ω)
    (answer : List (Address × Result Actor) → Address → Result Actor)
    (addrs : List Address) (env : RenderEnv V) (stout : ComputeStateOutput) :
    (∀ a c st1, getCode api st a = (.ret c, st1) →
      st1.codeCache.lookup a = some c ∧
        ∀ more, getCode api (getCodeAll api more st1) a =
          (.ret c, getCodeAll api more st1)) ∧
      (∀ a, st.codeCache.lookup a = none →
        (getCode api st a).2.node = (api st.node a).2 ∧
          ∀ actor, (api st.node a).1 = .ret actor →
            (getCode api st a).1 = .ret actor.Code ∧
              (getCode api st a).2.codeCache = (a, actor.Code) :: st.codeCache) ∧
      (∀ a e st1, getCode api st a = (.err e, st1) →
        (api st.node a).1 = .err e ∧ st1.codeCache = st.codeCache ∧
          st.codeCache.lookup a = none ∧ st1.node = (api st.node a).2) ∧
      (∀ a, ((getCodeAll (recording answer) addrs ⟨[], []⟩).node.filter (resolved a)).length =
        if ((getCodeAll (recording answer) addrs ⟨[], []⟩).codeCache.lookup a).isSome
        then 1 else 0) ∧
      (∀ a c, (getCodeAll (recording answer) addrs ⟨[], []⟩).codeCache.lookup a = some c →
        ∃ i actor,
          (getCodeAll (recording answer) addrs ⟨[], []⟩).node[i]? = some (a, .ret actor) ∧
          answer ((getCodeAll (recording answer) addrs ⟨[], []⟩).node.take i) a
            = .ret actor ∧
          actor.Code = c) ∧
      (∀ a, ((stateComputeHtml (recording answer) [] env stout).2.1.node.filter
          (resolved a)).length =
        if ((stateComputeHtml (recording answer) [] env stout).2.1.codeCache.lookup a).isSome
        then 1 else 0) ∧
      (∀ a, ((stateComputeHtml (recording answer) [] env stout).2.1.node.filter
        (resolved a)).length ≤ 1) := by
  obtain ⟨g1, g2⟩ := getCodeAll_invariant answer addrs ⟨[], []⟩ (by simp) (by simp)
  have hrender : ∀ a,
      ((stateComputeHtml (recording answer) [] env stout).2.1.node.filter
        (resolved a)).length =
      if ((stateComputeHtml (recording answer) [] env stout).2.1.codeCache.lookup a).isSome
      then 1 else 0 := by
    have hinv := scan_state (getCode (recording answer)) env
      (fun st => (∀ a, (st.node.filter (resolved a)).length =
          if (st.codeCache.lookup a).isSome then 1 else 0) ∧
        (∀ a c, st.codeCache.lookup a = some c →
          ∃ i actor, st.node[i]? = some (a, .ret actor) ∧
            answer (st.node.take i) a = .ret actor ∧ actor.Code = c))
      (fun st a h => getCode_invariant answer st a h.1 h.2)
      (traceNodes stout.Trace) ⟨[], []⟩ ⟨by simp, by simp⟩
    have hst : (scan (getCode (recording answer)) env (traceNodes stout.Trace) ⟨[], []⟩).2.1 =
        (stateComputeHtml (recording answer) [] env stout).2.1 := by
      rw [computeStateHtml_scan]
      rfl
    rw [hst] at hinv
    exact hinv.1
  refine ⟨?_, ?_, ?_, g1, g2, hrender, ?_⟩
  · intro a c st1 h
    have hc := getCode_ret_cached api st st1 a c h
    exact ⟨hc, fun more =>
      getCode_hit api _ a c (getCodeAll_lookup_mono api a c more st1 hc)⟩
  · intro a h
    exact getCode_miss api st a h
  · intro a e st1 h
    exact getCode_err_inv api st st1 a e h
  · intro a
    rw [hrender a]
    split <;> omega

/-- C17 (witness): the sample collaborator gives an init actor at the first call and a
cron actor at every later one. After calls of `getCode` for `[1]`, `[1]`, `[3]` and `[1]`
its record holds two calls, one for each address, and `getCode` still gives the init actor
for `[1]`, from the cache, leaving the record as it is. -/
theorem getCode_consults_once_witness :
    (getCodeAll (recording sampleAnswer) [[byteOf 1], [byteOf 1], [byteOf 3], [byteOf 1]]
        ⟨[], []⟩).node =
        [([byteOf 1], .ret ⟨.InitActorCodeID, 0, 0⟩),
          ([byteOf 3], .ret ⟨.CronActorCodeID, 0, 0⟩)] ∧
      (getCode (recording sampleAnswer)
        (getCodeAll (recording sampleAnswer)
          [[byteOf 1], [byteOf 1], [byteOf 3], [byteOf 1]] ⟨[], []⟩) [byteOf 1]).1
        = .ret .InitActorCodeID ∧
      ((getCodeAll (recording sampleAnswer) [[byteOf 1], [byteOf 1], [byteOf 3], [byteOf 1]]
        ⟨[], []⟩).node.filter (resolved [byteOf 1])).length = 1 :=
  ⟨by decide, by decide,
    ((getCode_consults_once (V := Unit) (recording sampleAnswer) ⟨[], []⟩ sampleAnswer
      [[byteOf 1], [byteOf 1], [byteOf 3], [byteOf 1]] sampleEnv ⟨⟨1, 0, 0, []⟩, []⟩).2.2.2.1
      [byteOf 1]).trans (by decide)⟩

end Lotus
